import Mathlib

/-!
Kernel coverage attribution backend (`pkg/cover/backend/dwarf.go`)

A shallow embedding of the DWARF coverage backend: the per-architecture call
decoders, the text scanner `readCoverPoints`, and the assembler `buildSymbols`
together with the aggregation code of `makeDWARFUnsafe`; the Rust range
reconstruction, the compiler version check, the per-module tasks and the
recovery of panics in `makeDWARF`, the worker count of `symbolizeModule`, the
objdump line scanner `parseLine`, and the path canonicalisation `CleanPath`.

Conventions.
* `uint64` values are natural numbers; every `uint64` addition or
  multiplication of the source is followed by an explicit `% 2 ^ 64`.
* A `[]byte` is a `List Nat` whose elements are below 256.
* Go slices are modelled by the list of their elements.
* Go pointers (`*Symbol`, `*CompileUnit`) are addresses (`Nat`) into a `Heap`.
* A loop that may fail to exit carries a bound on its iterations and returns
  `none` when the bound is reached; a Go error is `Except.error`.
* Functions of the standard library and of packages outside this file are
  either modelled (`filepath.Clean`, `bytes.Index`, `strconv.ParseUint`, the
  regular expressions) or taken as parameters (`osutil.Abs`, `osutil.IsExist`,
  `sort.Slice` on ranges).
-/

namespace Backend

/-! ## Machine integers -/

/-- The modulus of `uint64` arithmetic. -/
def u64 : Nat := 2 ^ 64

/-- The Go standard library function `binary.LittleEndian.Uint32`, on the first four bytes of `b`. -/
def leUint32 (b : List Nat) : Nat :=
  b.getD 0 0 + b.getD 1 0 * 2 ^ 8 + b.getD 2 0 * 2 ^ 16 + b.getD 3 0 * 2 ^ 24

/-- The Go standard library function `binary.BigEndian.Uint32`, on the first four bytes of `b`. -/
def beUint32 (b : List Nat) : Nat :=
  b.getD 3 0 + b.getD 2 0 * 2 ^ 8 + b.getD 1 0 * 2 ^ 16 + b.getD 0 0 * 2 ^ 24

/-- The conversion chain `uint64(int64(int32(v)))` applied to a `uint32` value `v`:
values with bit 31 set are extended with ones up to bit 63. -/
def sext32 (v : Nat) : Nat :=
  if v < 2 ^ 31 then v else v + (2 ^ 64 - 2 ^ 32)

/-- The signed reading of a 32-bit pattern (two's complement), as a mathematical integer. -/
def signExtend32 (v : Nat) : Int :=
  if v < 2 ^ 31 then (v : Int) else (v : Int) - 2 ^ 32

/-- The signed reading of a 26-bit pattern (two's complement), as a mathematical integer. -/
def signExtend26 (v : Nat) : Int :=
  if v < 2 ^ 25 then (v : Int) else (v : Int) - 2 ^ 26

/-! ## Architecture descriptors -/

/-- The `Arch` struct. The two closures of the source receive the `*Arch` itself; the only
field either of them reads is `callLen`, which is what the first argument of `callTarget`
stands for. -/
structure Arch where
  scanSize : Nat
  callLen : Nat
  relaOffset : Nat
  callRelocType : Nat
  isCallInsn : List Nat → Bool
  callTarget : Nat → List Nat → Nat → Nat

/-- Entry `arches[targets.AMD64]`. -/
def amd64 : Arch where
  scanSize := 1
  callLen := 5
  relaOffset := 1
  callRelocType := 4
  isCallInsn := fun insn => insn.getD 0 0 == 0xe8
  callTarget := fun callLen insn pc =>
    let off := sext32 (leUint32 (insn.drop 1))
    ((pc + off) % u64 + callLen) % u64

/-- Entry `arches[targets.ARM64]`. -/
def arm64 : Arch where
  scanSize := 4
  callLen := 4
  relaOffset := 0
  callRelocType := 283
  isCallInsn := fun insn => leUint32 insn &&& 0xfc000000 == 0x94000000
  callTarget := fun _ insn pc =>
    let off26 := leUint32 insn &&& 0x3ffffff
    let sign := off26 >>> 25
    let off := if sign == 1 then off26 ||| 0xfffffffffc000000 else off26
    (pc + (4 * off) % u64) % u64

/-- Entry `arches[targets.S390x]`. -/
def s390x : Arch where
  scanSize := 1
  callLen := 6
  relaOffset := 0
  callRelocType := 20
  isCallInsn := fun insn => insn.getD 0 0 == 0xc0 && insn.getD 1 0 == 0xe5
  callTarget := fun _ insn pc =>
    let off := sext32 (beUint32 (insn.drop 2))
    (pc + (2 * off) % u64) % u64

/-- The table `arches`, keyed by the architecture name of `sys/targets`. -/
def arches (name : String) : Option Arch :=
  if name = "amd64" then some amd64
  else if name = "arm64" then some arm64
  else if name = "s390x" then some s390x
  else none

/-- The architectures that have a fast decoder, i.e. the values of the table `arches`. -/
def FastArch (arch : Arch) : Prop :=
  arch = amd64 ∨ arch = arm64 ∨ arch = s390x

/-- A byte string: every element is a byte. -/
def IsBytes (b : List Nat) : Prop :=
  ∀ x ∈ b, x < 256

/-! ## The text scanner -/

/-- The struct `symbolInfo`. The Go maps are used as sets of addresses (resp. of symbol table
indices); each is modelled by the list of its keys. -/
structure symbolInfo where
  textAddr : Nat
  tracePC : List Nat
  traceCmp : List Nat
  tracePCIdx : List Nat
  traceCmpIdx : List Nat

/-- The loop of `nextCallTarget`, started at `*pos = pos`. The result is the returned pair
`(target, pc)` followed by the final value of `*pos`. The first argument bounds the number of
iterations; `none` stands for a loop that never exits. -/
def nextCallTargetLoop (arch : Arch) (textAddr : Nat) (data : List Nat) :
    Nat → Nat → Option (Nat × Nat × Nat)
  | 0, _ => none
  | fuel + 1, pos =>
    if pos < data.length then
      let i := pos
      if i + arch.callLen > data.length then
        some (0, 0, pos)
      else
        let insn := (data.drop i).take arch.callLen
        if !arch.isCallInsn insn then
          nextCallTargetLoop arch textAddr data fuel (pos + arch.scanSize)
        else
          let pc := (textAddr + i) % u64
          let callTarget := arch.callTarget arch.callLen insn pc
          some (callTarget, pc, i + arch.scanSize)
    else
      some (0, 0, pos)

/-- The function `nextCallTarget`. With a positive `scanSize` the loop runs at most
`len(data) + 1` times. -/
def nextCallTarget (arch : Arch) (textAddr : Nat) (data : List Nat) (pos : Nat) :
    Option (Nat × Nat × Nat) :=
  nextCallTargetLoop arch textAddr data (data.length + 1) pos

/-- The `for` loop of `readCoverPoints`: `i` is the scan position, `pcs` the two output
slices. The first argument bounds the number of iterations; `none` stands for a loop that
never exits. -/
def readCoverPointsLoop (arch : Arch) (info : symbolInfo) (data : List Nat) :
    Nat → Nat → List Nat × List Nat → Option (List Nat × List Nat)
  | 0, _, _ => none
  | fuel + 1, i, pcs =>
    match nextCallTarget arch info.textAddr data i with
    | none => none
    | some (callTarget, pc, i') =>
      if callTarget = 0 then
        some pcs
      else if callTarget ∈ info.tracePC then
        readCoverPointsLoop arch info data fuel i' (pcs.1 ++ [pc], pcs.2)
      else if callTarget ∈ info.traceCmp then
        readCoverPointsLoop arch info data fuel i' (pcs.1, pcs.2 ++ [pc])
      else
        readCoverPointsLoop arch info data fuel i' pcs

/-- The function `readCoverPoints`, for `arch = arches[target.Arch]`. The outer `Option` is
`none` when the scan does not finish; the error of the source is `Except.error`. -/
def readCoverPoints (arch : Arch) (info : symbolInfo) (data : List Nat) :
    Option (Except String (List Nat × List Nat)) :=
  if info.tracePC.length = 0 then
    some (.error "no __sanitizer_cov_trace_pc symbol in the object file")
  else
    (readCoverPointsLoop arch info data (data.length + 1) 0 ([], [])).map .ok

/-- The window `data[i : i+callLen]` examined at offset `i`. -/
def window (arch : Arch) (data : List Nat) (i : Nat) : List Nat :=
  (data.drop i).take arch.callLen

/-- The program counter `textAddr + uint64(i)` of offset `i`. -/
def pcAt (textAddr i : Nat) : Nat :=
  (textAddr + i) % u64

/-- The call target computed for the window at offset `i`. -/
def targetAt (arch : Arch) (textAddr : Nat) (data : List Nat) (i : Nat) : Nat :=
  arch.callTarget arch.callLen (window arch data i) (pcAt textAddr i)

/-- Offset `i` is a candidate instruction start whose window decodes as a direct call: `i`
is a multiple of `scanSize`, the window fits into the data, and `isCallInsn` accepts it. -/
def IsSite (arch : Arch) (data : List Nat) (i : Nat) : Prop :=
  arch.scanSize ∣ i ∧ i + arch.callLen ≤ data.length ∧ arch.isCallInsn (window arch data i) = true

/-- A kernel image whose text starts at `0xffffffff81000000`: a first call whose target wraps
around to address 0, followed by a call to the callback at `textAddr + 10`. -/
def wrapInfo : symbolInfo where
  textAddr := 0xffffffff81000000
  tracePC := [0xffffffff8100000a]
  traceCmp := []
  tracePCIdx := []
  traceCmpIdx := []

/-- The text bytes `E8 FB FF FF 7E  E8 00 00 00 00` scanned together with `wrapInfo`. -/
def wrapText : List Nat :=
  [0xe8, 0xfb, 0xff, 0xff, 0x7e, 0xe8, 0x00, 0x00, 0x00, 0x00]

/-- A text with a single call `E8 00 00 00 00` at offset 0, for a text section at `0x1000`. -/
def oneCallInfo : symbolInfo where
  textAddr := 0x1000
  tracePC := [0x1005]
  traceCmp := []
  tracePCIdx := []
  traceCmpIdx := []

/-! ## Symbols, compile units and the heap -/

/-- Modelled from the spec: the struct `ObjectUnit` embedded in `Symbol` and `CompileUnit`
(its declaration is not part of the sources): a name, a path and the two PC slices. -/
structure ObjectUnit where
  Name : String
  Path : String
  PCs : List Nat
  CMPs : List Nat

/-- Modelled from the spec: the struct `CompileUnit` (its declaration is not part of the
sources). `Module` is the address of the `KernelModule` the unit belongs to. -/
structure CompileUnit extends ObjectUnit where
  Module : Nat

/-- Modelled from the spec: the struct `Symbol` (its declaration is not part of the sources).
`Unit` is the `*CompileUnit` of the symbol, `none` for a nil pointer. -/
structure Symbol extends ObjectUnit where
  Unit : Option Nat
  Start : Nat
  End : Nat

/-- The struct `pcRange`, the half-open range `[start; end)` of a compile unit; `unit` is the
address of the unit. (`end` is a keyword, hence `end_`.) -/
structure pcRange where
  start : Nat
  end_ : Nat
  unit : Nat
deriving DecidableEq

/-- The memory that `*Symbol` and `*CompileUnit` values point into. -/
structure Heap where
  symbols : Nat → Symbol
  units : Nat → CompileUnit

/-- Reading through the pointer returned by the closure `selectPCs` of `buildSymbols`:
index 0 selects `PCs`, index 1 selects `CMPs`. -/
def selectPCs (u : ObjectUnit) (typ : Nat) : List Nat :=
  if typ = 0 then u.PCs else u.CMPs

/-- Writing through the pointer returned by the closure `selectPCs` of `buildSymbols`. -/
def storePCs (u : ObjectUnit) (typ : Nat) (v : List Nat) : ObjectUnit :=
  if typ = 0 then { u with PCs := v } else { u with CMPs := v }

/-- The assignment `*selectPCs(&s.ObjectUnit, typ) = v` for the symbol at address `s`. -/
def Heap.setSymbolPCs (h : Heap) (s : Nat) (typ : Nat) (v : List Nat) : Heap :=
  let sym := h.symbols s
  { h with symbols :=
      Function.update h.symbols s { sym with toObjectUnit := storePCs sym.toObjectUnit typ v } }

/-- The assignment `*selectPCs(&u.ObjectUnit, typ) = v` for the unit at address `u`. -/
def Heap.setUnitPCs (h : Heap) (u : Nat) (typ : Nat) (v : List Nat) : Heap :=
  let cu := h.units u
  { h with units :=
      Function.update h.units u { cu with toObjectUnit := storePCs cu.toObjectUnit typ v } }

/-- The assignment `s.Unit = unit` for the symbol at address `s`. -/
def Heap.setSymbolUnit (h : Heap) (s : Nat) (unit : Nat) : Heap :=
  let sym := h.symbols s
  { h with symbols := Function.update h.symbols s { sym with Unit := some unit } }

/-! ## buildSymbols -/

/-- The inner loop `for ; symbolIdx < len(symbols) && pc >= symbols[symbolIdx].End; symbolIdx++`
of the first pass. The list argument is `symbols[symbolIdx:]`; the result is the new
`symbolIdx`. -/
def advanceSymbolIdx (h : Heap) (pc : Nat) : List Nat → Nat → Nat
  | [], symbolIdx => symbolIdx
  | s :: rest, symbolIdx =>
    if pc ≥ (h.symbols s).End then advanceSymbolIdx h pc rest (symbolIdx + 1) else symbolIdx

/-- The local variables of the first pass of `buildSymbols`, together with the heap. -/
structure AttrState where
  heap : Heap
  curSymbol : Option Nat
  firstSymbolPC : Int
  symbolIdx : Nat

/-- One iteration (index `i`) of the loop over `pcs` in the first pass of `buildSymbols`. -/
def attrStep (symbols : List Nat) (pcs : List Nat) (pcType : Nat) (st : AttrState) (i : Nat) :
    AttrState :=
  let pc := pcs.getD i 0
  let symbolIdx := advanceSymbolIdx st.heap pc (symbols.drop st.symbolIdx) st.symbolIdx
  let symb : Option Nat :=
    match symbols[symbolIdx]? with
    | some s =>
      if pc ≥ (st.heap.symbols s).Start ∧ pc < (st.heap.symbols s).End then some s else none
    | none => none
  let heap : Heap :=
    match st.curSymbol with
    | some cur =>
      if some cur ≠ symb then
        st.heap.setSymbolPCs cur pcType ((pcs.take i).drop st.firstSymbolPC.toNat)
      else st.heap
    | none => st.heap
  let firstSymbolPC : Int :=
    if st.curSymbol ≠ none ∧ st.curSymbol ≠ symb then -1 else st.firstSymbolPC
  let firstSymbolPC : Int :=
    if symb ≠ none ∧ firstSymbolPC = -1 then (i : Int) else firstSymbolPC
  { heap := heap, curSymbol := symb, firstSymbolPC := firstSymbolPC, symbolIdx := symbolIdx }

/-- The body of `for pcType := range coverPoints` in the first pass of `buildSymbols`, for
`pcs = coverPoints[pcType]`. -/
def attributeType (symbols : List Nat) (pcs : List Nat) (pcType : Nat) (h : Heap) : Heap :=
  let st := (List.range pcs.length).foldl (attrStep symbols pcs pcType)
    { heap := h, curSymbol := none, firstSymbolPC := -1, symbolIdx := 0 }
  match st.curSymbol with
  | some cur => st.heap.setSymbolPCs cur pcType (pcs.drop st.firstSymbolPC.toNat)
  | none => st.heap

/-- The first pass of `buildSymbols`: assign coverage point PCs to symbols. -/
def attributePCs (symbols : List Nat) (coverPoints : List Nat × List Nat) (h : Heap) : Heap :=
  attributeType symbols coverPoints.2 1 (attributeType symbols coverPoints.1 0 h)

/-- The inner loop `for ; rangeIndex < len(ranges) && ranges[rangeIndex].end <= s.Start;
rangeIndex++` of the second pass. The list argument is `ranges[rangeIndex:]`; the result is
the new `rangeIndex`. -/
def advanceRangeIndex (start : Nat) : List pcRange → Nat → Nat
  | [], rangeIndex => rangeIndex
  | r :: rest, rangeIndex =>
    if r.end_ ≤ start then advanceRangeIndex start rest (rangeIndex + 1) else rangeIndex

/-- The local variables of the second pass of `buildSymbols`, together with the heap; `kept`
is `symbols[:nsymbol]`. (The loop overwrites `symbols[nsymbol]` only at indices it has already
read.) -/
structure UnitState where
  heap : Heap
  rangeIndex : Nat
  kept : List Nat

/-- One iteration (symbol `s`) of the second pass of `buildSymbols`. -/
def unitStep (ranges : List pcRange) (st : UnitState) (s : Nat) : UnitState :=
  let rangeIndex :=
    advanceRangeIndex (st.heap.symbols s).Start (ranges.drop st.rangeIndex) st.rangeIndex
  match ranges[rangeIndex]? with
  | none => { st with rangeIndex := rangeIndex }
  | some r =>
    if (st.heap.symbols s).Start < r.start ∨ (st.heap.symbols s).PCs.length = 0 then
      { st with rangeIndex := rangeIndex }
    else
      { heap := st.heap.setSymbolUnit s r.unit, rangeIndex := rangeIndex, kept := st.kept ++ [s] }

/-- The second pass of `buildSymbols`: assign compile units to symbols and drop the symbols
without a unit or without PCs. -/
def assignUnits (symbols : List Nat) (ranges : List pcRange) (h : Heap) : UnitState :=
  symbols.foldl (unitStep ranges) { heap := h, rangeIndex := 0, kept := [] }

/-- One iteration (symbol `s`) of the third pass of `buildSymbols`. A retained symbol has a
non-nil `Unit`; the nil case stands for the nil dereference. -/
def propagateStep (pcType : Nat) (h : Heap) (s : Nat) : Heap :=
  match (h.symbols s).Unit with
  | none => h
  | some u =>
    let symbPCs := selectPCs (h.symbols s).toObjectUnit pcType
    let unitPCs := selectPCs (h.units u).toObjectUnit pcType
    let pos := unitPCs.length
    let unitPCs := unitPCs ++ symbPCs
    (h.setUnitPCs u pcType unitPCs).setSymbolPCs s pcType (unitPCs.drop pos)

/-- The third pass of `buildSymbols`: append the PCs of every retained symbol to its unit. -/
def propagatePCs (symbols : List Nat) (h : Heap) : Heap :=
  symbols.foldl (propagateStep 1) (symbols.foldl (propagateStep 0) h)

/-- The function `buildSymbols`: the returned slice and the heap it leaves behind. -/
def buildSymbols (symbols : List Nat) (ranges : List pcRange) (coverPoints : List Nat × List Nat)
    (h : Heap) : List Nat × Heap :=
  let st := assignUnits symbols ranges (attributePCs symbols coverPoints h)
  (st.kept, propagatePCs st.kept st.heap)

/-- Every PC stored in the symbol at address `p` lies in `[Start, End)`; index 0 of `selectPCs`
is `PCs`, every other index is `CMPs`. -/
def InRange (h : Heap) (p : Nat) : Prop :=
  ∀ typ, ∀ pc ∈ selectPCs (h.symbols p).toObjectUnit typ,
    (h.symbols p).Start ≤ pc ∧ pc < (h.symbols p).End

/-- The symbol `symb` that iteration `i` of the first pass computes for `pcs[i]`. -/
def stepSymb (symbols : List Nat) (pcs : List Nat) (st : AttrState) (i : Nat) : Option Nat :=
  (attrStep symbols pcs 0 st i).curSymbol

/-- The invariant of the loop over `pcs` in the first pass, before iteration `i`. -/
def AttrInv (symbols : List Nat) (pcs : List Nat) (i : Nat) (st : AttrState) : Prop :=
  (∀ p ∈ symbols, InRange st.heap p) ∧
  (st.curSymbol = none → st.firstSymbolPC = -1) ∧
  (∀ c, st.curSymbol = some c → c ∈ symbols ∧ 0 ≤ st.firstSymbolPC ∧ st.firstSymbolPC ≤ i ∧
    ∀ x ∈ (pcs.take i).drop st.firstSymbolPC.toNat,
      (st.heap.symbols c).Start ≤ x ∧ x < (st.heap.symbols c).End)

/-- `End` of the symbol at index `j` of the slice `symbols`. -/
def symEnd (h : Heap) (symbols : List Nat) (j : Nat) : Nat :=
  (h.symbols (symbols.getD j 0)).End

/-- `Start` of the symbol at index `j` of the slice `symbols`. -/
def symStart (h : Heap) (symbols : List Nat) (j : Nat) : Nat :=
  (h.symbols (symbols.getD j 0)).Start

/-- The reference attribution of a cover point `p` to the symbol at index `k`: `k` is the
smallest index `j` with `p < symbols[j].End`, and `symbols[k].Start <= p`. -/
def Owns (h : Heap) (symbols : List Nat) (k p : Nat) : Prop :=
  k < symbols.length ∧ p < symEnd h symbols k ∧ (∀ j, j < k → symEnd h symbols j ≤ p) ∧
    symStart h symbols k ≤ p

instance (h : Heap) (symbols : List Nat) (k p : Nat) : Decidable (Owns h symbols k p) := by
  unfold Owns
  infer_instance

/-- The reference definition of the first pass: the cover points attributed to the symbol at
index `k`, in the order of `pcs`. -/
def ownedPCs (h : Heap) (symbols : List Nat) (k : Nat) (pcs : List Nat) : List Nat :=
  pcs.filter (fun p => decide (Owns h symbols k p))

/-- The invariant of the loop over `pcs` in the first pass that ties the heap to the reference
attribution, before iteration `i`; `h0` is the heap the pass started from. -/
def AttrRef (h0 : Heap) (symbols pcs : List Nat) (typ i : Nat) (st : AttrState) : Prop :=
  (∀ p, (st.heap.symbols p).Start = (h0.symbols p).Start ∧
    (st.heap.symbols p).End = (h0.symbols p).End) ∧
  (st.symbolIdx ≤ symbols.length ∧
    ∀ j, j < st.symbolIdx → ∀ x ∈ pcs.drop i, symEnd h0 symbols j ≤ x) ∧
  (st.curSymbol = none → st.firstSymbolPC = -1) ∧
  (∀ k, k < symbols.length → st.curSymbol ≠ some (symbols.getD k 0) →
    selectPCs (st.heap.symbols (symbols.getD k 0)).toObjectUnit typ
      = ownedPCs h0 symbols k (pcs.take i) ∧
    (∀ x ∈ pcs.drop i, Owns h0 symbols k x → ownedPCs h0 symbols k (pcs.take i) = [])) ∧
  (∀ k, k < symbols.length → st.curSymbol = some (symbols.getD k 0) →
    0 ≤ st.firstSymbolPC ∧ st.firstSymbolPC < i ∧
    (pcs.take i).drop st.firstSymbolPC.toNat = ownedPCs h0 symbols k (pcs.take i)) ∧
  (∀ c, st.curSymbol = some c → ∃ k, k < symbols.length ∧ symbols.getD k 0 = c)

/-! ## The assembler of makeDWARFUnsafe -/

/-- The struct `binResult` local to `makeDWARFUnsafe`: what one per-module task sends over the
channel `binC`. `err` is `none` for a nil error. -/
structure binResult where
  symbols : List Nat
  coverPoints : List Nat × List Nat
  ranges : List pcRange
  units : List Nat
  err : Option String

/-- The variables `allSymbols`, `allCoverPoints`, `allRanges` and `allUnits` of
`makeDWARFUnsafe`. -/
structure Aggregate where
  allSymbols : List Nat
  allCoverPoints : List Nat × List Nat
  allRanges : List pcRange
  allUnits : List Nat

/-- Modelled from the spec: the output struct `Impl` (its declaration is not part of the
sources), without the closure `Symbolize`. `Units` and `Symbols` hold addresses. -/
structure Impl where
  Units : List Nat
  Symbols : List Nat
  CallbackPoints : List Nat
  PreciseCoverage : Bool

/-- The loop `for range modules { result := <-binC ... }` of `makeDWARFUnsafe`; the list holds
the results in the order in which they are received. -/
def drain : List binResult → Aggregate → Except String Aggregate
  | [], a => .ok a
  | result :: rest, a =>
    match result.err with
    | some e => .error e
    | none =>
      drain rest
        { allSymbols := a.allSymbols ++ result.symbols
          allCoverPoints := (a.allCoverPoints.1 ++ result.coverPoints.1,
            a.allCoverPoints.2 ++ result.coverPoints.2)
          allRanges := a.allRanges ++ result.ranges
          allUnits := a.allUnits ++ result.units }

/-- The loop that fills the map `uniqSymbs`, keyed by `Start`. The second argument lists the
values of the map in the order of their insertion; a key is present iff one of them has that
`Start`. -/
def uniqSymbs (h : Heap) : List Nat → List Nat → List Nat
  | [], acc => acc
  | sym :: rest, acc =>
    if acc.any (fun s => (h.symbols s).Start == (h.symbols sym).Start) then
      uniqSymbs h rest acc
    else
      uniqSymbs h rest (acc ++ [sym])

/-- The statement `sort.Slice(allSymbols, ...)` applied to the values of `uniqSymbs`. The
values have pairwise distinct `Start`, so the sorted slice does not depend on the order in
which the map is iterated nor on the sorting algorithm. -/
def sortSymbols (h : Heap) (symbols : List Nat) : List Nat :=
  symbols.insertionSort (fun a b => (h.symbols a).Start ≤ (h.symbols b).Start)

/-- The statement `sort.Slice(allCoverPoints[k], ...)`; sorting plain numbers has one result. -/
def sortPCs (pcs : List Nat) : List Nat :=
  pcs.insertionSort (· ≤ ·)

/-- What is assumed of `sort.Slice(allRanges, ...)`: the result is a permutation of the slice,
sorted by `start`. (`sort.Slice` is not stable, so ranges with equal `start` may come out in
any order.) -/
def IsRangeSort (sortRanges : List pcRange → List pcRange) : Prop :=
  ∀ l, (sortRanges l).Perm l ∧ (sortRanges l).Pairwise (fun a b => a.start ≤ b.start)

/-- A sorting function for ranges: insertion sort by `start`. -/
def insertionSortRanges (l : List pcRange) : List pcRange :=
  l.insertionSort (fun a b => a.start ≤ b.start)

/-- The assignment `unit.Name, unit.Path = name, path` for the unit at address `u`. -/
def Heap.setUnitName (h : Heap) (u : Nat) (name path : String) : Heap :=
  let cu := h.units u
  { h with units := Function.update h.units u { cu with Name := name, Path := path } }

/-- The loop over `allUnits` of `makeDWARFUnsafe` that drops the units without PCs; the last
argument is `allUnits[:nunit]`. `cleanPath` stands for `CleanPath` with the kernel directories
and the split-build delimiters of the parameters. -/
def keepUnits (cleanPath : String → String × String) : List Nat → Heap → List Nat → List Nat × Heap
  | [], h, kept => (kept, h)
  | unit :: rest, h, kept =>
    if (h.units unit).PCs.length = 0 then
      keepUnits cleanPath rest h kept
    else
      let np := cleanPath (h.units unit).Name
      keepUnits cleanPath rest (h.setUnitName unit np.1 np.2) (kept ++ [unit])

/-- The function `makeDWARFUnsafe` from the point where the per-module tasks have been
started: `results` are the values received from `binC`, in order; `preciseCoverage` is the
flag computed while the tasks are started; `sortRanges` is `sort.Slice` on `allRanges`. -/
def makeDWARFUnsafe (sortRanges : List pcRange → List pcRange)
    (cleanPath : String → String × String) (preciseCoverage : Bool)
    (results : List binResult) (h : Heap) : Except String (Impl × Heap) :=
  match drain results
      { allSymbols := [], allCoverPoints := ([], []), allRanges := [], allUnits := [] } with
  | .error e => .error e
  | .ok a =>
    let allSymbols := sortSymbols h (uniqSymbs h a.allSymbols [])
    let allRanges := sortRanges a.allRanges
    let allCoverPoints := (sortPCs a.allCoverPoints.1, sortPCs a.allCoverPoints.2)
    let built := buildSymbols allSymbols allRanges allCoverPoints h
    let units := keepUnits cleanPath a.allUnits built.2 []
    if built.1.length = 0 ∨ units.1.length = 0 then
      .error "failed to parse DWARF (set CONFIG_DEBUG_INFO=y on linux)"
    else
      .ok ({ Units := units.1, Symbols := built.1, CallbackPoints := allCoverPoints.1,
             PreciseCoverage := preciseCoverage }, units.2)

/-- The first range of the slice `ranges` whose `[start; end)` contains the address `x`. -/
def firstCover (ranges : List pcRange) (x : Nat) : Option pcRange :=
  ranges.find? (fun rg => decide (rg.start ≤ x ∧ x < rg.end_))

/-- The symbol at address `s` is retained by the second pass: some range contains its `Start`
and it has at least one PC. -/
def Retained (h : Heap) (ranges : List pcRange) (s : Nat) : Prop :=
  (∃ rg ∈ ranges, rg.start ≤ (h.symbols s).Start ∧ (h.symbols s).Start < rg.end_) ∧
    (h.symbols s).PCs ≠ []

instance (h : Heap) (ranges : List pcRange) (s : Nat) : Decidable (Retained h ranges s) := by
  unfold Retained
  infer_instance

/-! ## The fixture of the end-to-end scenario -/

/-- The heap of the fixture: `funcA = [0x1000, 0x1100)` at address 0, `funcB = [0x1100, 0x1200)`
at address 1, both without PCs, and compile units without PCs. -/
def fixtureHeap : Heap where
  symbols := fun p =>
    if p = 0 then
      { Name := "funcA", Path := "", PCs := [], CMPs := [], Unit := none,
        Start := 0x1000, End := 0x1100 }
    else
      { Name := "funcB", Path := "", PCs := [], CMPs := [], Unit := none,
        Start := 0x1100, End := 0x1200 }
  units := fun _ => { Name := "main.c", Path := "", PCs := [], CMPs := [], Module := 0 }

/-- The symbol slice of the fixture: `funcA`, `funcB`. -/
def fixtureSymbols : List Nat := [0, 1]

/-- The cover points of the fixture: `pcA = 0x1010` and `pcB = 0x1110` call
`__sanitizer_cov_trace_pc`, `pcCmp = 0x1120` calls `__sanitizer_cov_trace_cmp4`. -/
def fixtureCoverPoints : List Nat × List Nat := ([0x1010, 0x1110], [0x1120])

/-- The single compile unit range of the fixture. -/
def fixtureRanges : List pcRange := [{ start := 0x1000, end_ := 0x1200, unit := 0 }]

/-- The fixture as the result of its single module. -/
def fixtureResult : binResult where
  symbols := fixtureSymbols
  coverPoints := fixtureCoverPoints
  ranges := fixtureRanges
  units := [0]
  err := none

/-- A heap in which the symbol at address 1, `[0x200, 0x300)`, already carries the PCs
`[9, 3]` before the assembly; the symbol at address 0 is `[0, 0x100)` without PCs. -/
def presetHeap : Heap where
  symbols := fun p =>
    if p = 0 then
      { Name := "f", Path := "", PCs := [], CMPs := [], Unit := none, Start := 0, End := 0x100 }
    else
      { Name := "g", Path := "", PCs := [9, 3], CMPs := [], Unit := none,
        Start := 0x200, End := 0x300 }
  units := fun _ => { Name := "a.c", Path := "", PCs := [], CMPs := [], Module := 0 }

/-- One module with the two symbols of `presetHeap`, the single cover point `0x50`, and one
range per symbol, for the units at addresses 0 and 1. -/
def presetResult : binResult where
  symbols := [0, 1]
  coverPoints := ([0x50], [])
  ranges := [{ start := 0, end_ := 0x100, unit := 0 }, { start := 0x200, end_ := 0x300, unit := 1 }]
  units := [0, 1]
  err := none

/-- The fixture with one more trace-pc call site, `0x5000`, that lies in no symbol. -/
def strayResult : binResult where
  symbols := fixtureSymbols
  coverPoints := ([0x1010, 0x1110, 0x5000], [0x1120])
  ranges := fixtureRanges
  units := [0]
  err := none

/-- A heap with two symbols that share the `Start` address `0x1000` (addresses 0 and 1) and a
third symbol at `0x2000` (address 2), all without PCs. -/
def orderHeap : Heap where
  symbols := fun p =>
    if p = 0 then
      { Name := "f", Path := "", PCs := [], CMPs := [], Unit := none,
        Start := 0x1000, End := 0x1100 }
    else if p = 1 then
      { Name := "g", Path := "", PCs := [], CMPs := [], Unit := none,
        Start := 0x1000, End := 0x1100 }
    else
      { Name := "k", Path := "", PCs := [], CMPs := [], Unit := none,
        Start := 0x2000, End := 0x2100 }
  units := fun _ => { Name := "m.c", Path := "", PCs := [], CMPs := [], Module := 0 }

/-- The result of a module whose symbol `f` (address 0) starts at `0x1000`; its unit is at
address 0. -/
def orderResultA : binResult where
  symbols := [0]
  coverPoints := ([0x1010], [])
  ranges := [{ start := 0x1000, end_ := 0x1100, unit := 0 }]
  units := [0]
  err := none

/-- The result of a module whose symbol `g` (address 1) also starts at `0x1000`; its unit is
at address 1. -/
def orderResultB : binResult where
  symbols := [1]
  coverPoints := ([0x1020], [])
  ranges := [{ start := 0x1000, end_ := 0x1100, unit := 1 }]
  units := [1]
  err := none

/-- The result of a module whose symbol `k` (address 2) starts at `0x2000`; its unit is at
address 2. -/
def orderResultC : binResult where
  symbols := [2]
  coverPoints := ([0x2010], [])
  ranges := [{ start := 0x2000, end_ := 0x2100, unit := 2 }]
  units := [2]
  err := none

/-! ## Rust ranges -/

/-- The fields of the standard library struct `dwarf.LineEntry` that `rustRanges` reads:
`Address` and `File.Name`. -/
structure LineEntry where
  Address : Nat
  File : String
deriving DecidableEq

/-- The struct `rustRange`, the half-open range `[start; end)` of a source file. (`end` is a
keyword, hence `end_`.) -/
structure rustRange where
  start : Nat
  end_ : Nat
  file : String
deriving DecidableEq

/-- The loop of `rustRanges` over the line entries that `lr.Next` returns before `io.EOF`,
followed by the statements after the loop. The arguments after the entries are the variables
`startPC`, `files` and `ret`. -/
def rustRangesLoop : List LineEntry → Nat → List String → List rustRange → List rustRange
  | [], startPC, files, ret =>
    if startPC ≠ 0 then
      ret ++ files.map (fun file =>
        { start := startPC, end_ := (startPC + 1) % u64, file := file })
    else
      ret
  | entry :: rest, startPC, files, ret =>
    if startPC = 0 ∨ entry.Address ≠ startPC then
      rustRangesLoop rest entry.Address [entry.File]
        (ret ++ files.map (fun file =>
          { start := startPC, end_ := entry.Address, file := file }))
    else
      rustRangesLoop rest startPC (files ++ [entry.File]) ret

/-- The function `rustRanges` on a line program that is read without error; `entries` are the
line entries in the order in which the line reader returns them. -/
def rustRanges (entries : List LineEntry) : List rustRange :=
  rustRangesLoop entries 0 [] []

/-- The end of the range of an entry at address `A` in the reference definition: the address
of the first later entry whose address differs from `A`, or `A + 1` (as a `uint64`) when there
is none. -/
def nextEnd (A : Nat) (later : List LineEntry) : Nat :=
  match later.find? (fun e => e.Address != A) with
  | some e => e.Address
  | none => (A + 1) % u64

/-- The reference definition of the Rust range reconstruction: one range per line entry, in
entry order. -/
def rustRangesRef : List LineEntry → List rustRange
  | [] => []
  | e :: later =>
    { start := e.Address, end_ := nextEnd e.Address later, file := e.File } :: rustRangesRef later

/-- The line program `[a@0x100, b@0x100, a@0x108, c@0x110]` of the end-to-end scenario. -/
def rustFixture : List LineEntry :=
  [{ Address := 0x100, File := "a.rs" }, { Address := 0x100, File := "b.rs" },
   { Address := 0x108, File := "a.rs" }, { Address := 0x110, File := "c.rs" }]

/-- An emitted range for the file of the entry `e` contains the address of `e`. -/
def Covered (ranges : List rustRange) (e : LineEntry) : Prop :=
  ∃ r ∈ ranges, r.file = e.File ∧ r.start ≤ e.Address ∧ e.Address < r.end_

instance (ranges : List rustRange) (e : LineEntry) : Decidable (Covered ranges e) := by
  unfold Covered
  infer_instance

/-! ## Compiler version check

The two regular expressions are matched the way Go's `regexp` package does: the match starts
as early as possible, and among the matches at that position the one a backtracking search
finds first is taken (alternatives in order, `*`, `+` and `{1,2}` greedy); `.` matches every
character except a newline. A string is the list of its characters. -/

/-- The sub-expression `[0-9]*`, greedy: the text that is left after the leading digits. -/
def dropDigits : List Char → List Char
  | [] => []
  | c :: rest => if c.isDigit then dropDigits rest else c :: rest

/-- The sub-expression `[0-9]+`, greedy: the text that is left after one or more digits. -/
def matchDigits : List Char → Option (List Char)
  | [] => none
  | c :: rest => if c.isDigit then some (dropDigits rest) else none

/-- The sub-expression `\.[0-9]+\.[0-9]+` at the start of the text. -/
def matchVersionTail : List Char → Bool
  | [] => false
  | c :: rest =>
    if c = '.' then
      match matchDigits rest with
      | some (c' :: rest') => c' = '.' && (matchDigits rest').isSome
      | _ => false
    else false

/-- The sub-expression ` ([0-9]{1,2})\.[0-9]+\.[0-9]+` at the start of the text; the result is
the text of the capture group. Two digits are tried before one. -/
def matchVersion : List Char → Option (List Char)
  | [] => none
  | [_] => none
  | sp :: d1 :: rest =>
    if sp = ' ' ∧ d1.isDigit = true then
      match rest with
      | d2 :: rest2 =>
        if d2.isDigit = true ∧ matchVersionTail rest2 = true then some [d1, d2]
        else if matchVersionTail rest = true then some [d1]
        else none
      | [] => none
    else none

/-- The sub-expression `.* ([0-9]{1,2})\.[0-9]+\.[0-9]+` at the start of the text; the result
is the text of the capture group. The greedy `.*` first tries to take one more character. -/
def matchRest : List Char → Option (List Char)
  | [] => none
  | c :: rest =>
    if c ≠ '\n' then
      match matchRest rest with
      | some g => some g
      | none => matchVersion (c :: rest)
    else matchVersion (c :: rest)

/-- The sub-expression `(gcc|GCC|g\+\+)` at the start of the text: the text that is left after
the token. At most one alternative matches at a given position. -/
def vendorPrefix (cs : List Char) : Option (List Char) :=
  if "gcc".toList.isPrefixOf cs then some (cs.drop 3)
  else if "GCC".toList.isPrefixOf cs then some (cs.drop 3)
  else if "g++".toList.isPrefixOf cs then some (cs.drop 3)
  else none

/-- The regular expression `gccRE`, as used by `gccRE.MatchString`. -/
def gccRE : List Char → Bool
  | [] => false
  | c :: rest => (vendorPrefix (c :: rest)).isSome || gccRE rest

/-- The regular expression `gccVersionRE`, as used by `gccVersionRE.FindStringSubmatch`: the
result is `groups[2]` of the leftmost match, `none` when there is no match. -/
def gccVersionRE : List Char → Option (List Char)
  | [] => none
  | c :: rest =>
    match (vendorPrefix (c :: rest)).bind matchRest with
    | some g => some g
    | none => gccVersionRE rest

/-- The value of a string of decimal digits. -/
def decimal (ds : List Char) : Nat :=
  ds.foldl (fun n c => 10 * n + (c.toNat - 48)) 0

/-- The standard library function `strconv.Atoi` on the strings that reach it here, the one or
two digits of `groups[2]`; `none` stands for an error. -/
def atoi (ds : List Char) : Option Nat :=
  if ds ≠ [] ∧ ds.all Char.isDigit = true then some (decimal ds) else none

/-- The function `isKcovBrokenInCompiler`. -/
def isKcovBrokenInCompiler (versionStr : String) : Bool :=
  if ¬ gccRE versionStr.toList = true then
    false
  else
    match gccVersionRE versionStr.toList with
    | some g =>
      match atoi g with
      | some version => decide (version < 14)
      | none => true
    | none => true

/-- A non-empty string of decimal digits. -/
def IsDigits (ds : List Char) : Prop :=
  ds ≠ [] ∧ ∀ c ∈ ds, c.isDigit = true

instance (ds : List Char) : Decidable (IsDigits ds) := by
  unfold IsDigits
  infer_instance

/-- The text starts with a space-preceded version `D.d.d`: a space, one or two digits, a dot,
digits, a dot, digits. -/
def IsVersionAt (cs : List Char) : Prop :=
  ∃ D m p post, cs = ' ' :: D ++ '.' :: m ++ '.' :: p ++ post ∧
    IsDigits D ∧ D.length ≤ 2 ∧ IsDigits m ∧ IsDigits p

/-- One of the three vendor tokens. -/
def IsVendorToken (tok : List Char) : Prop :=
  tok = "gcc".toList ∨ tok = "GCC".toList ∨ tok = "g++".toList

/-! ## The per-module tasks -/

/-- Modelled from the spec: the struct `vminfo.KernelModule` (its declaration is not part of
the sources): `Name` is empty for the main image, `Addr` is the load address. -/
structure KernelModule where
  Name : String
  Path : String
  Addr : Nat

/-- The fields of `dwarfParams` that the per-module tasks use. The four readers are the
pluggable functions of the parameters; `readSymbols` returns, next to the symbols, the
`symbolInfo` it has filled in. `targetArch` is `params.target.Arch`. -/
structure dwarfParams where
  targetArch : String
  readSymbols : KernelModule → Except String (List Nat × symbolInfo)
  readTextData : KernelModule → Except String (List Nat)
  readModuleCoverPoints : KernelModule → symbolInfo → Except String (List Nat × List Nat)
  readTextRanges : KernelModule → Except String (List pcRange × List Nat)
  getCompilerVersion : String → String

/-- The struct `Result`. -/
structure Result where
  CoverPoints : List Nat × List Nat
  Symbols : List Nat

/-- The function `processModule`. `objdump` stands for the function `objdump` of the source,
which runs an external disassembler. The outer `Option` is `none` when the scan of
`readCoverPoints` does not finish. -/
def processModule (params : dwarfParams)
    (objdump : KernelModule → Except String (List Nat × List Nat)) (module : KernelModule) :
    Option (Except String Result) :=
  match params.readSymbols module with
  | .error e => some (.error e)
  | .ok (symbols, info) =>
    let coverPoints : Option (Except String (List Nat × List Nat)) :=
      match arches params.targetArch with
      | none => some (objdump module)
      | some arch =>
        if module.Name = "" then
          match params.readTextData module with
          | .error e => some (.error e)
          | .ok data => readCoverPoints arch info data
        else
          some (params.readModuleCoverPoints module info)
    match coverPoints with
    | none => none
    | some (.error e) => some (.error e)
    | some (.ok cp) => some (.ok { Symbols := symbols, CoverPoints := cp })

/-- A `binResult` that carries only an error. -/
def binResult.failed (e : String) : binResult :=
  { symbols := [], coverPoints := ([], []), ranges := [], units := [], err := some e }

/-- The body of the task that `makeDWARFUnsafe` starts for one module: the value it sends
over the channel `binC`. -/
def moduleTask (params : dwarfParams)
    (objdump : KernelModule → Except String (List Nat × List Nat)) (module : KernelModule) :
    Option binResult :=
  match processModule params objdump module with
  | none => none
  | some (.error e) => some (binResult.failed e)
  | some (.ok result) =>
    if module.Name = "" ∧ result.CoverPoints.1.length = 0 then
      some (binResult.failed
        (module.Path ++ " doesn't contain coverage callbacks (set CONFIG_KCOV=y on linux)"))
    else
      match params.readTextRanges module with
      | .error e => some (binResult.failed e)
      | .ok (ranges, units) =>
        some { symbols := result.Symbols, coverPoints := result.CoverPoints, ranges := ranges,
               units := units, err := none }

/-- The variable `preciseCoverage` of `makeDWARFUnsafe` after the loop that starts the
tasks. -/
def preciseCoverage (params : dwarfParams) (modules : List KernelModule) : Bool :=
  modules.all (fun module => !isKcovBrokenInCompiler (params.getCompilerVersion module.Path))

/-- The message `msg` mentions the text `sub`. -/
def Mentions (msg sub : String) : Prop :=
  sub.toList <:+: msg.toList

instance (msg sub : String) : Decidable (Mentions msg sub) := by
  unfold Mentions
  infer_instance

/-- Parameters for an AMD64 kernel whose symbol table has no `__sanitizer_cov_trace_pc`: the
symbol reader succeeds and leaves `tracePC` empty, the text is the single byte `90`. -/
def noKcovParams : dwarfParams where
  targetArch := "amd64"
  readSymbols := fun _ =>
    .ok ([], { textAddr := 0xffffffff81000000, tracePC := [], traceCmp := [],
               tracePCIdx := [], traceCmpIdx := [] })
  readTextData := fun _ => .ok [0x90]
  readModuleCoverPoints := fun _ _ => .ok ([], [])
  readTextRanges := fun _ => .ok ([], [])
  getCompilerVersion := fun _ => "clang 17"

/-- The main image: the module with the empty name. -/
def mainImage : KernelModule where
  Name := ""
  Path := "vmlinux"
  Addr := 0

/-! ## The symbolizer workers -/

/-- The variable `procs` of `symbolizeModule` after its three assignments. `gomaxprocs` is the
value of `runtime.GOMAXPROCS(0)` and `npcs` is `len(pcs)`; both are non-negative `int`s, for
which Go's `/` is the division of natural numbers. -/
def symbolizeProcs (gomaxprocs npcs : Nat) : Nat :=
  let procs := min (gomaxprocs / 2) (npcs / 1000)
  let minProcs := 1
  let maxProcs := 4
  let procs := min procs maxProcs
  max procs minProcs

/-- The loop `for p := 0; p < procs; p++ { go func() { ... }() }` of `symbolizeModule`: the
values of `p` for which a worker is started, in order. -/
def symbolizeWorkers (gomaxprocs : Nat) (pcs : List Nat) : List Nat :=
  List.range (symbolizeProcs gomaxprocs pcs.length)

/-- The value `x` clamped to the interval `[lo, hi]`. -/
def clamp (x lo hi : Nat) : Nat :=
  max lo (min x hi)

/-! ## The outcome of the assembly -/

/-- The slice `allSymbols` of `makeDWARFUnsafe` after the call of `buildSymbols`, when no
received result carries an error: the symbols retained after attribution. -/
def retainedSymbols (sortRanges : List pcRange → List pcRange) (results : List binResult)
    (h : Heap) : List Nat × Heap :=
  buildSymbols (sortSymbols h (uniqSymbs h (results.flatMap (fun r => r.symbols)) []))
    (sortRanges (results.flatMap (fun r => r.ranges)))
    (sortPCs (results.flatMap (fun r => r.coverPoints.1)),
      sortPCs (results.flatMap (fun r => r.coverPoints.2))) h

/-- The slice `allUnits[:nunit]` of `makeDWARFUnsafe`, when no received result carries an
error: the units retained after attribution. -/
def retainedUnits (sortRanges : List pcRange → List pcRange)
    (cleanPath : String → String × String) (results : List binResult) (h : Heap) :
    List Nat × Heap :=
  keepUnits cleanPath (results.flatMap (fun r => r.units))
    (retainedSymbols sortRanges results h).2 []

/-! ## Bounds-checked execution of the scanner

The definitions of this section execute the scanner with the run-time checks of Go made
explicit: an index or slice expression that reaches outside its operand yields `none` (the
run-time panic) instead of a value. -/

/-- The index expression `b[i]`; `none` is the panic "index out of range". -/
def indexChecked (b : List Nat) (i : Nat) : Option Nat :=
  b[i]?

/-- The slice expression `b[i:j]`; `none` is the panic "slice bounds out of range". The upper
bound is compared with the length of `b`, so that a value is returned only for a slice that
lies within the elements of `b`. -/
def sliceChecked (b : List Nat) (i j : Nat) : Option (List Nat) :=
  if i ≤ j ∧ j ≤ b.length then some ((b.drop i).take (j - i)) else none

/-- The function `binary.LittleEndian.Uint32`, which reads `b[0]` to `b[3]`. -/
def leUint32Checked (b : List Nat) : Option Nat :=
  if 3 < b.length then some (leUint32 b) else none

/-- The function `binary.BigEndian.Uint32`, which reads `b[0]` to `b[3]`. -/
def beUint32Checked (b : List Nat) : Option Nat :=
  if 3 < b.length then some (beUint32 b) else none

/-- The fields of `Arch` that the scanner uses, with decoders that may fail with an
out-of-range access. -/
structure CheckedArch where
  scanSize : Nat
  callLen : Nat
  isCallInsn : List Nat → Option Bool
  callTarget : Nat → List Nat → Nat → Option Nat

/-- Entry `arches[targets.AMD64]`: `insn[0]`, and `Uint32` of `insn[1:]`. -/
def amd64Checked : CheckedArch where
  scanSize := 1
  callLen := 5
  isCallInsn := fun insn => (indexChecked insn 0).map (fun b => b == 0xe8)
  callTarget := fun callLen insn pc =>
    (sliceChecked insn 1 insn.length).bind fun tail =>
      (leUint32Checked tail).map fun v =>
        let off := sext32 v
        ((pc + off) % u64 + callLen) % u64

/-- Entry `arches[targets.ARM64]`: `Uint32` of `insn`. -/
def arm64Checked : CheckedArch where
  scanSize := 4
  callLen := 4
  isCallInsn := fun insn =>
    (leUint32Checked insn).map fun v => v &&& 0xfc000000 == 0x94000000
  callTarget := fun _ insn pc =>
    (leUint32Checked insn).map fun v =>
      let off26 := v &&& 0x3ffffff
      let sign := off26 >>> 25
      let off := if sign == 1 then off26 ||| 0xfffffffffc000000 else off26
      (pc + (4 * off) % u64) % u64

/-- Entry `arches[targets.S390x]`: `insn[0]`, then `insn[1]` if `insn[0] == 0xc0` (the `&&` of
Go does not evaluate its right operand otherwise), and `Uint32` of `insn[2:]`. -/
def s390xChecked : CheckedArch where
  scanSize := 1
  callLen := 6
  isCallInsn := fun insn =>
    (indexChecked insn 0).bind fun b0 =>
      if b0 == 0xc0 then (indexChecked insn 1).map (fun b1 => b1 == 0xe5) else some false
  callTarget := fun _ insn pc =>
    (sliceChecked insn 2 insn.length).bind fun tail =>
      (beUint32Checked tail).map fun v =>
        let off := sext32 v
        (pc + (2 * off) % u64) % u64

/-- The decoders of `arch` behind a monitor: a decoder that is handed a window whose length
is not `callLen` fails. -/
def CheckedArch.strict (arch : CheckedArch) : CheckedArch where
  scanSize := arch.scanSize
  callLen := arch.callLen
  isCallInsn := fun insn => if insn.length = arch.callLen then arch.isCallInsn insn else none
  callTarget := fun callLen insn pc =>
    if insn.length = arch.callLen then arch.callTarget callLen insn pc else none

/-- The loop of `nextCallTarget` with run-time checks. The outer `Option` is `none` when the
loop does not exit within the given number of iterations, the inner one is `none` when an
access is out of range. -/
def nextCallTargetCheckedLoop (arch : CheckedArch) (textAddr : Nat) (data : List Nat) :
    Nat → Nat → Option (Option (Nat × Nat × Nat))
  | 0, _ => none
  | fuel + 1, pos =>
    if pos < data.length then
      let i := pos
      if i + arch.callLen > data.length then
        some (some (0, 0, pos))
      else
        match sliceChecked data i (i + arch.callLen) with
        | none => some none
        | some insn =>
          match arch.isCallInsn insn with
          | none => some none
          | some isCall =>
            if !isCall then
              nextCallTargetCheckedLoop arch textAddr data fuel (pos + arch.scanSize)
            else
              let pc := (textAddr + i) % u64
              match arch.callTarget arch.callLen insn pc with
              | none => some none
              | some callTarget => some (some (callTarget, pc, i + arch.scanSize))
    else
      some (some (0, 0, pos))

/-- The function `nextCallTarget` with run-time checks. -/
def nextCallTargetChecked (arch : CheckedArch) (textAddr : Nat) (data : List Nat) (pos : Nat) :
    Option (Option (Nat × Nat × Nat)) :=
  nextCallTargetCheckedLoop arch textAddr data (data.length + 1) pos

/-- The `for` loop of `readCoverPoints` with run-time checks. -/
def readCoverPointsCheckedLoop (arch : CheckedArch) (info : symbolInfo) (data : List Nat) :
    Nat → Nat → List Nat × List Nat → Option (Option (List Nat × List Nat))
  | 0, _, _ => none
  | fuel + 1, i, pcs =>
    match nextCallTargetChecked arch info.textAddr data i with
    | none => none
    | some none => some none
    | some (some (callTarget, pc, i')) =>
      if callTarget = 0 then
        some (some pcs)
      else if callTarget ∈ info.tracePC then
        readCoverPointsCheckedLoop arch info data fuel i' (pcs.1 ++ [pc], pcs.2)
      else if callTarget ∈ info.traceCmp then
        readCoverPointsCheckedLoop arch info data fuel i' (pcs.1, pcs.2 ++ [pc])
      else
        readCoverPointsCheckedLoop arch info data fuel i' pcs

/-- The function `readCoverPoints` with run-time checks: `none` when the scan does not
finish, `some none` when an access is out of range, and the returned values otherwise. -/
def readCoverPointsChecked (arch : CheckedArch) (info : symbolInfo) (data : List Nat) :
    Option (Option (Except String (List Nat × List Nat))) :=
  if info.tracePC.length = 0 then
    some (some (.error "no __sanitizer_cov_trace_pc symbol in the object file"))
  else
    (readCoverPointsCheckedLoop arch info data (data.length + 1) 0 ([], [])).map
      (fun r => r.map .ok)

/-- The checked decoders `c` compute, on every window of `callLen` bytes, what the decoders
of `arch` compute, without an out-of-range access. -/
def Agrees (c : CheckedArch) (arch : Arch) : Prop :=
  c.scanSize = arch.scanSize ∧ c.callLen = arch.callLen ∧
  ∀ w : List Nat, w.length = arch.callLen →
    c.isCallInsn w = some (arch.isCallInsn w) ∧
    ∀ pc, c.callTarget arch.callLen w pc = some (arch.callTarget arch.callLen w pc)

/-! ## The first pass, cover point by cover point -/

/-- The slice `coverPoints[pcType]`. -/
def coverPointsAt (coverPoints : List Nat × List Nat) (pcType : Nat) : List Nat :=
  if pcType = 0 then coverPoints.1 else coverPoints.2

/-- The local variables and the heap of the first pass of `buildSymbols` before iteration `n`
of the loop over `pcs`, when the pass is started on the heap `h`. -/
def attrStateAt (symbols pcs : List Nat) (pcType : Nat) (h : Heap) (n : Nat) : AttrState :=
  (List.range n).foldl (attrStep symbols pcs pcType)
    { heap := h, curSymbol := none, firstSymbolPC := -1, symbolIdx := 0 }

/-- The heap on which the loop over `coverPoints[pcType]` starts: the heap of the call for
`pcType = 0`, the heap left by the loop over `coverPoints[0]` for `pcType = 1`. -/
def passHeap (symbols : List Nat) (coverPoints : List Nat × List Nat) (h : Heap)
    (pcType : Nat) : Heap :=
  if pcType = 0 then h else attributeType symbols coverPoints.1 0 h

/-- The value of the variable `symb` in iteration `i` of the loop over `coverPoints[pcType]`:
the symbol that the cover point `coverPoints[pcType][i]` is attributed to, `none` (the nil
pointer) when it is left unattributed. -/
def attributedTo (symbols : List Nat) (coverPoints : List Nat × List Nat) (h : Heap)
    (pcType i : Nat) : Option Nat :=
  (attrStep symbols (coverPointsAt coverPoints pcType) pcType
    (attrStateAt symbols (coverPointsAt coverPoints pcType) pcType
      (passHeap symbols coverPoints h pcType) i) i).curSymbol

/-- The invariant of the loop over `pcs` in the first pass that follows every single cover
point, before iteration `n`; `h0` is the heap the pass started from. The current symbol is the
owner of `pcs[n-1]`, the cover points from `firstSymbolPC` on are the ones seen so far that its
index owns, every other cover point seen so far is stored in the slice of its owner, and a
slice that was written holds only points that an index of its symbol owns. -/
def AttrOwn (h0 : Heap) (symbols pcs : List Nat) (typ n : Nat) (st : AttrState) : Prop :=
  (∀ p, (st.heap.symbols p).Start = (h0.symbols p).Start ∧
    (st.heap.symbols p).End = (h0.symbols p).End) ∧
  (st.symbolIdx ≤ symbols.length ∧
    ∀ j, j < st.symbolIdx → ∀ x ∈ pcs.drop n, symEnd h0 symbols j ≤ x) ∧
  (st.curSymbol = none → st.firstSymbolPC = -1) ∧
  (∀ k, 0 < n → Owns h0 symbols k (pcs.getD (n - 1) 0) →
    st.curSymbol = some (symbols.getD k 0)) ∧
  (∀ c, st.curSymbol = some c → 0 ≤ st.firstSymbolPC ∧ st.firstSymbolPC < n ∧
    ∃ k, k < symbols.length ∧ symbols.getD k 0 = c ∧
      (∀ i, st.firstSymbolPC.toNat ≤ i → i < n → Owns h0 symbols k (pcs.getD i 0)) ∧
      (∀ i, i < n → Owns h0 symbols k (pcs.getD i 0) → st.firstSymbolPC.toNat ≤ i)) ∧
  (∀ i k, i < n → Owns h0 symbols k (pcs.getD i 0) →
    st.curSymbol = some (symbols.getD k 0) ∨
      pcs.getD i 0 ∈ selectPCs (st.heap.symbols (symbols.getD k 0)).toObjectUnit typ) ∧
  (∀ b, selectPCs (st.heap.symbols b).toObjectUnit typ = selectPCs (h0.symbols b).toObjectUnit typ ∨
    ∀ x ∈ selectPCs (st.heap.symbols b).toObjectUnit typ,
      ∃ k, k < symbols.length ∧ symbols.getD k 0 = b ∧ Owns h0 symbols k x)

/-- A heap with a symbol nested in another one: `outer = [0x1000, 0x1200)` at address 0 and
`inner = [0x1100, 0x1180)` at address 1, both without PCs. -/
def shadowHeap : Heap where
  symbols := fun p =>
    if p = 0 then
      { Name := "outer", Path := "", PCs := [], CMPs := [], Unit := none,
        Start := 0x1000, End := 0x1200 }
    else
      { Name := "inner", Path := "", PCs := [], CMPs := [], Unit := none,
        Start := 0x1100, End := 0x1180 }
  units := fun _ => { Name := "main.c", Path := "", PCs := [], CMPs := [], Module := 0 }

/-! ## The objdump scanner

A line of disassembler output is a `[]byte`, modelled by the list of its bytes. -/

/-- The conversion `[]byte(s)` for a string literal `s` of ASCII characters. -/
def bytesOf (s : String) : List Nat :=
  s.toList.map Char.toNat

/-- The loop behind the standard library function `bytes.Index(s, sep)`: the index of the first
instance of `sep` in `s`, `none` for the result -1. The second argument is the index of the
head of the text that is left. -/
def bytesIndexFrom (sep : List Nat) : List Nat → Nat → Option Nat
  | [], i => if sep.isPrefixOf [] then some i else none
  | c :: rest, i =>
    if sep.isPrefixOf (c :: rest) then some i else bytesIndexFrom sep rest (i + 1)

/-- The standard library function `bytes.Index`; `none` stands for -1. -/
def bytesIndex (s sep : List Nat) : Option Nat :=
  bytesIndexFrom sep s 0

/-- The standard library function `bytes.Contains`. -/
def bytesContains (b subslice : List Nat) : Bool :=
  (bytesIndex b subslice).isSome

/-- The standard library function `bytes.IndexByte`; `none` stands for -1. The last argument
is the index of the head of the text that is left. -/
def bytesIndexByteFrom (c : Nat) : List Nat → Nat → Option Nat
  | [], _ => none
  | b :: rest, i => if b = c then some i else bytesIndexByteFrom c rest (i + 1)

/-- The standard library function `bytes.IndexByte`; `none` stands for -1. -/
def bytesIndexByte (b : List Nat) (c : Nat) : Option Nat :=
  bytesIndexByteFrom c b 0

/-- The helper `lower` of `strconv`: `c | ('x' - 'X')`. -/
def lower (c : Nat) : Nat :=
  c ||| 0x20

/-- The `switch` in the loop of `strconv.ParseUint` that turns the byte `c` into a digit
value; `none` stands for the syntax error of the `default` case. -/
def parseDigit (c : Nat) : Option Nat :=
  if '0'.toNat ≤ c ∧ c ≤ '9'.toNat then some (c - '0'.toNat)
  else if 'a'.toNat ≤ lower c ∧ lower c ≤ 'z'.toNat then some (lower c - 'a'.toNat + 10)
  else none

/-- The loop of the standard library function `strconv.ParseUint(s, 16, 64)` over the bytes
of `s`, with `n` the value read so far; `none` stands for an error (a syntax error for a byte
that is not a digit of base 16, a range error when the value leaves 64 bits). -/
def parseUintLoop : List Nat → Nat → Option Nat
  | [], n => some n
  | c :: rest, n =>
    match parseDigit c with
    | none => none
    | some d =>
      if d ≥ 16 then none
      else if n ≥ (u64 - 1) / 16 + 1 then none
      else
        let n := (n * 16) % u64
        let n1 := (n + d) % u64
        if n1 < n ∨ n1 > u64 - 1 then none
        else parseUintLoop rest n1

/-- The standard library function `strconv.ParseUint(s, 16, 64)`; `none` stands for an
error. -/
def parseUint16 (s : List Nat) : Option Nat :=
  if s = [] then none else parseUintLoop s 0

/-- The first loop of `parseLine`: the value of `pos` after the loop, `none` for -1. -/
def findCallInsn (ln : List Nat) : List (List Nat) → Option Nat
  | [] => none
  | callInsn :: rest =>
    match bytesIndex ln callInsn with
    | some pos => some pos
    | none => findCallInsn ln rest

/-- The second loop of `parseLine`: the value of `hasCall` after the loop, for
`tail = ln[pos:]`. -/
def hasTraceFunc (tail : List Nat) : List (List Nat) → Bool
  | [] => false
  | traceFunc :: rest => if bytesContains tail traceFunc then true else hasTraceFunc tail rest

/-- The loop `for len(ln) != 0 && ln[0] == ' ' { ln = ln[1:] }` of `parseLine`. -/
def trimSpaces : List Nat → List Nat
  | [] => []
  | c :: rest => if c = ' '.toNat then trimSpaces rest else c :: rest

/-- The function `parseLine`. -/
def parseLine (callInsns traceFuncs : List (List Nat)) (ln : List Nat) : Nat :=
  match findCallInsn ln callInsns with
  | none => 0
  | some pos =>
    if !hasTraceFunc (ln.drop pos) traceFuncs then 0
    else
      let ln := trimSpaces ln
      match bytesIndexByte ln ':'.toNat with
      | none => 0
      | some colon =>
        match parseUint16 (ln.take colon) with
        | none => 0
        | some pc => pc

/-- The function `archCallInsn`, keyed by the architecture name of `sys/targets`; `none` stands
for the panic on an unknown architecture. -/
def archCallInsn (arch : String) : Option (List (List Nat) × List (List Nat)) :=
  let callName := [bytesOf " <__sanitizer_cov_trace_pc>"]
  if arch = "386" then
    some ([bytesOf "\tcall "], callName)
  else if arch = "arm64" then
    some ([bytesOf "\tbl "],
      [bytesOf "<__sanitizer_cov_trace_pc>", bytesOf "<____sanitizer_cov_trace_pc_veneer>"])
  else if arch = "arm" then
    some ([bytesOf "\tbl\t"], callName)
  else if arch = "ppc64le" then
    some ([bytesOf "\tbl "],
      [bytesOf "<__sanitizer_cov_trace_pc>", bytesOf "<__sanitizer_cov_trace_pc+0x8>",
        bytesOf " <.__sanitizer_cov_trace_pc>"])
  else if arch = "mips64le" then
    some ([bytesOf "\tjal\t", bytesOf "\tbal\t"], callName)
  else if arch = "s390x" then
    some ([bytesOf "\tbrasl\t"], callName)
  else if arch = "riscv64" then
    some ([bytesOf "\tjal\t", bytesOf "\tjalr\t"], callName)
  else
    none

/-- A byte is a digit of base 16: `0-9`, `a-f` or `A-F`. -/
def IsHexDigit (c : Nat) : Prop :=
  ('0'.toNat ≤ c ∧ c ≤ '9'.toNat) ∨ ('a'.toNat ≤ c ∧ c ≤ 'f'.toNat) ∨
    ('A'.toNat ≤ c ∧ c ≤ 'F'.toNat)

instance (c : Nat) : Decidable (IsHexDigit c) := by
  unfold IsHexDigit
  infer_instance

/-- The value of a digit of base 16. -/
def hexDigitValue (c : Nat) : Nat :=
  if c ≤ '9'.toNat then c - '0'.toNat
  else if c ≤ 'F'.toNat then c - 'A'.toNat + 10
  else c - 'a'.toNat + 10

/-- The number that a text of hexadecimal digits denotes. -/
def hexValue (ds : List Nat) : Nat :=
  ds.foldl (fun n c => 16 * n + hexDigitValue c) 0

/-- A non-empty text of hexadecimal digits. -/
def IsHex (ds : List Nat) : Prop :=
  ds ≠ [] ∧ ∀ c ∈ ds, IsHexDigit c

instance (ds : List Nat) : Decidable (IsHex ds) := by
  unfold IsHex
  infer_instance

/-- The byte string `tok` occurs in `ln` at offset `pos` and at no smaller offset. -/
def FirstOccurrence (ln tok : List Nat) (pos : Nat) : Prop :=
  pos ≤ ln.length ∧ tok <+: ln.drop pos ∧ ∀ q, q < pos → ¬ tok <+: ln.drop q

/-- The first token found by `parseLine`: `tok` is the first element of `callInsns` that
occurs in `ln`, and `pos` is the offset of its first occurrence. -/
def FirstToken (callInsns : List (List Nat)) (ln tok : List Nat) (pos : Nat) : Prop :=
  ∃ before after, callInsns = before ++ tok :: after ∧ (∀ t ∈ before, ¬ t <:+: ln) ∧
    FirstOccurrence ln tok pos

/-- The objdump line `c1000102:<tab>call   c10001f0 <__sanitizer_cov_trace_pc>`. -/
def callLine : List Nat :=
  bytesOf "c1000102:\tcall   c10001f0 <__sanitizer_cov_trace_pc>"

/-! ## Panics and goroutines

A panic unwinds the stack of the goroutine that raised it and runs the deferred functions of
that goroutine only; `recover` stops a panic only if it is called by one of them. A panic
that reaches the top of a goroutine's stack terminates the program. -/

/-- How a function call ends: it returns a value, or it panics with a value (shown as
text). -/
inductive Run (α : Type) where
  | returns (a : α)
  | panics (v : String)

/-- How a call ends, as seen from the goroutine that executes it: it returns a value, this
goroutine panics (a deferred function of this goroutine may recover), or the program is
terminated by a panic that another goroutine does not recover. -/
inductive Outcome (α : Type) where
  | returns (a : α)
  | panics (v : String)
  | crashes (v : String)

/-- The two functions of `dwarfParams` that `makeDWARFUnsafe` calls itself or from the task
it starts, as functions that may panic: `readTextRanges` is called by the task of a module,
`getCompilerVersion` by the goroutine that executes `makeDWARFUnsafe`. -/
structure panickingReaders where
  readTextRanges : KernelModule → Run (Except String (List pcRange × List Nat))
  getCompilerVersion : String → Run String

/-- The body of the task `go func() { ... }()` that `makeDWARFUnsafe` starts for one module:
the task sends a value over `binC` and ends (`returns`), or it panics. No function of the task
defers a call of `recover`. The outer `Option` is `none` when the task never ends. -/
def moduleTaskRun (params : dwarfParams)
    (objdump : KernelModule → Except String (List Nat × List Nat)) (readers : panickingReaders)
    (module : KernelModule) : Option (Run binResult) :=
  match processModule params objdump module with
  | none => none
  | some (.error e) => some (.returns (binResult.failed e))
  | some (.ok result) =>
    if module.Name = "" ∧ result.CoverPoints.1.length = 0 then
      some (.returns (binResult.failed
        (module.Path ++ " doesn't contain coverage callbacks (set CONFIG_KCOV=y on linux)")))
    else
      match readers.readTextRanges module with
      | .panics v => some (.panics v)
      | .returns (.error e) => some (.returns (binResult.failed e))
      | .returns (.ok (ranges, units)) =>
        some (.returns { symbols := result.Symbols, coverPoints := result.CoverPoints,
                         ranges := ranges, units := units, err := none })

/-- The loop of `makeDWARFUnsafe` that starts the tasks: the calls of `getCompilerVersion` are
made by the goroutine that executes `makeDWARFUnsafe`. The result is the variable
`preciseCoverage` after the loop. -/
def startTasks (readers : panickingReaders) : List KernelModule → Bool → Run Bool
  | [], preciseCoverage => .returns preciseCoverage
  | module :: rest, preciseCoverage =>
    match readers.getCompilerVersion module.Path with
    | .panics v => .panics v
    | .returns version =>
      startTasks readers rest (if isKcovBrokenInCompiler version then false else preciseCoverage)

/-- The values that the loop `for range modules { result := <-binC ... }` receives, up to and
including the first one that carries an error. The list holds the ends of the tasks in the
order in which they happen, each before the next receive: the receive blocks for ever on a
task that never ends, and a task that panics terminates the program. -/
def receiveResults : List (Option (Run binResult)) → Option (Outcome (List binResult))
  | [] => some (.returns [])
  | none :: _ => none
  | some (.panics v) :: _ => some (.crashes v)
  | some (.returns result) :: rest =>
    match result.err with
    | some _ => some (.returns [result])
    | none =>
      match receiveResults rest with
      | none => none
      | some (.returns results) => some (.returns (result :: results))
      | some (.panics v) => some (.panics v)
      | some (.crashes v) => some (.crashes v)

/-- The function `makeDWARFUnsafe` with its tasks. -/
def makeDWARFUnsafeRun (sortRanges : List pcRange → List pcRange)
    (cleanPath : String → String × String) (params : dwarfParams)
    (objdump : KernelModule → Except String (List Nat × List Nat)) (readers : panickingReaders)
    (modules : List KernelModule) (h : Heap) : Option (Outcome (Except String (Impl × Heap))) :=
  match startTasks readers modules true with
  | .panics v => some (.panics v)
  | .returns preciseCoverage =>
    match receiveResults (modules.map (moduleTaskRun params objdump readers)) with
    | none => none
    | some (.panics v) => some (.panics v)
    | some (.crashes v) => some (.crashes v)
    | some (.returns results) =>
      some (.returns (makeDWARFUnsafe sortRanges cleanPath preciseCoverage results h))

/-- The function `makeDWARF`: the deferred function recovers a panic of the goroutine that
executes `makeDWARFUnsafe` and turns it into an error. The result is the pair `(impl, err)`,
with `none` for nil. -/
def makeDWARF (sortRanges : List pcRange → List pcRange)
    (cleanPath : String → String × String) (params : dwarfParams)
    (objdump : KernelModule → Except String (List Nat × List Nat)) (readers : panickingReaders)
    (modules : List KernelModule) (h : Heap) :
    Option (Outcome (Option (Impl × Heap) × Option String)) :=
  match makeDWARFUnsafeRun sortRanges cleanPath params objdump readers modules h with
  | none => none
  | some (.crashes v) => some (.crashes v)
  | some (.panics recErr) =>
    some (.returns (none, some ("panic occurred while parsing DWARF " ++
      "(possible remedy: use go1.16+ which support DWARF 5 debug data): " ++ recErr)))
  | some (.returns (.error err)) => some (.returns (none, some err))
  | some (.returns (.ok impl)) => some (.returns (some impl, none))

/-- Parameters for an AMD64 kernel with one call of `__sanitizer_cov_trace_pc` in its text
and the symbols of the fixture. -/
def oneCallParams : dwarfParams where
  targetArch := "amd64"
  readSymbols := fun _ => .ok (fixtureSymbols, oneCallInfo)
  readTextData := fun _ => .ok [0xe8, 0, 0, 0, 0]
  readModuleCoverPoints := fun _ _ => .ok ([], [])
  readTextRanges := fun _ => .ok (fixtureRanges, [0])
  getCompilerVersion := fun _ => "clang 17"

/-- Readers for a kernel with DWARF 5 debug data: the DWARF parser panics while the text
ranges are read. -/
def dwarf5Readers : panickingReaders where
  readTextRanges := fun _ =>
    .panics "decoding dwarf section info at offset 0x0: unsupported version 5"
  getCompilerVersion := fun path => .returns (oneCallParams.getCompilerVersion path)

/-- Readers for which the panic is raised by the goroutine that executes `makeDWARFUnsafe`. -/
def versionPanicReaders : panickingReaders where
  readTextRanges := fun module => .returns (oneCallParams.readTextRanges module)
  getCompilerVersion := fun _ =>
    .panics "decoding dwarf section info at offset 0x0: unsupported version 5"

/-! ## Path canonicalisation

Paths are the paths of a Unix system: the separator is `/` and there is no volume name. -/

/-- The elements of a path: the texts between its separators (`strings.Split(path, "/")`). -/
def splitSlash : List Char → List (List Char)
  | [] => [[]]
  | c :: rest =>
    if c = '/' then [] :: splitSlash rest
    else
      match splitSlash rest with
      | [] => [[c]]
      | elem :: elems => (c :: elem) :: elems

/-- The loop of the standard library function `filepath.Clean` over the elements of the path.
The last argument holds the elements written so far, the last one first. An empty element and
`.` are skipped; `..` removes the last element written unless there is none or it is itself a
`..`, in which case `..` is kept for a path that is not rooted and dropped for a rooted one. -/
def cleanElems (rooted : Bool) : List (List Char) → List (List Char) → List (List Char)
  | [], out => out.reverse
  | elem :: rest, out =>
    if elem = [] ∨ elem = ['.'] then cleanElems rooted rest out
    else if elem = ['.', '.'] then
      match out with
      | last :: before =>
        if last ≠ ['.', '.'] then cleanElems rooted rest before
        else if rooted then cleanElems rooted rest out
        else cleanElems rooted rest (elem :: out)
      | [] => if rooted then cleanElems rooted rest [] else cleanElems rooted rest [elem]
    else cleanElems rooted rest (elem :: out)

/-- The elements joined by separators. -/
def joinSlash : List (List Char) → List Char
  | [] => []
  | [elem] => elem
  | elem :: rest => elem ++ '/' :: joinSlash rest

/-- The standard library function `filepath.Clean` on the characters of a path. -/
def cleanChars (path : List Char) : List Char :=
  if path = [] then ['.']
  else
    let rooted := path.head? = some '/'
    let out := (if rooted then ['/'] else []) ++ joinSlash (cleanElems rooted (splitSlash path) [])
    if out = [] then ['.'] else out

/-- The standard library function `filepath.Clean`. -/
def filepathClean (path : String) : String :=
  String.mk (cleanChars path.toList)

/-- The standard library function `filepath.Join` for two elements: the elements from the first
non-empty one on are joined by separators and the result is cleaned; the empty string when
both are empty. -/
def filepathJoin (a b : String) : String :=
  if a ≠ "" then filepathClean (a ++ "/" ++ b)
  else if b ≠ "" then filepathClean b
  else ""

/-- The standard library function `strings.HasPrefix`. -/
def hasPrefix (s pre : String) : Bool :=
  pre.toList.isPrefixOf s.toList

/-- The standard library function `strings.TrimPrefix`. -/
def trimPrefix (s pre : String) : String :=
  if hasPrefix s pre then String.mk (s.toList.drop pre.toList.length) else s

/-- The standard library function `strings.TrimLeft`: the leading characters that are in
`cutset` are removed. -/
def trimLeftChars (cutset : List Char) : List Char → List Char
  | [] => []
  | c :: rest => if c ∈ cutset then trimLeftChars cutset rest else c :: rest

/-- The standard library function `strings.TrimLeft`. -/
def trimLeft (s cutset : String) : String :=
  String.mk (trimLeftChars cutset.toList s.toList)

/-- The characters other than `.` that have a special meaning in the syntax of Go regular
expressions. -/
def isRegexpMeta (c : Char) : Bool :=
  c ∈ ['\\', '+', '*', '?', '(', ')', '|', '[', ']', '{', '}', '^', '$']

/-- One character of a delimiter, read as a regular expression, against one character of the
text: `.` matches every character except a newline, any other character matches itself. -/
def matchAtom (p c : Char) : Bool :=
  if p = '.' then c ≠ '\n' else p = c

/-- A delimiter, read as a regular expression, at the start of the text: the text it matches
and the text that is left. -/
def matchDelimiter : List Char → List Char → Option (List Char × List Char)
  | [], text => some ([], text)
  | _ :: _, [] => none
  | p :: ps, c :: text =>
    if matchAtom p c then
      match matchDelimiter ps text with
      | some (m, left) => some (c :: m, left)
      | none => none
    else none

/-- The alternation `d1|...|dn` at the start of the text: the alternatives are tried in
order. -/
def matchAlternation : List (List Char) → List Char → Option (List Char × List Char)
  | [], _ => none
  | d :: rest, text =>
    match matchDelimiter d text with
    | some r => some r
    | none => matchAlternation rest text

/-- The sub-expression `(.*)`, greedy: the text up to the first newline. -/
def takeLine : List Char → List Char
  | [] => []
  | c :: rest => if c = '\n' then [] else c :: takeLine rest

/-- The call `re.FindStringSubmatch(path)` for the regular expression
`(d1|...|dn)(.*)` whose delimiters hold no special character other than `.`: the texts of the
two groups of the leftmost match, `none` when there is no match. -/
def findSubmatch (delimiters : List (List Char)) : List Char → Option (List Char × List Char)
  | [] =>
    match matchAlternation delimiters [] with
    | some (m, left) => some (m, takeLine left)
    | none => none
  | c :: text =>
    match matchAlternation delimiters (c :: text) with
    | some (m, left) => some (m, takeLine left)
    | none => findSubmatch delimiters text

/-- The loop of `cleanPathAndroid` that looks the path up in `srcDir + delimiter`. -/
def lookupAndroid (path srcDir : String) (existFn : String → Bool) : List String → String × String
  | [] => ("", "")
  | delimiter :: rest =>
    let absPath := filepathClean (srcDir ++ delimiter ++ path)
    if existFn absPath then (path, absPath) else lookupAndroid path srcDir existFn rest

/-- The function `cleanPathAndroid`. The regular expression is built from the delimiters as
they are; the result is `none` when a delimiter holds a special character other than `.`, for
which the regular expression is not modelled. -/
def cleanPathAndroid (path srcDir : String) (delimiters : List String)
    (existFn : String → Bool) : Option (String × String) :=
  if delimiters.length = 0 then some ("", "")
  else if delimiters.any (fun d => d.toList.any isRegexpMeta) then none
  else
    match findSubmatch (delimiters.map String.toList) path.toList with
    | some (delimiter, filename) =>
      let path := filepathClean (srcDir ++ String.mk delimiter ++ String.mk filename)
      some (String.mk filename, path)
    | none => some (lookupAndroid path srcDir existFn delimiters)

/-- Modelled from the spec: the struct `mgrconfig.KernelDirs` (its declaration is not part of
the sources): the triple `{src, obj, buildSrc}`. -/
structure KernelDirs where
  Src : String
  Obj : String
  BuildSrc : String

/-- The function `CleanPath`. `abs` stands for `osutil.Abs` and `isExist` for
`osutil.IsExist`, which consult the process and the file system. The result is `none` when
that of `cleanPathAndroid` is. -/
def CleanPath (abs : String → String) (isExist : String → Bool) (path : String)
    (kernelDirs : KernelDirs) (splitBuildDelimiters : List String) : Option (String × String) :=
  let path := filepathClean path
  match cleanPathAndroid path kernelDirs.Src splitBuildDelimiters isExist with
  | none => none
  | some (aname, apath) =>
    if aname ≠ "" then some (aname, apath)
    else
      let absPath := abs path
      if hasPrefix absPath kernelDirs.Obj then
        let path := trimPrefix absPath kernelDirs.Obj
        some (trimLeft (filepathClean path) "/\\", filepathJoin kernelDirs.Obj path)
      else if hasPrefix absPath kernelDirs.BuildSrc then
        let path := trimPrefix absPath kernelDirs.BuildSrc
        some (trimLeft (filepathClean path) "/\\", filepathJoin kernelDirs.Src path)
      else
        some (trimLeft (filepathClean path) "/\\", filepathJoin kernelDirs.Src path)

/-- The text `s` begins with the character `c`. -/
def BeginsWith (s : String) (c : Char) : Prop :=
  s.toList.head? = some c

instance (s : String) (c : Char) : Decidable (BeginsWith s c) := by
  unfold BeginsWith
  infer_instance

/-- Kernel directories of a build in `/build` with sources in `/src`. -/
def androidDirs : KernelDirs where
  Src := "/src"
  Obj := "/obj"
  BuildSrc := "/build"

/-- One iteration (unit `unit`) of the loop over `allUnits` of `makeDWARFUnsafe`, as a function
of the heap. -/
def keepStep (cleanPath : String → String × String) (h : Heap) (unit : Nat) : Heap :=
  if (h.units unit).PCs.length = 0 then h
  else
    let np := cleanPath (h.units unit).Name
    h.setUnitName unit np.1 np.2

/-- The result of a module without symbols whose only range starts at `0x1000`, like the range
of `orderResultA`, and belongs to the unit at address 1. -/
def orderResultD : binResult where
  symbols := []
  coverPoints := ([], [])
  ranges := [{ start := 0x1000, end_ := 0x1100, unit := 1 }]
  units := [1]
  err := none

/-! ## Decoder contracts -/

theorem sext32_cast (v : Nat) (hv : v < 2 ^ 32) :
    ((sext32 v : Nat) : Int) = (signExtend32 v % 2 ^ 64) := by
  unfold sext32 signExtend32
  split <;> push_cast <;> omega

theorem or_high_bits (x : Nat) (hx : x < 2 ^ 26) :
    x ||| 0xfffffffffc000000 = x + 0xfffffffffc000000 := by
  have h := Nat.mul_add_lt_is_or hx (2 ^ 38 - 1)
  have e : (2 : Nat) ^ 26 * (2 ^ 38 - 1) = 0xfffffffffc000000 := by norm_num
  rw [e] at h
  rw [Nat.or_comm, ← h, Nat.add_comm]

theorem and_low26 (w : Nat) : w &&& 0x3ffffff = w % 2 ^ 26 := by
  have h := Nat.and_pow_two_sub_one_eq_mod w 26
  have e : (2 : Nat) ^ 26 - 1 = 0x3ffffff := by norm_num
  rw [e] at h
  exact h

/-- C3: on AMD64 a 5-byte window is a call iff its first byte is `0xE8`, and the call target
is `pc + 5 + sx_i32(le32(b[1..5]))` modulo `2^64`. -/
theorem amd64_decoder_contract (b0 b1 b2 b3 b4 pc : Nat) :
    (amd64.isCallInsn [b0, b1, b2, b3, b4] = true ↔ b0 = 0xe8) ∧
    ((amd64.callTarget amd64.callLen [b0, b1, b2, b3, b4] pc : Nat) : Int) =
      ((pc : Int) + 5 + signExtend32 (b1 + 2 ^ 8 * b2 + 2 ^ 16 * b3 + 2 ^ 24 * b4)) % 2 ^ 64 := by
  constructor
  · simp [amd64]
  · simp only [amd64, leUint32, sext32, signExtend32, u64, List.drop, List.getD_cons_zero,
      List.getD_cons_succ]
    split <;> split <;> push_cast <;> omega

/-- C4: on ARM64 a 4-byte window, read as the little-endian word `w`, is a call iff
`w & 0xFC000000 = 0x94000000`; the call target is `pc + 4 * sx_i26(w mod 2^26)` modulo `2^64`,
so that a `BL` whose bit 25 is set branches backwards by `4 * (2^26 - imm26)` bytes. -/
theorem arm64_decoder_contract (b0 b1 b2 b3 pc : Nat) :
    (arm64.isCallInsn [b0, b1, b2, b3] = true ↔
      (b0 + 2 ^ 8 * b1 + 2 ^ 16 * b2 + 2 ^ 24 * b3) &&& 0xfc000000 = 0x94000000) ∧
    ((arm64.callTarget arm64.callLen [b0, b1, b2, b3] pc : Nat) : Int) =
      ((pc : Int) + 4 * signExtend26 ((b0 + 2 ^ 8 * b1 + 2 ^ 16 * b2 + 2 ^ 24 * b3) % 2 ^ 26))
        % 2 ^ 64 ∧
    (2 ^ 25 ≤ (b0 + 2 ^ 8 * b1 + 2 ^ 16 * b2 + 2 ^ 24 * b3) % 2 ^ 26 →
      ((arm64.callTarget arm64.callLen [b0, b1, b2, b3] pc : Nat) : Int) =
        ((pc : Int) -
          4 * (2 ^ 26 - ((b0 + 2 ^ 8 * b1 + 2 ^ 16 * b2 + 2 ^ 24 * b3) % 2 ^ 26 : Nat))) % 2 ^ 64) := by
  have hw : leUint32 [b0, b1, b2, b3] = b0 + 2 ^ 8 * b1 + 2 ^ 16 * b2 + 2 ^ 24 * b3 := by
    simp only [leUint32, List.getD_cons_zero, List.getD_cons_succ]
    ring
  generalize b0 + 2 ^ 8 * b1 + 2 ^ 16 * b2 + 2 ^ 24 * b3 = w at hw
  have hlt : w % 2 ^ 26 < 2 ^ 26 := Nat.mod_lt _ (by norm_num)
  have key : ((arm64.callTarget arm64.callLen [b0, b1, b2, b3] pc : Nat) : Int) =
      ((pc : Int) + 4 * signExtend26 (w % 2 ^ 26)) % 2 ^ 64 := by
    simp only [arm64, hw, and_low26, Nat.shiftRight_eq_div_pow, u64, signExtend26, beq_iff_eq]
    generalize w % 2 ^ 26 = x at hlt
    by_cases hs : x / 2 ^ 25 = 1
    · rw [if_pos hs, or_high_bits x hlt, if_neg (by omega)]
      push_cast
      omega
    · rw [if_neg hs, if_pos (by omega)]
      push_cast
      omega
  refine ⟨?_, key, ?_⟩
  · simp [arm64, hw]
  · intro h25
    rw [key]
    simp only [signExtend26]
    rw [if_neg (by omega)]
    push_cast
    congr 1
    ring

theorem arm64_decoder_contract_witness :
    ((arm64.callTarget arm64.callLen [0xfe, 0xff, 0xff, 0x97] 0x1000 : Nat) : Int) =
        ((0x1000 : Nat) -
          4 * (2 ^ 26 - ((0xfe + 2 ^ 8 * 0xff + 2 ^ 16 * 0xff + 2 ^ 24 * 0x97) % 2 ^ 26 : Nat)))
          % 2 ^ 64 :=
  (arm64_decoder_contract 0xfe 0xff 0xff 0x97 0x1000).2.2 (by decide)

/-- C5: on S390X a 6-byte window is a call iff its first two bytes are `0xC0 0xE5`, and the
call target is `pc + 2 * sx_i32(be32(b[2..6]))` modulo `2^64`; the window `C0 E5 FF FF FF FF`
gives the target `pc - 2` (modulo `2^64`). -/
theorem s390x_decoder_contract (b0 b1 b2 b3 b4 b5 pc : Nat) :
    (s390x.isCallInsn [b0, b1, b2, b3, b4, b5] = true ↔ b0 = 0xc0 ∧ b1 = 0xe5) ∧
    ((s390x.callTarget s390x.callLen [b0, b1, b2, b3, b4, b5] pc : Nat) : Int) =
      ((pc : Int) + 2 * signExtend32 (2 ^ 24 * b2 + 2 ^ 16 * b3 + 2 ^ 8 * b4 + b5)) % 2 ^ 64 ∧
    ((s390x.callTarget s390x.callLen [0xc0, 0xe5, 0xff, 0xff, 0xff, 0xff] pc : Nat) : Int) =
      ((pc : Int) - 2) % 2 ^ 64 := by
  refine ⟨?_, ?_, ?_⟩
  · simp [s390x]
  · simp only [s390x, beUint32, sext32, signExtend32, u64, List.drop, List.getD_cons_zero,
      List.getD_cons_succ]
    split <;> split <;> push_cast <;> omega
  · simp only [s390x, beUint32, sext32, u64, List.drop, List.getD_cons_zero,
      List.getD_cons_succ]
    norm_num
    omega

/-! ## The scanner -/

theorem nextCallTargetLoop_spec (arch : Arch) (hs : 0 < arch.scanSize) (hc : 0 < arch.callLen)
    (textAddr : Nat) (data : List Nat) :
    ∀ fuel pos, 0 < fuel → data.length < pos + fuel →
      ((∃ p, nextCallTargetLoop arch textAddr data fuel pos = some (0, 0, p)) ∧
        ∀ k, pos + k * arch.scanSize + arch.callLen ≤ data.length →
          arch.isCallInsn (window arch data (pos + k * arch.scanSize)) = false) ∨
      (∃ k, pos + k * arch.scanSize + arch.callLen ≤ data.length ∧
        arch.isCallInsn (window arch data (pos + k * arch.scanSize)) = true ∧
        (∀ j, j < k → arch.isCallInsn (window arch data (pos + j * arch.scanSize)) = false) ∧
        nextCallTargetLoop arch textAddr data fuel pos =
          some (targetAt arch textAddr data (pos + k * arch.scanSize),
            pcAt textAddr (pos + k * arch.scanSize),
            pos + k * arch.scanSize + arch.scanSize)) := by
  intro fuel
  induction fuel with
  | zero => intro pos h; omega
  | succ fuel ih =>
    intro pos _ hlen
    rw [nextCallTargetLoop]
    by_cases h1 : pos < data.length
    · rw [if_pos h1]
      by_cases h2 : pos + arch.callLen > data.length
      · simp only [h2, if_true]
        left
        refine ⟨⟨pos, rfl⟩, ?_⟩
        intro k hk
        have : pos ≤ pos + k * arch.scanSize := Nat.le_add_right _ _
        omega
      · simp only [h2, if_false]
        cases hcall : arch.isCallInsn (List.take arch.callLen (List.drop pos data)) with
        | false =>
          simp only [Bool.not_false, if_true]
          have hw0 : arch.isCallInsn (window arch data pos) = false := hcall
          rcases ih (pos + arch.scanSize) (by omega) (by omega) with ⟨hp, hall⟩ | ⟨k, hk1, hk2, hk3, hk4⟩
          · left
            refine ⟨hp, ?_⟩
            intro k hk
            cases k with
            | zero => simpa using hw0
            | succ k =>
              have e : pos + (k + 1) * arch.scanSize = pos + arch.scanSize + k * arch.scanSize := by
                ring
              rw [e] at hk ⊢
              exact hall k hk
          · right
            have e : pos + (k + 1) * arch.scanSize = pos + arch.scanSize + k * arch.scanSize := by
              ring
            refine ⟨k + 1, ?_, ?_, ?_, ?_⟩
            · rw [e]; exact hk1
            · rw [e]; exact hk2
            · intro j hj
              cases j with
              | zero => simpa using hw0
              | succ j =>
                have e2 : pos + (j + 1) * arch.scanSize
                    = pos + arch.scanSize + j * arch.scanSize := by ring
                rw [e2]
                exact hk3 j (by omega)
            · rw [e]; exact hk4
        | true =>
          simp only [Bool.not_true, Bool.false_eq_true, if_false]
          right
          refine ⟨0, ?_, ?_, ?_, ?_⟩
          · simpa using Nat.le_of_not_gt h2
          · simpa [window] using hcall
          · intro j hj; omega
          · simp [targetAt, pcAt, window]
    · rw [if_neg h1]
      left
      refine ⟨⟨pos, rfl⟩, ?_⟩
      intro k hk
      have : pos ≤ pos + k * arch.scanSize := Nat.le_add_right _ _
      omega

theorem exists_stride (s i j : Nat) (hi : s ∣ i) (hj : s ∣ j) (hij : i ≤ j) :
    ∃ k, j = i + k * s := by
  obtain ⟨a, rfl⟩ := hi
  obtain ⟨b, rfl⟩ := hj
  by_cases hs : s = 0
  · subst hs
    exact ⟨0, by simp⟩
  · have hab : a ≤ b := Nat.le_of_mul_le_mul_left hij (Nat.pos_of_ne_zero hs)
    refine ⟨b - a, ?_⟩
    have hb : b = a + (b - a) := by omega
    calc s * b = s * (a + (b - a)) := by rw [← hb]
      _ = s * a + (b - a) * s := by ring

theorem readCoverPointsLoop_spec (arch : Arch) (hs : 0 < arch.scanSize) (hc : 0 < arch.callLen)
    (info : symbolInfo) (data : List Nat) :
    ∀ fuel i pcs, 0 < fuel → data.length < i + fuel → arch.scanSize ∣ i →
      ∃ J0 J1 : List Nat,
        readCoverPointsLoop arch info data fuel i pcs =
          some (pcs.1 ++ J0.map (pcAt info.textAddr), pcs.2 ++ J1.map (pcAt info.textAddr)) ∧
        J0.Sorted (· < ·) ∧ J1.Sorted (· < ·) ∧
        (∀ j ∈ J0, i ≤ j ∧ IsSite arch data j ∧ targetAt arch info.textAddr data j ∈ info.tracePC) ∧
        (∀ j ∈ J1, i ≤ j ∧ IsSite arch data j ∧ targetAt arch info.textAddr data j ∈ info.traceCmp ∧
          targetAt arch info.textAddr data j ∉ info.tracePC) ∧
        (∀ j, i ≤ j → IsSite arch data j →
          (∀ j', i ≤ j' → j' ≤ j → IsSite arch data j' →
            targetAt arch info.textAddr data j' ≠ 0) →
          (targetAt arch info.textAddr data j ∈ info.tracePC → j ∈ J0) ∧
          (targetAt arch info.textAddr data j ∉ info.tracePC →
            targetAt arch info.textAddr data j ∈ info.traceCmp → j ∈ J1)) := by
  intro fuel
  induction fuel with
  | zero => intro i pcs h; omega
  | succ fuel ih =>
    intro i pcs _ hlen hdiv
    rw [readCoverPointsLoop]
    have hnext := nextCallTargetLoop_spec arch hs hc info.textAddr data (data.length + 1) i
      (by omega) (by omega)
    rcases hnext with ⟨⟨p, hp⟩, hall⟩ | ⟨k, hk1, hk2, hk3, hk4⟩
    · -- the end of the data is reached
      refine ⟨[], [], ?_, List.sorted_nil, List.sorted_nil, by simp, by simp, ?_⟩
      · simp [nextCallTarget, hp]
      · intro j hij hsite _
        obtain ⟨k, rfl⟩ := exists_stride _ _ _ hdiv hsite.1 hij
        have := hall k hsite.2.1
        rw [hsite.2.2] at this
        cases this
    · -- a call instruction at offset `i + k * scanSize`
      set j0 := i + k * arch.scanSize with hj0
      have hsite0 : IsSite arch data j0 :=
        ⟨Dvd.dvd.add hdiv (Dvd.intro_left k rfl), hk1, hk2⟩
      have hi0 : i ≤ j0 := Nat.le_add_right _ _
      have before : ∀ j, i ≤ j → j < j0 → ¬ IsSite arch data j := by
        intro j hij hlt hsite
        obtain ⟨k', rfl⟩ := exists_stride _ _ _ hdiv hsite.1 hij
        have hk' : k' < k := by
          by_contra hge
          have : k * arch.scanSize ≤ k' * arch.scanSize :=
            Nat.mul_le_mul_right _ (Nat.le_of_not_lt hge)
          omega
        have := hk3 k' hk'
        rw [hsite.2.2] at this
        cases this
      have after : ∀ j, j0 < j → IsSite arch data j → j0 + arch.scanSize ≤ j := by
        intro j hlt hsite
        obtain ⟨k', rfl⟩ := exists_stride _ _ _ hsite0.1 hsite.1 (Nat.le_of_lt hlt)
        cases k' with
        | zero => omega
        | succ k' =>
          have : arch.scanSize ≤ (k' + 1) * arch.scanSize := Nat.le_mul_of_pos_left _ (by omega)
          omega
      have hdiv' : arch.scanSize ∣ j0 + arch.scanSize := Dvd.dvd.add hsite0.1 (dvd_refl _)
      simp only [nextCallTarget, hk4]
      by_cases ht0 : targetAt arch info.textAddr data j0 = 0
      · rw [if_pos ht0]
        refine ⟨[], [], by simp, List.sorted_nil, List.sorted_nil, by simp, by simp, ?_⟩
        intro j hij hsite hnz
        by_cases hlt : j < j0
        · exact absurd hsite (before j hij hlt)
        · exact absurd ht0 (hnz j0 hi0 (Nat.le_of_not_lt hlt) hsite0)
      · rw [if_neg ht0]
        by_cases htp : targetAt arch info.textAddr data j0 ∈ info.tracePC
        · rw [if_pos htp]
          obtain ⟨J0, J1, hres, hs0, hs1, hm0, hm1, hcomp⟩ :=
            ih (j0 + arch.scanSize) (pcs.1 ++ [pcAt info.textAddr j0], pcs.2)
              (by omega) (by omega) hdiv'
          refine ⟨j0 :: J0, J1, ?_, ?_, hs1, ?_, ?_, ?_⟩
          · rw [hres]; simp
          · refine List.sorted_cons.2 ⟨?_, hs0⟩
            intro b hb
            have := (hm0 b hb).1
            omega
          · intro j hj
            rcases List.mem_cons.1 hj with rfl | hj
            · exact ⟨hi0, hsite0, htp⟩
            · obtain ⟨h1, h2, h3⟩ := hm0 j hj
              exact ⟨by omega, h2, h3⟩
          · intro j hj
            obtain ⟨h1, h2, h3⟩ := hm1 j hj
            exact ⟨by omega, h2, h3⟩
          · intro j hij hsite hnz
            by_cases hlt : j < j0
            · exact absurd hsite (before j hij hlt)
            · by_cases heq : j = j0
              · subst heq
                exact ⟨fun _ => List.mem_cons_self _ _, fun h => absurd htp h⟩
              · have hge := after j (by omega) hsite
                obtain ⟨c0, c1⟩ := hcomp j hge hsite
                  (fun j' h1 h2 h3 => hnz j' (by omega) h2 h3)
                exact ⟨fun h => List.mem_cons_of_mem _ (c0 h), c1⟩
        · rw [if_neg htp]
          by_cases htc : targetAt arch info.textAddr data j0 ∈ info.traceCmp
          · rw [if_pos htc]
            obtain ⟨J0, J1, hres, hs0, hs1, hm0, hm1, hcomp⟩ :=
              ih (j0 + arch.scanSize) (pcs.1, pcs.2 ++ [pcAt info.textAddr j0])
                (by omega) (by omega) hdiv'
            refine ⟨J0, j0 :: J1, ?_, hs0, ?_, ?_, ?_, ?_⟩
            · rw [hres]; simp
            · refine List.sorted_cons.2 ⟨?_, hs1⟩
              intro b hb
              have := (hm1 b hb).1
              omega
            · intro j hj
              obtain ⟨h1, h2, h3⟩ := hm0 j hj
              exact ⟨by omega, h2, h3⟩
            · intro j hj
              rcases List.mem_cons.1 hj with rfl | hj
              · exact ⟨hi0, hsite0, htc, htp⟩
              · obtain ⟨h1, h2, h3⟩ := hm1 j hj
                exact ⟨by omega, h2, h3⟩
            · intro j hij hsite hnz
              by_cases hlt : j < j0
              · exact absurd hsite (before j hij hlt)
              · by_cases heq : j = j0
                · subst heq
                  exact ⟨fun h => absurd h htp, fun _ _ => List.mem_cons_self _ _⟩
                · have hge := after j (by omega) hsite
                  obtain ⟨c0, c1⟩ := hcomp j hge hsite
                    (fun j' h1 h2 h3 => hnz j' (by omega) h2 h3)
                  exact ⟨c0, fun h h' => List.mem_cons_of_mem _ (c1 h h')⟩
          · rw [if_neg htc]
            obtain ⟨J0, J1, hres, hs0, hs1, hm0, hm1, hcomp⟩ :=
              ih (j0 + arch.scanSize) pcs (by omega) (by omega) hdiv'
            refine ⟨J0, J1, hres, hs0, hs1, ?_, ?_, ?_⟩
            · intro j hj
              obtain ⟨h1, h2, h3⟩ := hm0 j hj
              exact ⟨by omega, h2, h3⟩
            · intro j hj
              obtain ⟨h1, h2, h3⟩ := hm1 j hj
              exact ⟨by omega, h2, h3⟩
            · intro j hij hsite hnz
              by_cases hlt : j < j0
              · exact absurd hsite (before j hij hlt)
              · by_cases heq : j = j0
                · subst heq
                  exact ⟨fun h => absurd h htp, fun _ h => absurd h htc⟩
                · have hge := after j (by omega) hsite
                  exact hcomp j hge hsite (fun j' h1 h2 h3 => hnz j' (by omega) h2 h3)

theorem FastArch.pos {arch : Arch} (h : FastArch arch) :
    0 < arch.scanSize ∧ 0 < arch.callLen := by
  rcases h with rfl | rfl | rfl <;> exact ⟨by decide, by decide⟩

/-- C2: `readCoverPoints` reports only real callback sites. The two outputs are the PCs of two
strictly increasing (hence duplicate-free) and disjoint lists of offsets; every offset behind
`output[0]` is a call site whose target is in `tracePC`, every offset behind `output[1]` is a
call site whose target is in `traceCmp` and not in `tracePC`. -/
theorem readCoverPoints_sound (arch : Arch) (hA : FastArch arch) (info : symbolInfo)
    (hne : info.tracePC ≠ []) (data : List Nat) :
    ∃ J0 J1 : List Nat,
      readCoverPoints arch info data =
        some (.ok (J0.map (pcAt info.textAddr), J1.map (pcAt info.textAddr))) ∧
      J0.Sorted (· < ·) ∧ J1.Sorted (· < ·) ∧ List.Disjoint J0 J1 ∧
      (∀ j ∈ J0, IsSite arch data j ∧ targetAt arch info.textAddr data j ∈ info.tracePC) ∧
      (∀ j ∈ J1, IsSite arch data j ∧ targetAt arch info.textAddr data j ∈ info.traceCmp ∧
        targetAt arch info.textAddr data j ∉ info.tracePC) := by
  obtain ⟨hs, hc⟩ := hA.pos
  obtain ⟨J0, J1, hres, hs0, hs1, hm0, hm1, -⟩ :=
    readCoverPointsLoop_spec arch hs hc info data (data.length + 1) 0 ([], [])
      (by omega) (by omega) (dvd_zero _)
  refine ⟨J0, J1, ?_, hs0, hs1, ?_, fun j hj => (hm0 j hj).2, fun j hj => (hm1 j hj).2⟩
  · have hlen : ¬ info.tracePC.length = 0 := by
      intro h
      exact hne (List.length_eq_zero.1 h)
    rw [readCoverPoints, if_neg hlen, hres]
    simp
  · intro j h0 h1
    exact (hm1 j h1).2.2.2 (hm0 j h0).2.2

theorem readCoverPoints_sound_witness :
    ∃ J0 J1 : List Nat,
      readCoverPoints amd64 oneCallInfo [0xe8, 0, 0, 0, 0] =
        some (.ok (J0.map (pcAt oneCallInfo.textAddr), J1.map (pcAt oneCallInfo.textAddr))) ∧
      J0.Sorted (· < ·) ∧ J1.Sorted (· < ·) ∧ List.Disjoint J0 J1 ∧
      (∀ j ∈ J0, IsSite amd64 [0xe8, 0, 0, 0, 0] j ∧
        targetAt amd64 oneCallInfo.textAddr [0xe8, 0, 0, 0, 0] j ∈ oneCallInfo.tracePC) ∧
      (∀ j ∈ J1, IsSite amd64 [0xe8, 0, 0, 0, 0] j ∧
        targetAt amd64 oneCallInfo.textAddr [0xe8, 0, 0, 0, 0] j ∈ oneCallInfo.traceCmp ∧
        targetAt amd64 oneCallInfo.textAddr [0xe8, 0, 0, 0, 0] j ∉ oneCallInfo.tracePC) :=
  readCoverPoints_sound amd64 (Or.inl rfl) oneCallInfo (by simp [oneCallInfo]) [0xe8, 0, 0, 0, 0]

/-- Completeness of the scan when no decoded call has target 0: then every call site whose
target is a trace-pc callback is reported in `output[0]`, and every call site whose target is
only a trace-cmp callback is reported in `output[1]`. -/
theorem readCoverPoints_complete_of_nonzero_targets (arch : Arch) (hA : FastArch arch)
    (info : symbolInfo) (hne : info.tracePC ≠ []) (data : List Nat)
    (hnz : ∀ j, IsSite arch data j → targetAt arch info.textAddr data j ≠ 0) :
    ∃ out0 out1 : List Nat,
      readCoverPoints arch info data = some (.ok (out0, out1)) ∧
      ∀ i, IsSite arch data i →
        (targetAt arch info.textAddr data i ∈ info.tracePC → pcAt info.textAddr i ∈ out0) ∧
        (targetAt arch info.textAddr data i ∉ info.tracePC →
          targetAt arch info.textAddr data i ∈ info.traceCmp → pcAt info.textAddr i ∈ out1) := by
  obtain ⟨hs, hc⟩ := hA.pos
  obtain ⟨J0, J1, hres, -, -, -, -, hcomp⟩ :=
    readCoverPointsLoop_spec arch hs hc info data (data.length + 1) 0 ([], [])
      (by omega) (by omega) (dvd_zero _)
  refine ⟨J0.map (pcAt info.textAddr), J1.map (pcAt info.textAddr), ?_, ?_⟩
  · have hlen : ¬ info.tracePC.length = 0 := by
      intro h
      exact hne (List.length_eq_zero.1 h)
    rw [readCoverPoints, if_neg hlen, hres]
    simp
  · intro i hsite
    obtain ⟨c0, c1⟩ := hcomp i (Nat.zero_le _) hsite (fun j' _ _ h => hnz j' h)
    exact ⟨fun h => List.mem_map_of_mem _ (c0 h), fun h h' => List.mem_map_of_mem _ (c1 h h')⟩

/-- C1 (failing input): on AMD64, for a text at `0xffffffff81000000` holding
`E8 FB FF FF 7E  E8 00 00 00 00`, the call at offset 0 has target `2^64 mod 2^64 = 0`, which
`readCoverPoints` takes for the end of the data: it returns two empty lists although offset 5
is a call site whose target `textAddr + 10` is in `tracePC`. -/
theorem readCoverPoints_stops_at_zero_target :
    readCoverPoints amd64 wrapInfo wrapText = some (.ok ([], [])) ∧
    wrapInfo.tracePC ≠ [] ∧
    IsSite amd64 wrapText 5 ∧
    window amd64 wrapText 5 = [0xe8, 0, 0, 0, 0] ∧
    targetAt amd64 wrapInfo.textAddr wrapText 5 = wrapInfo.textAddr + 5 + 5 ∧
    targetAt amd64 wrapInfo.textAddr wrapText 5 ∈ wrapInfo.tracePC ∧
    targetAt amd64 wrapInfo.textAddr wrapText 0 = 0 := by
  refine ⟨rfl, by decide, ⟨by decide, by decide, by decide⟩, by decide, by decide,
    by decide, by decide⟩


/-! ## buildSymbols: frame lemmas -/

section Frame

variable (h : Heap) (s p typ : Nat) (v : List Nat)

@[simp] theorem setSymbolPCs_units : (h.setSymbolPCs s typ v).units = h.units := rfl

@[simp] theorem setSymbolPCs_Start : ((h.setSymbolPCs s typ v).symbols p).Start = (h.symbols p).Start := by
  unfold Heap.setSymbolPCs
  by_cases hp : p = s
  · subst hp; simp
  · simp [Function.update_noteq hp]

@[simp] theorem setSymbolPCs_End : ((h.setSymbolPCs s typ v).symbols p).End = (h.symbols p).End := by
  unfold Heap.setSymbolPCs
  by_cases hp : p = s
  · subst hp; simp
  · simp [Function.update_noteq hp]

@[simp] theorem setSymbolPCs_Unit : ((h.setSymbolPCs s typ v).symbols p).Unit = (h.symbols p).Unit := by
  unfold Heap.setSymbolPCs
  by_cases hp : p = s
  · subst hp; simp
  · simp [Function.update_noteq hp]

theorem setSymbolPCs_of_ne (hp : p ≠ s) : (h.setSymbolPCs s typ v).symbols p = h.symbols p := by
  unfold Heap.setSymbolPCs
  simp [Function.update_noteq hp]

theorem selectPCs_storePCs (u : ObjectUnit) (typ' : Nat) :
    selectPCs (storePCs u typ v) typ' =
      if (typ = 0 ↔ typ' = 0) then v else selectPCs u typ' := by
  unfold selectPCs storePCs
  by_cases h1 : typ = 0 <;> by_cases h2 : typ' = 0 <;> simp [h1, h2]

theorem setSymbolPCs_select (typ' : Nat) :
    selectPCs ((h.setSymbolPCs s typ v).symbols p).toObjectUnit typ' =
      if p = s ∧ (typ = 0 ↔ typ' = 0) then v else selectPCs (h.symbols p).toObjectUnit typ' := by
  by_cases hp : p = s
  · subst hp
    unfold Heap.setSymbolPCs
    simp [selectPCs_storePCs]
  · rw [setSymbolPCs_of_ne h s p typ v hp]
    simp [hp]

@[simp] theorem setUnitPCs_symbols : (h.setUnitPCs s typ v).symbols = h.symbols := rfl

theorem setSymbolUnit_units (u : Nat) : (h.setSymbolUnit s u).units = h.units := rfl

theorem setSymbolUnit_toObjectUnit (u : Nat) :
    ((h.setSymbolUnit s u).symbols p).toObjectUnit = (h.symbols p).toObjectUnit := by
  unfold Heap.setSymbolUnit
  by_cases hp : p = s
  · subst hp; simp
  · simp [Function.update_noteq hp]

theorem setSymbolUnit_Start (u : Nat) :
    ((h.setSymbolUnit s u).symbols p).Start = (h.symbols p).Start := by
  unfold Heap.setSymbolUnit
  by_cases hp : p = s
  · subst hp; simp
  · simp [Function.update_noteq hp]

theorem setSymbolUnit_End (u : Nat) :
    ((h.setSymbolUnit s u).symbols p).End = (h.symbols p).End := by
  unfold Heap.setSymbolUnit
  by_cases hp : p = s
  · subst hp; simp
  · simp [Function.update_noteq hp]

theorem setSymbolUnit_Unit (u : Nat) :
    ((h.setSymbolUnit s u).symbols p).Unit = if p = s then some u else (h.symbols p).Unit := by
  unfold Heap.setSymbolUnit
  by_cases hp : p = s
  · subst hp; simp
  · simp [Function.update_noteq hp, hp]

theorem storePCs_selectPCs (u : ObjectUnit) : storePCs u typ (selectPCs u typ) = u := by
  unfold storePCs selectPCs
  split <;> rfl

theorem setSymbolPCs_self :
    (h.setSymbolPCs s typ (selectPCs (h.symbols s).toObjectUnit typ)).symbols = h.symbols := by
  unfold Heap.setSymbolPCs
  simp only [storePCs_selectPCs]
  exact Function.update_eq_self s h.symbols

end Frame

/-! ## buildSymbols: the first pass keeps PCs inside their symbol -/

theorem take_succ_getD (pcs : List Nat) (i : Nat) (hi : i < pcs.length) :
    pcs.take (i + 1) = pcs.take i ++ [pcs.getD i 0] := by
  rw [List.take_succ, List.getD_eq_getElem?_getD, List.getElem?_eq_getElem hi]
  rfl

theorem stepSymb_spec (symbols pcs : List Nat) (st : AttrState) (i s : Nat)
    (h : stepSymb symbols pcs st i = some s) :
    s ∈ symbols ∧ (st.heap.symbols s).Start ≤ pcs.getD i 0 ∧
      pcs.getD i 0 < (st.heap.symbols s).End := by
  unfold stepSymb attrStep at h
  dsimp only at h
  split at h
  · rename_i s' hget
    split_ifs at h with hc
    cases h
    exact ⟨List.getElem?_mem hget, hc.1, hc.2⟩
  · cases h

theorem attrStep_eq (symbols pcs : List Nat) (typ : Nat) (st : AttrState) (i : Nat) :
    attrStep symbols pcs typ st i =
      { heap :=
          match st.curSymbol with
          | some cur =>
            if some cur ≠ stepSymb symbols pcs st i then
              st.heap.setSymbolPCs cur typ ((pcs.take i).drop st.firstSymbolPC.toNat)
            else st.heap
          | none => st.heap
        curSymbol := stepSymb symbols pcs st i
        firstSymbolPC :=
          if stepSymb symbols pcs st i ≠ none ∧
              (if st.curSymbol ≠ none ∧ st.curSymbol ≠ stepSymb symbols pcs st i then (-1 : Int)
                else st.firstSymbolPC) = -1
          then (i : Int)
          else (if st.curSymbol ≠ none ∧ st.curSymbol ≠ stepSymb symbols pcs st i then (-1 : Int)
            else st.firstSymbolPC)
        symbolIdx :=
          advanceSymbolIdx st.heap (pcs.getD i 0) (symbols.drop st.symbolIdx) st.symbolIdx } :=
  rfl

/-- Iteration `i` when no symbol is current. -/
theorem attrStep_none (symbols pcs : List Nat) (typ : Nat) (st : AttrState) (i : Nat)
    (hcur : st.curSymbol = none) :
    (attrStep symbols pcs typ st i).heap = st.heap ∧
    (attrStep symbols pcs typ st i).firstSymbolPC =
      if stepSymb symbols pcs st i ≠ none ∧ st.firstSymbolPC = -1 then (i : Int)
      else st.firstSymbolPC := by
  rw [attrStep_eq]
  simp [hcur]

/-- Iteration `i` when the current symbol is also the symbol of `pcs[i]`. -/
theorem attrStep_same (symbols pcs : List Nat) (typ : Nat) (st : AttrState) (i c : Nat)
    (hcur : st.curSymbol = some c) (hs : stepSymb symbols pcs st i = some c) :
    (attrStep symbols pcs typ st i).heap = st.heap ∧
    (attrStep symbols pcs typ st i).firstSymbolPC =
      if st.firstSymbolPC = -1 then (i : Int) else st.firstSymbolPC := by
  rw [attrStep_eq]
  simp [hcur, hs]

/-- Iteration `i` when the current symbol is not the symbol of `pcs[i]`: its PCs are stored. -/
theorem attrStep_flush (symbols pcs : List Nat) (typ : Nat) (st : AttrState) (i c : Nat)
    (hcur : st.curSymbol = some c) (hs : stepSymb symbols pcs st i ≠ some c) :
    (attrStep symbols pcs typ st i).heap =
      st.heap.setSymbolPCs c typ ((pcs.take i).drop st.firstSymbolPC.toNat) ∧
    (attrStep symbols pcs typ st i).firstSymbolPC =
      if stepSymb symbols pcs st i ≠ none then (i : Int) else -1 := by
  rw [attrStep_eq]
  have hs' : ¬ some c = stepSymb symbols pcs st i := fun h => hs h.symm
  simp [hcur, hs']

theorem inRange_setSymbolPCs (h : Heap) (c typ : Nat) (v : List Nat) (p : Nat)
    (hp : InRange h p)
    (hv : ∀ x ∈ v, (h.symbols c).Start ≤ x ∧ x < (h.symbols c).End) :
    InRange (h.setSymbolPCs c typ v) p := by
  intro typ' pc hpc
  rw [setSymbolPCs_select] at hpc
  rw [setSymbolPCs_Start, setSymbolPCs_End]
  split_ifs at hpc with hc
  · rw [hc.1]
    exact hv pc hpc
  · exact hp typ' pc hpc

theorem attrStep_inv (symbols pcs : List Nat) (typ : Nat) (st : AttrState) (i : Nat)
    (hi : i < pcs.length) (hinv : AttrInv symbols pcs i st) :
    AttrInv symbols pcs (i + 1) (attrStep symbols pcs typ st i) := by
  obtain ⟨hin, hnone, hsome⟩ := hinv
  have htake := take_succ_getD pcs i hi
  have hlen : (pcs.take i).length = i := by
    rw [List.length_take]; omega
  cases hcur : st.curSymbol with
  | none =>
    obtain ⟨e1, e2⟩ := attrStep_none symbols pcs typ st i hcur
    have hf := hnone hcur
    refine ⟨?_, ?_, ?_⟩
    · rw [e1]; exact hin
    · intro hn
      change stepSymb symbols pcs st i = none at hn
      rw [e2, if_neg (fun hh => hh.1 hn)]
      exact hf
    · intro s hs
      change stepSymb symbols pcs st i = some s at hs
      obtain ⟨m1, m2, m3⟩ := stepSymb_spec symbols pcs st i s hs
      have hne : stepSymb symbols pcs st i ≠ none := by rw [hs]; simp
      rw [e1, e2, if_pos ⟨hne, hf⟩]
      refine ⟨m1, by omega, by omega, ?_⟩
      intro x hx
      rw [htake, Int.toNat_ofNat, List.drop_append_of_le_length (by omega),
        List.drop_of_length_le (by omega)] at hx
      simp only [List.nil_append, List.mem_singleton] at hx
      subst hx
      exact ⟨m2, m3⟩
  | some c =>
    obtain ⟨hc1, hc2, hc3, hc4⟩ := hsome c hcur
    by_cases hs : stepSymb symbols pcs st i = some c
    · obtain ⟨e1, e2⟩ := attrStep_same symbols pcs typ st i c hcur hs
      have hne1 : st.firstSymbolPC ≠ -1 := by omega
      rw [if_neg hne1] at e2
      refine ⟨?_, ?_, ?_⟩
      · rw [e1]; exact hin
      · intro hn
        change stepSymb symbols pcs st i = none at hn
        rw [hs] at hn
        cases hn
      · intro s hs'
        change stepSymb symbols pcs st i = some s at hs'
        have hsc : s = c := by
          have : some s = some c := by rw [← hs', ← hs]
          exact Option.some.inj this
        subst hsc
        obtain ⟨m1, m2, m3⟩ := stepSymb_spec symbols pcs st i s hs
        rw [e1, e2]
        refine ⟨m1, hc2, by omega, ?_⟩
        intro x hx
        rw [htake, List.drop_append_of_le_length (by rw [hlen]; omega)] at hx
        rcases List.mem_append.1 hx with hx | hx
        · exact hc4 x hx
        · simp only [List.nil_append, List.mem_singleton] at hx
          subst hx
          exact ⟨m2, m3⟩
    · obtain ⟨e1, e2⟩ := attrStep_flush symbols pcs typ st i c hcur hs
      refine ⟨?_, ?_, ?_⟩
      · rw [e1]
        intro p hp
        exact inRange_setSymbolPCs _ _ _ _ _ (hin p hp) hc4
      · intro hn
        change stepSymb symbols pcs st i = none at hn
        rw [e2, if_neg (fun hh => hh hn)]
      · intro s hs'
        change stepSymb symbols pcs st i = some s at hs'
        obtain ⟨m1, m2, m3⟩ := stepSymb_spec symbols pcs st i s hs'
        have hne : stepSymb symbols pcs st i ≠ none := by rw [hs']; simp
        rw [e1, e2, if_pos hne, setSymbolPCs_Start, setSymbolPCs_End]
        refine ⟨m1, by omega, by omega, ?_⟩
        intro x hx
        rw [htake, Int.toNat_ofNat, List.drop_append_of_le_length (by omega),
          List.drop_of_length_le (by omega)] at hx
        simp only [List.nil_append, List.mem_singleton] at hx
        subst hx
        exact ⟨m2, m3⟩

theorem attrFold_inv (symbols pcs : List Nat) (typ : Nat) (st0 : AttrState)
    (h0 : AttrInv symbols pcs 0 st0) :
    ∀ n, n ≤ pcs.length →
      AttrInv symbols pcs n ((List.range n).foldl (attrStep symbols pcs typ) st0) := by
  intro n
  induction n with
  | zero => intro _; simpa using h0
  | succ n ih =>
    intro hn
    rw [List.range_succ, List.foldl_append]
    exact attrStep_inv symbols pcs typ _ n (by omega) (ih (by omega))

theorem attributeType_inRange (symbols pcs : List Nat) (typ : Nat) (h : Heap)
    (hin : ∀ p ∈ symbols, InRange h p) :
    ∀ p ∈ symbols, InRange (attributeType symbols pcs typ h) p := by
  have h0 : AttrInv symbols pcs 0
      { heap := h, curSymbol := none, firstSymbolPC := -1, symbolIdx := 0 } :=
    ⟨hin, fun _ => rfl, fun c hc => by cases hc⟩
  obtain ⟨i1, _, i3⟩ := attrFold_inv symbols pcs typ _ h0 pcs.length (le_refl _)
  unfold attributeType
  dsimp only
  split
  · rename_i cur hcur
    obtain ⟨_, _, _, hrun⟩ := i3 cur hcur
    rw [List.take_length] at hrun
    intro p hp
    exact inRange_setSymbolPCs _ _ _ _ _ (i1 p hp) hrun
  · exact i1

theorem attributePCs_inRange (symbols : List Nat) (coverPoints : List Nat × List Nat) (h : Heap)
    (hin : ∀ p ∈ symbols, InRange h p) :
    ∀ p ∈ symbols, InRange (attributePCs symbols coverPoints h) p :=
  attributeType_inRange symbols _ 1 _ (attributeType_inRange symbols _ 0 h hin)

/-! ## buildSymbols: the second and third pass -/

/-- The second pass changes nothing but the `Unit` field of symbols. -/
theorem unitStep_frame (ranges : List pcRange) (st : UnitState) (s : Nat) :
    (∀ p, ((unitStep ranges st s).heap.symbols p).toObjectUnit = (st.heap.symbols p).toObjectUnit ∧
      ((unitStep ranges st s).heap.symbols p).Start = (st.heap.symbols p).Start ∧
      ((unitStep ranges st s).heap.symbols p).End = (st.heap.symbols p).End) ∧
    (unitStep ranges st s).heap.units = st.heap.units := by
  unfold unitStep
  dsimp only
  split
  · exact ⟨fun p => ⟨rfl, rfl, rfl⟩, rfl⟩
  · split_ifs
    · exact ⟨fun p => ⟨rfl, rfl, rfl⟩, rfl⟩
    · exact ⟨fun p => ⟨setSymbolUnit_toObjectUnit _ _ _ _, setSymbolUnit_Start _ _ _ _,
        setSymbolUnit_End _ _ _ _⟩, rfl⟩

theorem unitFold_frame (ranges : List pcRange) (symbols : List Nat) :
    ∀ st : UnitState,
    (∀ p, ((symbols.foldl (unitStep ranges) st).heap.symbols p).toObjectUnit
        = (st.heap.symbols p).toObjectUnit ∧
      ((symbols.foldl (unitStep ranges) st).heap.symbols p).Start = (st.heap.symbols p).Start ∧
      ((symbols.foldl (unitStep ranges) st).heap.symbols p).End = (st.heap.symbols p).End) ∧
    (symbols.foldl (unitStep ranges) st).heap.units = st.heap.units := by
  induction symbols with
  | nil => intro st; exact ⟨fun p => ⟨rfl, rfl, rfl⟩, rfl⟩
  | cons s rest ih =>
    intro st
    rw [List.foldl_cons]
    obtain ⟨a, b⟩ := ih (unitStep ranges st s)
    obtain ⟨c, d⟩ := unitStep_frame ranges st s
    refine ⟨fun p => ?_, b.trans d⟩
    obtain ⟨a1, a2, a3⟩ := a p
    obtain ⟨c1, c2, c3⟩ := c p
    exact ⟨a1.trans c1, a2.trans c2, a3.trans c3⟩

/-- The slice kept by the second pass is a sub-list of the symbols it has visited. -/
theorem unitFold_kept_sublist (ranges : List pcRange) (symbols : List Nat) :
    ∀ st : UnitState, ∃ l, (symbols.foldl (unitStep ranges) st).kept = st.kept ++ l ∧
      l.Sublist symbols := by
  induction symbols with
  | nil => intro st; exact ⟨[], by simp, List.Sublist.refl _⟩
  | cons s rest ih =>
    intro st
    rw [List.foldl_cons]
    obtain ⟨l, hl, hsub⟩ := ih (unitStep ranges st s)
    have hk : (unitStep ranges st s).kept = st.kept ∨ (unitStep ranges st s).kept = st.kept ++ [s] := by
      unfold unitStep
      dsimp only
      split
      · exact Or.inl rfl
      · split_ifs
        · exact Or.inl rfl
        · exact Or.inr rfl
    rcases hk with hk | hk
    · exact ⟨l, by rw [hl, hk], hsub.cons s⟩
    · exact ⟨s :: l, by rw [hl, hk]; simp, hsub.cons₂ s⟩

theorem assignUnits_kept_sublist (symbols : List Nat) (ranges : List pcRange) (h : Heap) :
    (assignUnits symbols ranges h).kept.Sublist symbols := by
  obtain ⟨l, hl, hsub⟩ := unitFold_kept_sublist ranges symbols
    { heap := h, rangeIndex := 0, kept := [] }
  unfold assignUnits
  rw [hl]
  simpa using hsub

/-- The third pass stores back into every symbol the PCs it already had. -/
theorem propagateStep_symbols (typ : Nat) (h : Heap) (s : Nat) :
    (propagateStep typ h s).symbols = h.symbols := by
  unfold propagateStep
  split
  · rfl
  · rename_i u _
    dsimp only
    rw [List.drop_left]
    exact setSymbolPCs_self (h.setUnitPCs u typ _) s typ

theorem propagateFold_symbols (typ : Nat) (l : List Nat) :
    ∀ h : Heap, (l.foldl (propagateStep typ) h).symbols = h.symbols := by
  induction l with
  | nil => intro h; rfl
  | cons s rest ih =>
    intro h
    rw [List.foldl_cons, ih, propagateStep_symbols]

theorem propagatePCs_symbols (l : List Nat) (h : Heap) :
    (propagatePCs l h).symbols = h.symbols := by
  unfold propagatePCs
  rw [propagateFold_symbols, propagateFold_symbols]

/-- C6: if the symbols start with empty `PCs` and `CMPs`, every symbol returned by
`buildSymbols` satisfies `Start <= pc < End` for each of its `PCs` and `CMPs`; in particular a
cover point equal to `End` is attributed to it neither as a PC nor as a CMP. -/
theorem buildSymbols_pcs_within_symbol (symbols : List Nat) (ranges : List pcRange)
    (coverPoints : List Nat × List Nat) (h : Heap)
    (hempty : ∀ p ∈ symbols, (h.symbols p).PCs = [] ∧ (h.symbols p).CMPs = []) :
    ∀ s ∈ (buildSymbols symbols ranges coverPoints h).1,
      (∀ pc ∈ ((buildSymbols symbols ranges coverPoints h).2.symbols s).PCs,
        ((buildSymbols symbols ranges coverPoints h).2.symbols s).Start ≤ pc ∧
        pc < ((buildSymbols symbols ranges coverPoints h).2.symbols s).End) ∧
      (∀ pc ∈ ((buildSymbols symbols ranges coverPoints h).2.symbols s).CMPs,
        ((buildSymbols symbols ranges coverPoints h).2.symbols s).Start ≤ pc ∧
        pc < ((buildSymbols symbols ranges coverPoints h).2.symbols s).End) ∧
      ((buildSymbols symbols ranges coverPoints h).2.symbols s).End ∉
        ((buildSymbols symbols ranges coverPoints h).2.symbols s).PCs ∧
      ((buildSymbols symbols ranges coverPoints h).2.symbols s).End ∉
        ((buildSymbols symbols ranges coverPoints h).2.symbols s).CMPs := by
  intro s hs
  have hmem : s ∈ symbols := (assignUnits_kept_sublist symbols ranges _).subset hs
  have h0 : ∀ p ∈ symbols, InRange h p := by
    intro p hp typ pc hpc
    obtain ⟨e1, e2⟩ := hempty p hp
    unfold selectPCs at hpc
    rw [e1, e2] at hpc
    split_ifs at hpc <;> cases hpc
  have h1 := attributePCs_inRange symbols coverPoints h h0 s hmem
  obtain ⟨f, -⟩ := unitFold_frame ranges symbols
    { heap := attributePCs symbols coverPoints h, rangeIndex := 0, kept := [] }
  obtain ⟨f1, f2, f3⟩ := f s
  have key : ∀ typ, ∀ pc ∈ selectPCs
      ((buildSymbols symbols ranges coverPoints h).2.symbols s).toObjectUnit typ,
      ((buildSymbols symbols ranges coverPoints h).2.symbols s).Start ≤ pc ∧
        pc < ((buildSymbols symbols ranges coverPoints h).2.symbols s).End := by
    intro typ pc hpc
    unfold buildSymbols at hpc ⊢
    dsimp only at hpc ⊢
    rw [propagatePCs_symbols] at hpc ⊢
    unfold assignUnits at hpc ⊢
    rw [f1] at hpc
    rw [f2, f3]
    exact h1 typ pc hpc
  have k0 := key 0
  have k1 := key 1
  refine ⟨k0, k1, fun hc => ?_, fun hc => ?_⟩
  · exact absurd (k0 _ hc).2 (lt_irrefl _)
  · exact absurd (k1 _ hc).2 (lt_irrefl _)

/-! ## buildSymbols: the first pass computes the reference attribution -/

theorem advanceSymbolIdx_spec (h : Heap) (p : Nat) (symbols : List Nat) :
    ∀ n a, a + n = symbols.length →
      a ≤ advanceSymbolIdx h p (symbols.drop a) a ∧
      advanceSymbolIdx h p (symbols.drop a) a ≤ symbols.length ∧
      (∀ j, a ≤ j → j < advanceSymbolIdx h p (symbols.drop a) a → symEnd h symbols j ≤ p) ∧
      (advanceSymbolIdx h p (symbols.drop a) a < symbols.length →
        p < symEnd h symbols (advanceSymbolIdx h p (symbols.drop a) a)) := by
  intro n
  induction n with
  | zero =>
    intro a ha
    have : symbols.drop a = [] := List.drop_of_length_le (by omega)
    rw [this]
    simp only [advanceSymbolIdx]
    exact ⟨le_refl _, by omega, fun j h1 h2 => by omega, fun h1 => by omega⟩
  | succ n ih =>
    intro a ha
    have hlt : a < symbols.length := by omega
    rw [List.drop_eq_getElem_cons hlt]
    simp only [advanceSymbolIdx]
    have hget : symbols.getD a 0 = symbols[a] := by
      rw [List.getD_eq_getElem?_getD, List.getElem?_eq_getElem hlt]; rfl
    by_cases hc : p ≥ (h.symbols symbols[a]).End
    · rw [if_pos hc]
      obtain ⟨i1, i2, i3, i4⟩ := ih (a + 1) (by omega)
      refine ⟨by omega, i2, ?_, i4⟩
      intro j hj1 hj2
      by_cases hja : j = a
      · subst hja
        unfold symEnd
        rw [hget]
        exact hc
      · exact i3 j (by omega) hj2
    · rw [if_neg hc]
      refine ⟨le_refl _, by omega, fun j h1 h2 => by omega, fun _ => ?_⟩
      unfold symEnd
      rw [hget]
      omega

theorem getD_eq_of_lt (l : List Nat) (k : Nat) (hk : k < l.length) : l.getD k 0 = l[k] := by
  rw [List.getD_eq_getElem?_getD, List.getElem?_eq_getElem hk]; rfl

theorem nodup_getD_inj (l : List Nat) (hn : l.Nodup) (a b : Nat) (ha : a < l.length)
    (hb : b < l.length) (hab : l.getD a 0 = l.getD b 0) : a = b := by
  rw [getD_eq_of_lt l a ha, getD_eq_of_lt l b hb] at hab
  exact (List.Nodup.getElem_inj_iff hn).1 hab

theorem sorted_take_le_drop (pcs : List Nat) (hs : pcs.Sorted (· ≤ ·)) (i : Nat) :
    ∀ y ∈ pcs.take i, ∀ x ∈ pcs.drop i, y ≤ x := by
  have h := hs
  rw [← List.take_append_drop i pcs] at h
  exact (List.pairwise_append.1 h).2.2

theorem getD_mem_drop (pcs : List Nat) (i : Nat) (hi : i < pcs.length) :
    pcs.getD i 0 ∈ pcs.drop i := by
  rw [List.drop_eq_getElem_cons hi, getD_eq_of_lt pcs i hi]
  exact List.mem_cons_self _ _

theorem mem_drop_succ (pcs : List Nat) (i x : Nat) (hx : x ∈ pcs.drop (i + 1)) :
    x ∈ pcs.drop i := by
  have : pcs.drop (i + 1) = (pcs.drop i).drop 1 := by rw [List.drop_drop, Nat.add_comm]
  rw [this] at hx
  exact List.mem_of_mem_drop hx

theorem getD_le_drop_succ (pcs : List Nat) (hs : pcs.Sorted (· ≤ ·)) (i : Nat)
    (hi : i < pcs.length) : ∀ x ∈ pcs.drop (i + 1), pcs.getD i 0 ≤ x := by
  intro x hx
  refine sorted_take_le_drop pcs hs (i + 1) _ ?_ x hx
  rw [take_succ_getD pcs i hi]
  simp

theorem Owns.sandwich {h : Heap} {symbols : List Nat} {k y z x : Nat}
    (hy : Owns h symbols k y) (hx : Owns h symbols k x) (hyz : y ≤ z) (hzx : z ≤ x) :
    Owns h symbols k z :=
  ⟨hy.1, lt_of_le_of_lt hzx hx.2.1, fun j hj => le_trans (hy.2.2.1 j hj) hyz,
    le_trans hy.2.2.2 hyz⟩

theorem ownedPCs_take_succ (h : Heap) (symbols pcs : List Nat) (k i : Nat) (hi : i < pcs.length) :
    ownedPCs h symbols k (pcs.take (i + 1)) =
      ownedPCs h symbols k (pcs.take i) ++
        if Owns h symbols k (pcs.getD i 0) then [pcs.getD i 0] else [] := by
  unfold ownedPCs
  rw [take_succ_getD pcs i hi, List.filter_append]
  congr 1
  generalize pcs.getD i 0 = x
  by_cases ho : Owns h symbols k x
  · rw [if_pos ho, List.filter_cons_of_pos (by simpa using ho), List.filter_nil]
  · rw [if_neg ho, List.filter_cons_of_neg (by simpa using ho), List.filter_nil]

theorem mem_ownedPCs {h : Heap} {symbols pcs : List Nat} {k x : Nat}
    (hx : x ∈ ownedPCs h symbols k pcs) : x ∈ pcs ∧ Owns h symbols k x := by
  unfold ownedPCs at hx
  rw [List.mem_filter] at hx
  exact ⟨hx.1, of_decide_eq_true hx.2⟩

/-- Under the invariant, the symbol computed for `pcs[i]` is the one the reference attribution
names. -/
theorem stepSymb_owner (h0 : Heap) (symbols pcs : List Nat) (st : AttrState) (i : Nat)
    (hframe : ∀ p, (st.heap.symbols p).Start = (h0.symbols p).Start ∧
      (st.heap.symbols p).End = (h0.symbols p).End)
    (hle : st.symbolIdx ≤ symbols.length)
    (hidx : ∀ j, j < st.symbolIdx → symEnd h0 symbols j ≤ pcs.getD i 0) :
    (advanceSymbolIdx st.heap (pcs.getD i 0) (symbols.drop st.symbolIdx) st.symbolIdx
        ≤ symbols.length ∧
      ∀ j, j < advanceSymbolIdx st.heap (pcs.getD i 0) (symbols.drop st.symbolIdx) st.symbolIdx →
        symEnd h0 symbols j ≤ pcs.getD i 0) ∧
    (∀ s, stepSymb symbols pcs st i = some s →
      ∃ k, k < symbols.length ∧ symbols.getD k 0 = s ∧ Owns h0 symbols k (pcs.getD i 0)) ∧
    (∀ k, Owns h0 symbols k (pcs.getD i 0) →
      stepSymb symbols pcs st i = some (symbols.getD k 0)) := by
  have hE : ∀ j, symEnd st.heap symbols j = symEnd h0 symbols j := fun j => (hframe _).2
  obtain ⟨a1, a2, a3, a4⟩ := advanceSymbolIdx_spec st.heap (pcs.getD i 0) symbols
    (symbols.length - st.symbolIdx) st.symbolIdx (by omega)
  set r := advanceSymbolIdx st.heap (pcs.getD i 0) (symbols.drop st.symbolIdx) st.symbolIdx
    with hr
  have hbelow : ∀ j, j < r → symEnd h0 symbols j ≤ pcs.getD i 0 := by
    intro j hj
    by_cases hjs : j < st.symbolIdx
    · exact hidx j hjs
    · rw [← hE]
      exact a3 j (by omega) hj
  have hstep : stepSymb symbols pcs st i =
      match symbols[r]? with
      | some s =>
        if pcs.getD i 0 ≥ (st.heap.symbols s).Start ∧ pcs.getD i 0 < (st.heap.symbols s).End
        then some s else none
      | none => none := rfl
  refine ⟨⟨a2, hbelow⟩, ?_, ?_⟩
  · intro s hs
    rw [hstep] at hs
    split at hs
    · rename_i s' hget
      split_ifs at hs with hc
      cases hs
      obtain ⟨hrl, hrs⟩ := List.getElem?_eq_some_iff.1 hget
      have hgd : symbols.getD r 0 = s := by rw [getD_eq_of_lt symbols r hrl]; exact hrs
      refine ⟨r, hrl, hgd, hrl, ?_, hbelow, ?_⟩
      · unfold symEnd; rw [hgd, ← (hframe s).2]; exact hc.2
      · unfold symStart; rw [hgd, ← (hframe s).1]; exact hc.1
    · cases hs
  · intro k ⟨hk1, hk2, hk3, hk4⟩
    have hrk : r = k := by
      rcases Nat.lt_trichotomy r k with hlt | heq | hgt
      · have := hk3 r hlt
        have := a4 (by omega)
        rw [hE] at this
        omega
      · exact heq
      · have := hbelow k hgt
        omega
    rw [hstep, hrk, List.getElem?_eq_getElem hk1]
    have hgd : symbols.getD k 0 = symbols[k] := getD_eq_of_lt symbols k hk1
    unfold symEnd at hk2
    unfold symStart at hk4
    rw [hgd] at hk2 hk4 ⊢
    dsimp only
    rw [if_pos]
    rw [(hframe _).1, (hframe _).2]
    exact ⟨hk4, hk2⟩

theorem attrStep_ref (h0 : Heap) (symbols pcs : List Nat) (typ : Nat) (st : AttrState) (i : Nat)
    (hn : symbols.Nodup) (hs : pcs.Sorted (· ≤ ·)) (hi : i < pcs.length)
    (hinv : AttrRef h0 symbols pcs typ i st) :
    AttrRef h0 symbols pcs typ (i + 1) (attrStep symbols pcs typ st i) := by
  obtain ⟨hframe, ⟨hle, hidx⟩, hnone, hnc, hcu, hmem⟩ := hinv
  have hpcmem := getD_mem_drop pcs i hi
  have hpcle := getD_le_drop_succ pcs hs i hi
  have htake := take_succ_getD pcs i hi
  have hlen : (pcs.take i).length = i := by
    rw [List.length_take]; omega
  obtain ⟨⟨r_le, r_below⟩, so1, so2⟩ := stepSymb_owner h0 symbols pcs st i hframe hle
    (fun j hj => hidx j hj _ hpcmem)
  -- the symbol of `pcs[i]` against the reference
  have own_of : ∀ k, k < symbols.length →
      stepSymb symbols pcs st i = some (symbols.getD k 0) → Owns h0 symbols k (pcs.getD i 0) := by
    intro k hk hsy
    obtain ⟨k', hk', hg, ho⟩ := so1 _ hsy
    have := nodup_getD_inj symbols hn k' k hk' hk hg
    subst this
    exact ho
  have grow : ∀ k, Owns h0 symbols k (pcs.getD i 0) →
      ownedPCs h0 symbols k (pcs.take (i + 1)) =
        ownedPCs h0 symbols k (pcs.take i) ++ [pcs.getD i 0] := by
    intro k ho
    rw [ownedPCs_take_succ h0 symbols pcs k i hi, if_pos ho]
  have keep : ∀ k, ¬ Owns h0 symbols k (pcs.getD i 0) →
      ownedPCs h0 symbols k (pcs.take (i + 1)) = ownedPCs h0 symbols k (pcs.take i) := by
    intro k ho
    rw [ownedPCs_take_succ h0 symbols pcs k i hi, if_neg ho, List.append_nil]
  have fresh : (pcs.take (i + 1)).drop (i : Int).toNat = [pcs.getD i 0] := by
    rw [htake, Int.toNat_ofNat, List.drop_append_of_le_length (by omega),
      List.drop_of_length_le (by omega), List.nil_append]
  have hcur' : (attrStep symbols pcs typ st i).curSymbol = stepSymb symbols pcs st i := rfl
  have hidx' : (attrStep symbols pcs typ st i).symbolIdx =
      advanceSymbolIdx st.heap (pcs.getD i 0) (symbols.drop st.symbolIdx) st.symbolIdx := rfl
  have hI : (attrStep symbols pcs typ st i).symbolIdx ≤ symbols.length ∧
      ∀ j, j < (attrStep symbols pcs typ st i).symbolIdx →
        ∀ x ∈ pcs.drop (i + 1), symEnd h0 symbols j ≤ x := by
    rw [hidx']
    exact ⟨r_le, fun j hj x hx => le_trans (r_below j hj) (hpcle x hx)⟩
  have hM : ∀ c, (attrStep symbols pcs typ st i).curSymbol = some c →
      ∃ k, k < symbols.length ∧ symbols.getD k 0 = c := by
    intro c hc
    rw [hcur'] at hc
    obtain ⟨k, hk, hg, _⟩ := so1 c hc
    exact ⟨k, hk, hg⟩
  cases hcur : st.curSymbol with
  | none =>
    obtain ⟨e1, e2⟩ := attrStep_none symbols pcs typ st i hcur
    have hf := hnone hcur
    have hcn : ∀ k, st.curSymbol ≠ some (symbols.getD k 0) := by
      intro k; rw [hcur]; simp
    refine ⟨?_, hI, ?_, ?_, ?_, hM⟩
    · rw [e1]; exact hframe
    · intro hsn
      rw [hcur'] at hsn
      rw [e2, if_neg (fun hh => hh.1 hsn)]
      exact hf
    · intro k hk hne
      rw [hcur'] at hne
      have hno : ¬ Owns h0 symbols k (pcs.getD i 0) := fun ho => hne (so2 k ho)
      obtain ⟨n1, n2⟩ := hnc k hk (hcn k)
      rw [e1, keep k hno]
      exact ⟨n1, fun x hx ho => n2 x (mem_drop_succ pcs i x hx) ho⟩
    · intro k hk heq
      rw [hcur'] at heq
      have ho := own_of k hk heq
      have hne : stepSymb symbols pcs st i ≠ none := by rw [heq]; simp
      rw [e2, if_pos ⟨hne, hf⟩, fresh, grow k ho, (hnc k hk (hcn k)).2 _ hpcmem ho]
      exact ⟨by omega, by omega, rfl⟩
  | some c =>
    obtain ⟨kc, hkc, hgc⟩ := hmem c hcur
    subst hgc
    obtain ⟨hc2, hc3, hc4⟩ := hcu kc hkc hcur
    by_cases hsy : stepSymb symbols pcs st i = some (symbols.getD kc 0)
    · obtain ⟨e1, e2⟩ := attrStep_same symbols pcs typ st i _ hcur hsy
      have hne1 : st.firstSymbolPC ≠ -1 := by omega
      rw [if_neg hne1] at e2
      refine ⟨?_, hI, ?_, ?_, ?_, hM⟩
      · rw [e1]; exact hframe
      · intro hsn
        rw [hcur', hsy] at hsn
        cases hsn
      · intro k hk hne
        rw [hcur'] at hne
        have hno : ¬ Owns h0 symbols k (pcs.getD i 0) := fun ho => hne (so2 k ho)
        have hck : st.curSymbol ≠ some (symbols.getD k 0) := by
          rw [hcur, ← hsy]; exact hne
        obtain ⟨n1, n2⟩ := hnc k hk hck
        rw [e1, keep k hno]
        exact ⟨n1, fun x hx ho => n2 x (mem_drop_succ pcs i x hx) ho⟩
      · intro k hk heq
        rw [hcur', hsy] at heq
        have hkk : kc = k := nodup_getD_inj symbols hn kc k hkc hk (Option.some.inj heq)
        subst hkk
        have ho := own_of kc hkc hsy
        rw [e2, grow kc ho, htake, List.drop_append_of_le_length (by rw [hlen]; omega), hc4]
        exact ⟨hc2, by omega, rfl⟩
    · obtain ⟨e1, e2⟩ := attrStep_flush symbols pcs typ st i _ hcur hsy
      have hnoc : ¬ Owns h0 symbols kc (pcs.getD i 0) := fun ho => hsy (so2 kc ho)
      refine ⟨?_, hI, ?_, ?_, ?_, hM⟩
      · rw [e1]
        intro p
        rw [setSymbolPCs_Start, setSymbolPCs_End]
        exact hframe p
      · intro hsn
        rw [hcur'] at hsn
        rw [e2, if_neg (fun hh => hh hsn)]
      · intro k hk hne
        rw [hcur'] at hne
        have hno : ¬ Owns h0 symbols k (pcs.getD i 0) := fun ho => hne (so2 k ho)
        rw [e1, keep k hno, setSymbolPCs_select]
        by_cases hkc' : symbols.getD k 0 = symbols.getD kc 0
        · have hkk : k = kc := nodup_getD_inj symbols hn k kc hk hkc hkc'
          subst hkk
          rw [if_pos ⟨rfl, Iff.rfl⟩]
          refine ⟨hc4, ?_⟩
          intro x hx hox
          exfalso
          have hpos : 0 < ((pcs.take i).drop st.firstSymbolPC.toNat).length := by
            rw [List.length_drop, hlen]; omega
          obtain ⟨y, hy⟩ := List.exists_mem_of_length_pos hpos
          have hy1 : y ∈ pcs.take i := List.mem_of_mem_drop hy
          rw [hc4] at hy
          have hoy := (mem_ownedPCs hy).2
          exact hno (hoy.sandwich hox (sorted_take_le_drop pcs hs i y hy1 _ hpcmem)
            (hpcle x hx))
        · rw [if_neg (fun hh => hkc' hh.1)]
          have hck : st.curSymbol ≠ some (symbols.getD k 0) := by
            rw [hcur]
            intro hh
            exact hkc' (Option.some.inj hh).symm
          obtain ⟨n1, n2⟩ := hnc k hk hck
          exact ⟨n1, fun x hx ho => n2 x (mem_drop_succ pcs i x hx) ho⟩
      · intro k hk heq
        rw [hcur'] at heq
        have ho := own_of k hk heq
        have hne : stepSymb symbols pcs st i ≠ none := by rw [heq]; simp
        have hck : st.curSymbol ≠ some (symbols.getD k 0) := by
          rw [hcur, ← heq]
          exact fun hh => hsy hh.symm
        rw [e2, if_pos hne, fresh, grow k ho, (hnc k hk hck).2 _ hpcmem ho]
        exact ⟨by omega, by omega, rfl⟩

theorem attrFold_ref (h0 : Heap) (symbols pcs : List Nat) (typ : Nat) (st0 : AttrState)
    (hn : symbols.Nodup) (hs : pcs.Sorted (· ≤ ·)) (hinit : AttrRef h0 symbols pcs typ 0 st0) :
    ∀ n, n ≤ pcs.length →
      AttrRef h0 symbols pcs typ n ((List.range n).foldl (attrStep symbols pcs typ) st0) := by
  intro n
  induction n with
  | zero => intro _; simpa using hinit
  | succ n ih =>
    intro hle
    rw [List.range_succ, List.foldl_append]
    exact attrStep_ref h0 symbols pcs typ _ n hn hs (by omega) (ih (by omega))

/-- One pass over `coverPoints[typ]` stores in every symbol the reference attribution. -/
theorem attributeType_ref (symbols pcs : List Nat) (typ : Nat) (h : Heap)
    (hn : symbols.Nodup) (hs : pcs.Sorted (· ≤ ·))
    (hempty : ∀ k, k < symbols.length →
      selectPCs (h.symbols (symbols.getD k 0)).toObjectUnit typ = []) :
    ∀ k, k < symbols.length →
      selectPCs ((attributeType symbols pcs typ h).symbols (symbols.getD k 0)).toObjectUnit typ
        = ownedPCs h symbols k pcs := by
  have hinit : AttrRef h symbols pcs typ 0
      { heap := h, curSymbol := none, firstSymbolPC := -1, symbolIdx := 0 } := by
    refine ⟨fun p => ⟨rfl, rfl⟩, ⟨Nat.zero_le _, fun j hj => absurd hj (Nat.not_lt_zero _)⟩,
      fun _ => rfl, ?_, ?_, ?_⟩
    · intro k hk _
      exact ⟨by rw [hempty k hk]; rfl, fun _ _ _ => rfl⟩
    · intro k _ hc
      cases hc
    · intro c hc
      cases hc
  obtain ⟨-, -, -, hnc, hcu, hmem⟩ :=
    attrFold_ref h symbols pcs typ _ hn hs hinit pcs.length (le_refl _)
  rw [List.take_length] at hnc hcu
  intro k hk
  unfold attributeType
  dsimp only
  split
  · rename_i cur hcur
    obtain ⟨kc, hkc, hgc⟩ := hmem cur hcur
    subst hgc
    rw [setSymbolPCs_select]
    by_cases hkk : symbols.getD k 0 = symbols.getD kc 0
    · have := nodup_getD_inj symbols hn k kc hk hkc hkk
      subst this
      rw [if_pos ⟨rfl, Iff.rfl⟩]
      exact (hcu k hk hcur).2.2
    · rw [if_neg (fun hh => hkk hh.1)]
      refine (hnc k hk ?_).1
      rw [hcur]
      exact fun hh => hkk (Option.some.inj hh).symm
  · rename_i hcur
    refine (hnc k hk ?_).1
    rw [hcur]
    simp

/-- A property of heaps that no store into a PC slice of a symbol destroys is kept by a
pass of the first loop. -/
theorem attributeType_preserves (P : Heap → Prop) (typ : Nat)
    (hP : ∀ h s v, P h → P (h.setSymbolPCs s typ v)) (symbols pcs : List Nat) (h : Heap)
    (hh : P h) : P (attributeType symbols pcs typ h) := by
  have hstep : ∀ st i, P st.heap → P (attrStep symbols pcs typ st i).heap := by
    intro st i hst
    rw [attrStep_eq]
    dsimp only
    split
    · split_ifs
      · exact hP _ _ _ hst
      · exact hst
    · exact hst
  have hfold : ∀ (l : List Nat) (st : AttrState), P st.heap →
      P (l.foldl (attrStep symbols pcs typ) st).heap := by
    intro l
    induction l with
    | nil => intro st hst; exact hst
    | cons i rest ih => intro st hst; exact ih _ (hstep st i hst)
  unfold attributeType
  dsimp only
  split
  · exact hP _ _ _ (hfold _ _ hh)
  · exact hfold _ _ hh

theorem attributeType_bounds (symbols pcs : List Nat) (typ : Nat) (h : Heap) :
    ∀ p, ((attributeType symbols pcs typ h).symbols p).Start = (h.symbols p).Start ∧
      ((attributeType symbols pcs typ h).symbols p).End = (h.symbols p).End :=
  attributeType_preserves
    (fun h' => ∀ p, (h'.symbols p).Start = (h.symbols p).Start ∧
      (h'.symbols p).End = (h.symbols p).End) typ
    (fun h' s v hh p => by rw [setSymbolPCs_Start, setSymbolPCs_End]; exact hh p)
    symbols pcs h (fun p => ⟨rfl, rfl⟩)

theorem attributeType_other (symbols pcs : List Nat) (typ typ' : Nat) (h : Heap)
    (hne : ¬ (typ = 0 ↔ typ' = 0)) :
    ∀ p, selectPCs ((attributeType symbols pcs typ h).symbols p).toObjectUnit typ' =
      selectPCs (h.symbols p).toObjectUnit typ' :=
  attributeType_preserves
    (fun h' => ∀ p, selectPCs (h'.symbols p).toObjectUnit typ' =
      selectPCs (h.symbols p).toObjectUnit typ') typ
    (fun h' s v hh p => by
      rw [setSymbolPCs_select, if_neg (fun hc => hne hc.2)]; exact hh p)
    symbols pcs h (fun p => rfl)

theorem Owns_congr (h h' : Heap) (symbols : List Nat)
    (hb : ∀ p, (h'.symbols p).Start = (h.symbols p).Start ∧
      (h'.symbols p).End = (h.symbols p).End) (k p : Nat) :
    Owns h' symbols k p ↔ Owns h symbols k p := by
  unfold Owns symEnd symStart
  simp only [(hb _).1, (hb _).2]

theorem ownedPCs_congr (h h' : Heap) (symbols : List Nat)
    (hb : ∀ p, (h'.symbols p).Start = (h.symbols p).Start ∧
      (h'.symbols p).End = (h.symbols p).End) (k : Nat) (pcs : List Nat) :
    ownedPCs h' symbols k pcs = ownedPCs h symbols k pcs := by
  unfold ownedPCs
  congr 1
  funext p
  exact decide_eq_decide.2 (Owns_congr h h' symbols hb k p)

/-- The first pass as a whole, against the reference attribution. -/
theorem attributePCs_ref (symbols : List Nat) (coverPoints : List Nat × List Nat) (h : Heap)
    (hn : symbols.Nodup) (hs0 : coverPoints.1.Sorted (· ≤ ·)) (hs1 : coverPoints.2.Sorted (· ≤ ·))
    (hempty : ∀ p ∈ symbols, (h.symbols p).PCs = [] ∧ (h.symbols p).CMPs = []) :
    ∀ k, k < symbols.length →
      ((attributePCs symbols coverPoints h).symbols (symbols.getD k 0)).PCs
        = ownedPCs h symbols k coverPoints.1 ∧
      ((attributePCs symbols coverPoints h).symbols (symbols.getD k 0)).CMPs
        = ownedPCs h symbols k coverPoints.2 := by
  intro k hk
  have hmemk : ∀ j, j < symbols.length → symbols.getD j 0 ∈ symbols := by
    intro j hj
    rw [getD_eq_of_lt symbols j hj]
    exact List.getElem_mem hj
  have p0 := attributeType_ref symbols coverPoints.1 0 h hn hs0
    (fun j hj => (hempty _ (hmemk j hj)).1) k hk
  have hb := attributeType_bounds symbols coverPoints.1 0 h
  have p1 := attributeType_ref symbols coverPoints.2 1 (attributeType symbols coverPoints.1 0 h)
    hn hs1 (fun j hj => by
      rw [attributeType_other symbols coverPoints.1 0 1 h (by simp)]
      exact (hempty _ (hmemk j hj)).2) k hk
  rw [ownedPCs_congr h _ symbols hb] at p1
  have q0 := attributeType_other symbols coverPoints.2 1 0
    (attributeType symbols coverPoints.1 0 h) (by simp) (symbols.getD k 0)
  rw [p0] at q0
  exact ⟨q0, p1⟩

theorem fixture_empty :
    ∀ p ∈ fixtureSymbols, (fixtureHeap.symbols p).PCs = [] ∧ (fixtureHeap.symbols p).CMPs = [] := by
  intro p hp
  simp only [fixtureSymbols, List.mem_cons, List.mem_singleton, List.not_mem_nil, or_false] at hp
  rcases hp with rfl | rfl <;> exact ⟨rfl, rfl⟩

theorem buildSymbols_pcs_within_symbol_witness :
    (∀ p ∈ fixtureSymbols,
      (fixtureHeap.symbols p).PCs = [] ∧ (fixtureHeap.symbols p).CMPs = []) ∧
    ∀ s ∈ (buildSymbols fixtureSymbols fixtureRanges fixtureCoverPoints fixtureHeap).1,
      (∀ pc ∈ ((buildSymbols fixtureSymbols fixtureRanges fixtureCoverPoints
          fixtureHeap).2.symbols s).PCs,
        ((buildSymbols fixtureSymbols fixtureRanges fixtureCoverPoints
          fixtureHeap).2.symbols s).Start ≤ pc ∧
        pc < ((buildSymbols fixtureSymbols fixtureRanges fixtureCoverPoints
          fixtureHeap).2.symbols s).End) ∧
      (∀ pc ∈ ((buildSymbols fixtureSymbols fixtureRanges fixtureCoverPoints
          fixtureHeap).2.symbols s).CMPs,
        ((buildSymbols fixtureSymbols fixtureRanges fixtureCoverPoints
          fixtureHeap).2.symbols s).Start ≤ pc ∧
        pc < ((buildSymbols fixtureSymbols fixtureRanges fixtureCoverPoints
          fixtureHeap).2.symbols s).End) ∧
      ((buildSymbols fixtureSymbols fixtureRanges fixtureCoverPoints fixtureHeap).2.symbols s).End ∉
        ((buildSymbols fixtureSymbols fixtureRanges fixtureCoverPoints
          fixtureHeap).2.symbols s).PCs ∧
      ((buildSymbols fixtureSymbols fixtureRanges fixtureCoverPoints fixtureHeap).2.symbols s).End ∉
        ((buildSymbols fixtureSymbols fixtureRanges fixtureCoverPoints
          fixtureHeap).2.symbols s).CMPs :=
  ⟨fixture_empty,
    buildSymbols_pcs_within_symbol fixtureSymbols fixtureRanges fixtureCoverPoints fixtureHeap
      fixture_empty⟩

/-- C7: the first pass of `buildSymbols` equals the reference attribution. For cover points
sorted ascending and pairwise distinct symbols with empty `PCs`/`CMPs`, the symbol at index
`k` receives as `PCs` (resp. `CMPs`) exactly the trace-pc (resp. trace-cmp) cover points `p`,
in their order, for which `k` is the smallest index `j` with `p < symbols[j].End` and
`symbols[k].Start <= p`; a cover point owned by no index is in no symbol. For the fixture
this gives `funcA.PCs = [pcA]`, `funcB.PCs = [pcB]` and `funcB.CMPs = [pcCmp]`. -/
theorem attributePCs_eq_reference (symbols : List Nat) (coverPoints : List Nat × List Nat)
    (h : Heap) (hn : symbols.Nodup)
    (hs0 : coverPoints.1.Sorted (· ≤ ·)) (hs1 : coverPoints.2.Sorted (· ≤ ·))
    (hempty : ∀ p ∈ symbols, (h.symbols p).PCs = [] ∧ (h.symbols p).CMPs = []) :
    (∀ k s, symbols[k]? = some s →
      ((attributePCs symbols coverPoints h).symbols s).PCs
        = coverPoints.1.filter (fun p => decide (Owns h symbols k p)) ∧
      ((attributePCs symbols coverPoints h).symbols s).CMPs
        = coverPoints.2.filter (fun p => decide (Owns h symbols k p))) ∧
    (∀ p, (∀ k, ¬ Owns h symbols k p) → ∀ s ∈ symbols,
      p ∉ ((attributePCs symbols coverPoints h).symbols s).PCs ∧
      p ∉ ((attributePCs symbols coverPoints h).symbols s).CMPs) ∧
    (((attributePCs fixtureSymbols fixtureCoverPoints fixtureHeap).symbols 0).PCs = [0x1010] ∧
      ((attributePCs fixtureSymbols fixtureCoverPoints fixtureHeap).symbols 1).PCs = [0x1110] ∧
      ((attributePCs fixtureSymbols fixtureCoverPoints fixtureHeap).symbols 1).CMPs = [0x1120]) := by
  have main : ∀ k s, symbols[k]? = some s →
      ((attributePCs symbols coverPoints h).symbols s).PCs
        = coverPoints.1.filter (fun p => decide (Owns h symbols k p)) ∧
      ((attributePCs symbols coverPoints h).symbols s).CMPs
        = coverPoints.2.filter (fun p => decide (Owns h symbols k p)) := by
    intro k s hks
    obtain ⟨hk, hget⟩ := List.getElem?_eq_some_iff.1 hks
    have := attributePCs_ref symbols coverPoints h hn hs0 hs1 hempty k hk
    rw [getD_eq_of_lt symbols k hk, hget] at this
    exact this
  refine ⟨main, ?_, by decide, by decide, by decide⟩
  intro p hp s hs
  obtain ⟨k, hk, hget⟩ := List.getElem_of_mem hs
  obtain ⟨m0, m1⟩ := main k s (by rw [List.getElem?_eq_getElem hk, hget])
  rw [m0, m1]
  constructor
  · intro hc
    exact hp k (of_decide_eq_true (List.mem_filter.1 hc).2)
  · intro hc
    exact hp k (of_decide_eq_true (List.mem_filter.1 hc).2)

theorem attributePCs_eq_reference_witness :
    (fixtureSymbols.Nodup ∧ fixtureCoverPoints.1.Sorted (· ≤ ·) ∧
      fixtureCoverPoints.2.Sorted (· ≤ ·)) ∧
    ((attributePCs fixtureSymbols fixtureCoverPoints fixtureHeap).symbols 1).PCs
      = fixtureCoverPoints.1.filter (fun p => decide (Owns fixtureHeap fixtureSymbols 1 p)) ∧
    ((attributePCs fixtureSymbols fixtureCoverPoints fixtureHeap).symbols 1).CMPs
      = fixtureCoverPoints.2.filter (fun p => decide (Owns fixtureHeap fixtureSymbols 1 p)) :=
  ⟨⟨by decide, by decide, by decide⟩,
    (attributePCs_eq_reference fixtureSymbols fixtureCoverPoints fixtureHeap (by decide)
      (by decide) (by decide) fixture_empty).1 1 1 rfl⟩

/-! ## buildSymbols: the second pass -/

theorem advanceRangeIndex_spec (start : Nat) (ranges : List pcRange) :
    ∀ n a, a + n = ranges.length →
      a ≤ advanceRangeIndex start (ranges.drop a) a ∧
      advanceRangeIndex start (ranges.drop a) a ≤ ranges.length ∧
      (∀ j rg, a ≤ j → j < advanceRangeIndex start (ranges.drop a) a →
        ranges[j]? = some rg → rg.end_ ≤ start) ∧
      (∀ rg, ranges[advanceRangeIndex start (ranges.drop a) a]? = some rg → start < rg.end_) := by
  intro n
  induction n with
  | zero =>
    intro a ha
    have : ranges.drop a = [] := List.drop_of_length_le (by omega)
    rw [this]
    simp only [advanceRangeIndex]
    refine ⟨le_refl _, by omega, fun j rg h1 h2 => by omega, fun rg hrg => ?_⟩
    have := (List.getElem?_eq_some_iff.1 hrg).1
    omega
  | succ n ih =>
    intro a ha
    have hlt : a < ranges.length := by omega
    rw [List.drop_eq_getElem_cons hlt]
    simp only [advanceRangeIndex]
    by_cases hc : ranges[a].end_ ≤ start
    · rw [if_pos hc]
      obtain ⟨i1, i2, i3, i4⟩ := ih (a + 1) (by omega)
      refine ⟨by omega, i2, ?_, i4⟩
      intro j rg hj1 hj2 hrg
      by_cases hja : j = a
      · subst hja
        rw [List.getElem?_eq_getElem hlt] at hrg
        cases hrg
        exact hc
      · exact i3 j rg (by omega) hj2 hrg
    · rw [if_neg hc]
      refine ⟨le_refl _, by omega, fun j rg h1 h2 => by omega, fun rg hrg => ?_⟩
      rw [List.getElem?_eq_getElem hlt] at hrg
      cases hrg
      omega

theorem firstCover_eq_none (ranges : List pcRange) (x : Nat)
    (hno : ∀ (j : Nat) (rg : pcRange), ranges[j]? = some rg → ¬ (rg.start ≤ x ∧ x < rg.end_)) :
    firstCover ranges x = none := by
  unfold firstCover
  rw [List.find?_eq_none]
  intro rg hrg hc
  obtain ⟨j, hj, hget⟩ := List.getElem_of_mem hrg
  exact hno j rg (by rw [List.getElem?_eq_getElem hj, hget]) (of_decide_eq_true hc)

theorem firstCover_eq_some (ranges : List pcRange) (x r : Nat) (rg : pcRange)
    (hr : ranges[r]? = some rg) (hc : rg.start ≤ x ∧ x < rg.end_)
    (hno : ∀ (j : Nat) (rg' : pcRange), j < r → ranges[j]? = some rg' →
      ¬ (rg'.start ≤ x ∧ x < rg'.end_)) :
    firstCover ranges x = some rg := by
  obtain ⟨hrl, hget⟩ := List.getElem?_eq_some_iff.1 hr
  unfold firstCover
  rw [← List.take_append_drop r ranges, List.find?_append, List.drop_eq_getElem_cons hrl, hget]
  have hnone : List.find? (fun rg => decide (rg.start ≤ x ∧ x < rg.end_)) (ranges.take r) = none := by
    rw [List.find?_eq_none]
    intro rg' hrg' hc'
    obtain ⟨j, hj, hgj⟩ := List.getElem_of_mem hrg'
    rw [List.length_take] at hj
    rw [List.getElem_take] at hgj
    exact hno j rg' (by omega) (by rw [List.getElem?_eq_getElem (by omega), hgj])
      (of_decide_eq_true hc')
  rw [hnone, List.find?_cons_of_pos _ (by simpa using hc)]
  rfl

/-- One iteration of the second pass, against the first covering range. -/
theorem unitStep_spec (ranges : List pcRange) (st : UnitState) (s : Nat)
    (hsorted : ranges.Pairwise (fun a b => a.start ≤ b.start))
    (hle : st.rangeIndex ≤ ranges.length)
    (hidx : ∀ j rg, j < st.rangeIndex → ranges[j]? = some rg →
      rg.end_ ≤ (st.heap.symbols s).Start) :
    ((unitStep ranges st s).rangeIndex ≤ ranges.length ∧
      ∀ j rg, j < (unitStep ranges st s).rangeIndex → ranges[j]? = some rg →
        rg.end_ ≤ (st.heap.symbols s).Start) ∧
    ((Retained st.heap ranges s ∧ ∃ rg, firstCover ranges (st.heap.symbols s).Start = some rg ∧
        (unitStep ranges st s).kept = st.kept ++ [s] ∧
        (unitStep ranges st s).heap = st.heap.setSymbolUnit s rg.unit) ∨
      (¬ Retained st.heap ranges s ∧ (unitStep ranges st s).kept = st.kept ∧
        (unitStep ranges st s).heap = st.heap)) := by
  obtain ⟨a1, a2, a3, a4⟩ := advanceRangeIndex_spec (st.heap.symbols s).Start ranges
    (ranges.length - st.rangeIndex) st.rangeIndex (by omega)
  set r := advanceRangeIndex (st.heap.symbols s).Start (ranges.drop st.rangeIndex) st.rangeIndex
    with hr
  have hbelow : ∀ j rg, j < r → ranges[j]? = some rg → rg.end_ ≤ (st.heap.symbols s).Start := by
    intro j rg hj hrg
    by_cases hjs : j < st.rangeIndex
    · exact hidx j rg hjs hrg
    · exact a3 j rg (by omega) hj hrg
  have hstep : unitStep ranges st s =
      match ranges[r]? with
      | none => { st with rangeIndex := r }
      | some rg =>
        if (st.heap.symbols s).Start < rg.start ∨ (st.heap.symbols s).PCs.length = 0 then
          { st with rangeIndex := r }
        else
          { heap := st.heap.setSymbolUnit s rg.unit, rangeIndex := r, kept := st.kept ++ [s] } :=
    rfl
  rw [hstep]
  cases hget : ranges[r]? with
  | none =>
    dsimp only
    refine ⟨⟨a2, hbelow⟩, Or.inr ⟨?_, rfl, rfl⟩⟩
    rintro ⟨⟨rg, hrg, hc1, hc2⟩, -⟩
    obtain ⟨j, hj, hgj⟩ := List.getElem_of_mem hrg
    have hrl : ranges.length ≤ r := by
      by_contra hh
      rw [List.getElem?_eq_getElem (by omega)] at hget
      cases hget
    have := hbelow j rg (by omega) (by rw [List.getElem?_eq_getElem hj, hgj])
    omega
  | some rg =>
    dsimp only
    obtain ⟨hrl, hgr⟩ := List.getElem?_eq_some_iff.1 hget
    have hend := a4 rg hget
    by_cases hstart : (st.heap.symbols s).Start < rg.start
    · rw [if_pos (Or.inl hstart)]
      refine ⟨⟨a2, hbelow⟩, Or.inr ⟨?_, rfl, rfl⟩⟩
      rintro ⟨⟨rg', hrg', hc1, hc2⟩, -⟩
      obtain ⟨j, hj, hgj⟩ := List.getElem_of_mem hrg'
      rcases Nat.lt_trichotomy j r with hlt | heq | hgt
      · have := hbelow j rg' hlt (by rw [List.getElem?_eq_getElem hj, hgj])
        omega
      · subst heq
        rw [hgj] at hgr
        subst hgr
        omega
      · have := (List.pairwise_iff_getElem.1 hsorted) r j hrl hj hgt
        rw [hgr, hgj] at this
        omega
    · have hcov : rg.start ≤ (st.heap.symbols s).Start ∧ (st.heap.symbols s).Start < rg.end_ :=
        ⟨by omega, hend⟩
      have hfc : firstCover ranges (st.heap.symbols s).Start = some rg :=
        firstCover_eq_some ranges _ r rg hget hcov (fun j rg' hj hrg' hc => by
          have := hbelow j rg' hj hrg'
          omega)
      by_cases hpcs : (st.heap.symbols s).PCs.length = 0
      · rw [if_pos (Or.inr hpcs)]
        refine ⟨⟨a2, hbelow⟩, Or.inr ⟨?_, rfl, rfl⟩⟩
        rintro ⟨-, hne⟩
        exact hne (List.length_eq_zero.1 hpcs)
      · rw [if_neg (by rintro (h1 | h1); exact hstart h1; exact hpcs h1)]
        refine ⟨⟨a2, hbelow⟩, Or.inl ⟨⟨⟨rg, List.getElem?_mem hget, hcov⟩, ?_⟩, rg, hfc, rfl, rfl⟩⟩
        intro hnil
        exact hpcs (by rw [hnil]; rfl)

theorem Retained_congr (h h' : Heap) (ranges : List pcRange) (s : Nat)
    (h1 : (h'.symbols s).toObjectUnit = (h.symbols s).toObjectUnit)
    (h2 : (h'.symbols s).Start = (h.symbols s).Start) :
    Retained h' ranges s ↔ Retained h ranges s := by
  unfold Retained
  have hp : (h'.symbols s).PCs = (h.symbols s).PCs := congrArg ObjectUnit.PCs h1
  rw [h2, hp]

theorem unitFold_spec (ranges : List pcRange)
    (hsorted : ranges.Pairwise (fun a b => a.start ≤ b.start)) (h1 : Heap) :
    ∀ (rest : List Nat) (st : UnitState),
      (∀ p, (st.heap.symbols p).toObjectUnit = (h1.symbols p).toObjectUnit ∧
        (st.heap.symbols p).Start = (h1.symbols p).Start) →
      rest.Pairwise (fun a b => (h1.symbols a).Start ≤ (h1.symbols b).Start) →
      st.rangeIndex ≤ ranges.length →
      (∀ (j : Nat) (rg : pcRange) (s : Nat), s ∈ rest → j < st.rangeIndex →
        ranges[j]? = some rg → rg.end_ ≤ (h1.symbols s).Start) →
      (∀ s ∈ st.kept, (st.heap.symbols s).Unit =
        (firstCover ranges (h1.symbols s).Start).map (fun rg => rg.unit)) →
      (rest.foldl (unitStep ranges) st).kept =
        st.kept ++ rest.filter (fun s => decide (Retained h1 ranges s)) ∧
      (∀ s ∈ (rest.foldl (unitStep ranges) st).kept,
        ((rest.foldl (unitStep ranges) st).heap.symbols s).Unit =
          (firstCover ranges (h1.symbols s).Start).map (fun rg => rg.unit)) := by
  intro rest
  induction rest with
  | nil =>
    intro st _ _ _ _ hU
    exact ⟨by simp, hU⟩
  | cons s rest ih =>
    intro st hframe hpair hle hidx hU
    rw [List.foldl_cons]
    obtain ⟨hhead, htail⟩ := List.pairwise_cons.1 hpair
    have hS : (st.heap.symbols s).Start = (h1.symbols s).Start := (hframe s).2
    obtain ⟨⟨b1, b2⟩, hcase⟩ := unitStep_spec ranges st s hsorted hle
      (fun j rg hj hrg => by rw [hS]; exact hidx j rg s (List.mem_cons_self _ _) hj hrg)
    obtain ⟨f1, -⟩ := unitStep_frame ranges st s
    have hframe' : ∀ p, ((unitStep ranges st s).heap.symbols p).toObjectUnit
          = (h1.symbols p).toObjectUnit ∧
        ((unitStep ranges st s).heap.symbols p).Start = (h1.symbols p).Start :=
      fun p => ⟨(f1 p).1.trans (hframe p).1, (f1 p).2.1.trans (hframe p).2⟩
    have hidx' : ∀ (j : Nat) (rg : pcRange) (s' : Nat), s' ∈ rest →
        j < (unitStep ranges st s).rangeIndex → ranges[j]? = some rg →
        rg.end_ ≤ (h1.symbols s').Start := by
      intro j rg s' hs' hj hrg
      have := b2 j rg hj hrg
      rw [hS] at this
      exact le_trans this (hhead s' hs')
    have hret := Retained_congr h1 st.heap ranges s (hframe s).1 (hframe s).2
    rcases hcase with ⟨hR, rg, hfc, hk, hh⟩ | ⟨hR, hk, hh⟩
    · have hU' : ∀ x ∈ (unitStep ranges st s).kept,
          ((unitStep ranges st s).heap.symbols x).Unit =
            (firstCover ranges (h1.symbols x).Start).map (fun rg => rg.unit) := by
        intro x hx
        rw [hh, setSymbolUnit_Unit]
        by_cases hxs : x = s
        · subst hxs
          rw [if_pos rfl, ← hS, hfc]
          rfl
        · rw [if_neg hxs]
          rw [hk] at hx
          rcases List.mem_append.1 hx with hx | hx
          · exact hU x hx
          · exact absurd (List.mem_singleton.1 hx) hxs
      obtain ⟨r1, r2⟩ := ih _ hframe' htail b1 hidx' hU'
      refine ⟨?_, r2⟩
      rw [r1, hk, List.filter_cons_of_pos (by simpa using hret.1 hR)]
      simp
    · have hU' : ∀ x ∈ (unitStep ranges st s).kept,
          ((unitStep ranges st s).heap.symbols x).Unit =
            (firstCover ranges (h1.symbols x).Start).map (fun rg => rg.unit) := by
        intro x hx
        rw [hh]
        rw [hk] at hx
        exact hU x hx
      obtain ⟨r1, r2⟩ := ih _ hframe' htail b1 hidx' hU'
      refine ⟨?_, r2⟩
      rw [r1, hk, List.filter_cons_of_neg (by simpa using fun hc => hR (hret.2 hc))]

theorem attributePCs_bounds (symbols : List Nat) (coverPoints : List Nat × List Nat) (h : Heap) :
    ∀ p, ((attributePCs symbols coverPoints h).symbols p).Start = (h.symbols p).Start ∧
      ((attributePCs symbols coverPoints h).symbols p).End = (h.symbols p).End := by
  intro p
  obtain ⟨a1, a2⟩ := attributeType_bounds symbols coverPoints.2 1
    (attributeType symbols coverPoints.1 0 h) p
  obtain ⟨b1, b2⟩ := attributeType_bounds symbols coverPoints.1 0 h p
  exact ⟨a1.trans b1, a2.trans b2⟩

/-- The second pass on the heap `h1` left by the first pass: the retained slice and the units
of the retained symbols. -/
theorem assignUnits_spec (symbols : List Nat) (ranges : List pcRange) (h1 : Heap)
    (hsym : symbols.Pairwise (fun a b => (h1.symbols a).Start ≤ (h1.symbols b).Start))
    (hrng : ranges.Pairwise (fun a b => a.start ≤ b.start)) :
    (assignUnits symbols ranges h1).kept =
      symbols.filter (fun s => decide (Retained h1 ranges s)) ∧
    (∀ s ∈ (assignUnits symbols ranges h1).kept,
      ((assignUnits symbols ranges h1).heap.symbols s).Unit =
        (firstCover ranges (h1.symbols s).Start).map (fun rg => rg.unit)) := by
  have := unitFold_spec ranges hrng h1 symbols { heap := h1, rangeIndex := 0, kept := [] }
    (fun p => ⟨rfl, rfl⟩) hsym (Nat.zero_le _)
    (fun j rg s _ hj _ => absurd hj (Nat.not_lt_zero _))
    (fun s hs => by cases hs)
  simpa [assignUnits] using this

/-- Retention in terms of the heap left by the first pass: for symbols sorted by `Start` and
ranges sorted by `start`, a symbol is returned by `buildSymbols` iff it is an input symbol whose
`PCs` are not empty after the first pass and whose `Start` lies in some range; the `Unit` of a
returned symbol is the unit of the first range of the sorted slice that contains its `Start`;
and the returned slice is the input filtered. -/
theorem buildSymbols_retained_iff (symbols : List Nat) (ranges : List pcRange)
    (coverPoints : List Nat × List Nat) (h : Heap)
    (hsym : symbols.Pairwise (fun a b => (h.symbols a).Start ≤ (h.symbols b).Start))
    (hrng : ranges.Pairwise (fun a b => a.start ≤ b.start)) :
    (∀ s, s ∈ (buildSymbols symbols ranges coverPoints h).1 ↔
      s ∈ symbols ∧ ((attributePCs symbols coverPoints h).symbols s).PCs ≠ [] ∧
        ∃ rg ∈ ranges, rg.start ≤ (h.symbols s).Start ∧ (h.symbols s).Start < rg.end_) ∧
    (∀ s ∈ (buildSymbols symbols ranges coverPoints h).1,
      ((buildSymbols symbols ranges coverPoints h).2.symbols s).Unit =
        (firstCover ranges (h.symbols s).Start).map (fun rg => rg.unit)) ∧
    (buildSymbols symbols ranges coverPoints h).1 =
      symbols.filter (fun s => decide (Retained (attributePCs symbols coverPoints h) ranges s)) ∧
    (buildSymbols symbols ranges coverPoints h).1.Sublist symbols := by
  have hb := attributePCs_bounds symbols coverPoints h
  have hsym' : symbols.Pairwise (fun a b =>
      ((attributePCs symbols coverPoints h).symbols a).Start ≤
        ((attributePCs symbols coverPoints h).symbols b).Start) := by
    refine hsym.imp ?_
    intro a b hab
    rw [(hb a).1, (hb b).1]
    exact hab
  obtain ⟨k1, k2⟩ := assignUnits_spec symbols ranges _ hsym' hrng
  have hfst : (buildSymbols symbols ranges coverPoints h).1 =
      (assignUnits symbols ranges (attributePCs symbols coverPoints h)).kept := rfl
  have hsnd : (buildSymbols symbols ranges coverPoints h).2.symbols =
      (assignUnits symbols ranges (attributePCs symbols coverPoints h)).heap.symbols := by
    unfold buildSymbols
    dsimp only
    rw [propagatePCs_symbols]
  refine ⟨?_, ?_, ?_, ?_⟩
  · intro s
    rw [hfst, k1, List.mem_filter, decide_eq_true_iff]
    unfold Retained
    rw [(hb s).1]
    constructor
    · rintro ⟨a, b, c⟩
      exact ⟨a, c, b⟩
    · rintro ⟨a, c, b⟩
      exact ⟨a, b, c⟩
  · intro s hs
    rw [hsnd, k2 s hs, (hb s).1]
  · rw [hfst, k1]
  · rw [hfst, k1]
    exact List.filter_sublist _

/-! ## buildSymbols: the third pass -/

theorem setUnitPCs_select (h : Heap) (u0 u typ typ' : Nat) (v : List Nat) :
    selectPCs ((h.setUnitPCs u0 typ v).units u).toObjectUnit typ' =
      if u = u0 ∧ (typ = 0 ↔ typ' = 0) then v else selectPCs (h.units u).toObjectUnit typ' := by
  unfold Heap.setUnitPCs
  by_cases hu : u = u0
  · subst hu
    simp [selectPCs_storePCs]
  · simp [Function.update_noteq hu, hu]

theorem propagateStep_units (typ typ' : Nat) (h : Heap) (s u : Nat) :
    selectPCs ((propagateStep typ h s).units u).toObjectUnit typ' =
      selectPCs (h.units u).toObjectUnit typ' ++
        if (h.symbols s).Unit = some u ∧ (typ = 0 ↔ typ' = 0) then
          selectPCs (h.symbols s).toObjectUnit typ else [] := by
  unfold propagateStep
  cases hun : (h.symbols s).Unit with
  | none => simp
  | some u0 =>
    dsimp only
    rw [setSymbolPCs_units, setUnitPCs_select]
    by_cases hu : u = u0
    · subst hu
      by_cases ht : (typ = 0 ↔ typ' = 0)
      · rw [if_pos ⟨rfl, ht⟩, if_pos ⟨rfl, ht⟩]
        have : selectPCs (h.units u).toObjectUnit typ = selectPCs (h.units u).toObjectUnit typ' := by
          unfold selectPCs
          by_cases h0 : typ = 0
          · rw [if_pos h0, if_pos (ht.1 h0)]
          · rw [if_neg h0, if_neg (fun hc => h0 (ht.2 hc))]
        rw [this]
      · rw [if_neg (fun hc => ht hc.2), if_neg (fun hc => ht hc.2), List.append_nil]
    · have hne : ¬ (some u0 = some u) := fun hc => hu (Option.some.inj hc).symm
      rw [if_neg (fun hc => hu hc.1), if_neg (fun hc => hne hc.1), List.append_nil]

theorem propagateFold_units (typ typ' : Nat) (u : Nat) (l : List Nat) :
    ∀ h : Heap,
      selectPCs ((l.foldl (propagateStep typ) h).units u).toObjectUnit typ' =
        selectPCs (h.units u).toObjectUnit typ' ++
          if (typ = 0 ↔ typ' = 0) then
            (l.filter (fun s => decide ((h.symbols s).Unit = some u))).flatMap
              (fun s => selectPCs (h.symbols s).toObjectUnit typ)
          else [] := by
  induction l with
  | nil => intro h; simp
  | cons s rest ih =>
    intro h
    rw [List.foldl_cons, ih, propagateStep_units, propagateStep_symbols]
    by_cases ht : (typ = 0 ↔ typ' = 0)
    · simp only [ht, and_true, if_true]
      by_cases hun : (h.symbols s).Unit = some u
      · rw [if_pos hun, List.filter_cons_of_pos (by simpa using hun), List.flatMap_cons,
          List.append_assoc]
      · rw [if_neg hun, List.filter_cons_of_neg (by simpa using hun), List.append_nil]
    · simp only [ht, and_false, if_false, List.append_nil]

theorem attributePCs_units (symbols : List Nat) (coverPoints : List Nat × List Nat) (h : Heap) :
    (attributePCs symbols coverPoints h).units = h.units := by
  have key : ∀ typ pcs (h' : Heap), (attributeType symbols pcs typ h').units = h'.units :=
    fun typ pcs h' => attributeType_preserves (fun x => x.units = h'.units) typ
      (fun _ _ _ hh => hh) symbols pcs h' rfl
  unfold attributePCs
  rw [key, key]

/-- C9: unit PCs are the concatenation of their symbols' PCs. For a compile unit `u` that
starts with empty `PCs`/`CMPs`, after `buildSymbols` the `PCs` (resp. `CMPs`) of `u` are the
concatenation, in the order of the returned slice, of the `PCs` (resp. `CMPs`) of the returned
symbols whose `Unit` is `u`; and the third pass leaves the `PCs` and `CMPs` of every symbol
unchanged. -/
theorem buildSymbols_unit_pcs (symbols : List Nat) (ranges : List pcRange)
    (coverPoints : List Nat × List Nat) (h : Heap) (u : Nat)
    (hu : (h.units u).PCs = [] ∧ (h.units u).CMPs = []) :
    ((buildSymbols symbols ranges coverPoints h).2.units u).PCs =
      ((buildSymbols symbols ranges coverPoints h).1.filter (fun s =>
        decide (((buildSymbols symbols ranges coverPoints h).2.symbols s).Unit = some u))).flatMap
        (fun s => ((buildSymbols symbols ranges coverPoints h).2.symbols s).PCs) ∧
    ((buildSymbols symbols ranges coverPoints h).2.units u).CMPs =
      ((buildSymbols symbols ranges coverPoints h).1.filter (fun s =>
        decide (((buildSymbols symbols ranges coverPoints h).2.symbols s).Unit = some u))).flatMap
        (fun s => ((buildSymbols symbols ranges coverPoints h).2.symbols s).CMPs) ∧
    (∀ p,
      ((propagatePCs (assignUnits symbols ranges (attributePCs symbols coverPoints h)).kept
          (assignUnits symbols ranges (attributePCs symbols coverPoints h)).heap).symbols p).PCs =
        ((assignUnits symbols ranges (attributePCs symbols coverPoints h)).heap.symbols p).PCs ∧
      ((propagatePCs (assignUnits symbols ranges (attributePCs symbols coverPoints h)).kept
          (assignUnits symbols ranges (attributePCs symbols coverPoints h)).heap).symbols p).CMPs =
        ((assignUnits symbols ranges (attributePCs symbols coverPoints h)).heap.symbols p).CMPs) := by
  set st := assignUnits symbols ranges (attributePCs symbols coverPoints h) with hst
  have hfst : (buildSymbols symbols ranges coverPoints h).1 = st.kept := rfl
  have hsnd : (buildSymbols symbols ranges coverPoints h).2 = propagatePCs st.kept st.heap := rfl
  have hsym : (propagatePCs st.kept st.heap).symbols = st.heap.symbols :=
    propagatePCs_symbols _ _
  have hunits : st.heap.units = h.units := by
    obtain ⟨-, f2⟩ := unitFold_frame ranges symbols
      { heap := attributePCs symbols coverPoints h, rangeIndex := 0, kept := [] }
    rw [hst]
    unfold assignUnits
    rw [f2]
    exact attributePCs_units symbols coverPoints h
  have key : ∀ typ', selectPCs ((propagatePCs st.kept st.heap).units u).toObjectUnit typ' =
      selectPCs (h.units u).toObjectUnit typ' ++
        (st.kept.filter (fun s => decide ((st.heap.symbols s).Unit = some u))).flatMap
          (fun s => selectPCs (st.heap.symbols s).toObjectUnit typ') := by
    intro typ'
    unfold propagatePCs
    rw [propagateFold_units 1 typ', propagateFold_units 0 typ', propagateFold_symbols, hunits]
    by_cases h0 : typ' = 0
    · subst h0
      simp
    · have e : selectPCs = fun (o : ObjectUnit) (t : Nat) => if t = 0 then o.PCs else o.CMPs := by
        funext o t; rfl
      simp [h0, e]
  refine ⟨?_, ?_, fun p => by rw [hsym]; exact ⟨rfl, rfl⟩⟩
  · have := key 0
    rw [hfst, hsnd, hsym]
    simpa [selectPCs, hu.1] using this
  · have := key 1
    rw [hfst, hsnd, hsym]
    simpa [selectPCs, hu.2] using this

theorem buildSymbols_unit_pcs_witness :
    ((fixtureHeap.units 0).PCs = [] ∧ (fixtureHeap.units 0).CMPs = []) ∧
    ((buildSymbols fixtureSymbols fixtureRanges fixtureCoverPoints fixtureHeap).2.units 0).PCs =
      ((buildSymbols fixtureSymbols fixtureRanges fixtureCoverPoints fixtureHeap).1.filter (fun s =>
        decide (((buildSymbols fixtureSymbols fixtureRanges fixtureCoverPoints
          fixtureHeap).2.symbols s).Unit = some 0))).flatMap
        (fun s => ((buildSymbols fixtureSymbols fixtureRanges fixtureCoverPoints
          fixtureHeap).2.symbols s).PCs) ∧
    ((buildSymbols fixtureSymbols fixtureRanges fixtureCoverPoints fixtureHeap).2.units 0).PCs =
      [0x1010, 0x1110] :=
  ⟨⟨rfl, rfl⟩,
    (buildSymbols_unit_pcs fixtureSymbols fixtureRanges fixtureCoverPoints fixtureHeap 0
      ⟨rfl, rfl⟩).1, by decide⟩


/-! ## Unit PCs are a sub-list of the sorted cover points -/

theorem filter_append_filter (P Q : Nat → Bool) :
    ∀ l : List Nat, l.Pairwise (fun a b => ¬ (Q a = true ∧ P b = true)) →
      (∀ a ∈ l, ¬ (P a = true ∧ Q a = true)) →
      l.filter P ++ l.filter Q = l.filter (fun a => P a || Q a) := by
  intro l
  induction l with
  | nil => intro _ _; rfl
  | cons x t ih =>
    intro hpair hdisj
    obtain ⟨hx, ht⟩ := List.pairwise_cons.1 hpair
    have iht := ih ht (fun a ha => hdisj a (List.mem_cons_of_mem _ ha))
    cases hP : P x with
    | true =>
      have hQ : Q x = false := by
        cases hQ : Q x with
        | false => rfl
        | true => exact absurd ⟨hP, hQ⟩ (hdisj x (List.mem_cons_self _ _))
      rw [List.filter_cons_of_pos hP, List.filter_cons_of_neg (by simp [hQ]),
        List.filter_cons_of_pos (by simp [hP]), List.cons_append, iht]
    | false =>
      cases hQ : Q x with
      | false =>
        rw [List.filter_cons_of_neg (by simp [hP]), List.filter_cons_of_neg (by simp [hQ]),
          List.filter_cons_of_neg (by simp [hP, hQ]), iht]
      | true =>
        have hnil : t.filter P = [] := by
          rw [List.filter_eq_nil_iff]
          intro b hb hPb
          exact hx b hb ⟨hQ, hPb⟩
        rw [List.filter_cons_of_neg (by simp [hP]), List.filter_cons_of_pos hQ,
          List.filter_cons_of_pos (by simp [hQ]), ← iht, hnil]
        rfl

theorem flatMap_filter_eq_filter (l : List Nat) (hl : l.Sorted (· ≤ ·)) (F : Nat → Nat → Bool) :
    ∀ K : List Nat,
      K.Pairwise (fun i j => ∀ a b, a ≤ b → ¬ (F j a = true ∧ F i b = true)) →
      K.flatMap (fun i => l.filter (F i)) = l.filter (fun a => K.any (fun i => F i a)) := by
  intro K
  induction K with
  | nil => intro _; simp
  | cons i K ih =>
    intro hK
    obtain ⟨hi, hK'⟩ := List.pairwise_cons.1 hK
    rw [List.flatMap_cons, ih hK']
    rw [filter_append_filter (F i) (fun a => K.any (fun j => F j a)) l]
    · apply List.filter_congr
      intro a _
      simp
    · refine List.Pairwise.imp ?_ hl
      intro a b hab ⟨hQ, hP⟩
      obtain ⟨j, hj, hFj⟩ := List.any_eq_true.1 hQ
      exact hi j hj a b hab ⟨hFj, hP⟩
    · intro a _ ⟨hP, hQ⟩
      obtain ⟨j, hj, hFj⟩ := List.any_eq_true.1 hQ
      exact hi j hj a a (le_refl _) ⟨hFj, hP⟩

theorem Owns.index_le {h : Heap} {symbols : List Nat} {i j a b : Nat}
    (hj : Owns h symbols j a) (hi : Owns h symbols i b) (hab : a ≤ b) : j ≤ i := by
  by_contra hlt
  have h1 := hj.2.2.1 i (by omega)
  have h2 := hi.2.1
  omega

/-- The PCs that `buildSymbols` leaves in a unit without initial PCs are a filter of the sorted
trace-pc cover points. -/
theorem buildSymbols_unit_filter (symbols : List Nat) (ranges : List pcRange)
    (coverPoints : List Nat × List Nat) (h : Heap) (u : Nat)
    (hn : symbols.Nodup)
    (hs0 : coverPoints.1.Sorted (· ≤ ·)) (hs1 : coverPoints.2.Sorted (· ≤ ·))
    (hempty : ∀ p ∈ symbols, (h.symbols p).PCs = [] ∧ (h.symbols p).CMPs = [])
    (hu : (h.units u).PCs = []) :
    ∃ P : Nat → Bool,
      ((buildSymbols symbols ranges coverPoints h).2.units u).PCs = coverPoints.1.filter P := by
  set st := assignUnits symbols ranges (attributePCs symbols coverPoints h) with hst
  have hsub : st.kept.Sublist symbols := assignUnits_kept_sublist symbols ranges _
  have hsym : (propagatePCs st.kept st.heap).symbols = st.heap.symbols :=
    propagatePCs_symbols _ _
  have hunits : st.heap.units = h.units := by
    obtain ⟨-, f2⟩ := unitFold_frame ranges symbols
      { heap := attributePCs symbols coverPoints h, rangeIndex := 0, kept := [] }
    rw [hst]
    unfold assignUnits
    rw [f2]
    exact attributePCs_units symbols coverPoints h
  have hpcs : ∀ s ∈ symbols, (st.heap.symbols s).PCs =
      coverPoints.1.filter (fun p => decide (Owns h symbols (symbols.indexOf s) p)) := by
    intro s hs
    obtain ⟨f, -⟩ := unitFold_frame ranges symbols
      { heap := attributePCs symbols coverPoints h, rangeIndex := 0, kept := [] }
    have e1 : (st.heap.symbols s).PCs = ((attributePCs symbols coverPoints h).symbols s).PCs :=
      congrArg ObjectUnit.PCs (f s).1
    have hk : symbols.indexOf s < symbols.length := List.indexOf_lt_length.2 hs
    have e2 := (attributePCs_ref symbols coverPoints h hn hs0 hs1 hempty _ hk).1
    rw [getD_eq_of_lt symbols _ hk, List.getElem_indexOf hk] at e2
    rw [e1, e2]
    rfl
  -- the unit receives the slices of its symbols, in order
  have hunit : ((buildSymbols symbols ranges coverPoints h).2.units u).PCs =
      (st.kept.filter (fun s => decide ((st.heap.symbols s).Unit = some u))).flatMap
        (fun s => (st.heap.symbols s).PCs) := by
    have hsnd : (buildSymbols symbols ranges coverPoints h).2 = propagatePCs st.kept st.heap := rfl
    have := propagateFold_units 0 0 u st.kept st.heap
    rw [hsnd]
    unfold propagatePCs
    have h1 := propagateFold_units 1 0 u st.kept (st.kept.foldl (propagateStep 0) st.heap)
    simp only [selectPCs, if_true] at this h1
    simp only [Nat.one_ne_zero, false_iff, not_true_eq_false, if_false, List.append_nil] at h1
    rw [h1, this, hunits, hu, List.nil_append]
  set L := st.kept.filter (fun s => decide ((st.heap.symbols s).Unit = some u)) with hL
  have hLsub : L.Sublist symbols := (List.filter_sublist _).trans hsub
  have horder : symbols.Pairwise (fun s s' => symbols.indexOf s < symbols.indexOf s') := by
    rw [List.pairwise_iff_getElem]
    intro i j hi hj hij
    rw [List.indexOf_getElem hn, List.indexOf_getElem hn]
    exact hij
  have hLord : L.Pairwise (fun s s' => symbols.indexOf s < symbols.indexOf s') :=
    horder.sublist hLsub
  refine ⟨fun a => L.any (fun s => decide (Owns h symbols (symbols.indexOf s) a)), ?_⟩
  rw [hunit, ← flatMap_filter_eq_filter coverPoints.1 hs0
    (fun s a => decide (Owns h symbols (symbols.indexOf s) a)) L]
  · apply List.flatMap_congr
    intro s hs
    exact hpcs s (hLsub.subset hs)
  · refine hLord.imp ?_
    intro s s' hss a b hab ⟨h1, h2⟩
    have := Owns.index_le (of_decide_eq_true h1) (of_decide_eq_true h2) hab
    omega

/-! ## The assembler -/

theorem drain_ok : ∀ (results : List binResult) (a0 a : Aggregate),
    drain results a0 = .ok a →
      a.allSymbols = a0.allSymbols ++ results.flatMap (fun r => r.symbols) ∧
      a.allCoverPoints.1 = a0.allCoverPoints.1 ++ results.flatMap (fun r => r.coverPoints.1) ∧
      a.allCoverPoints.2 = a0.allCoverPoints.2 ++ results.flatMap (fun r => r.coverPoints.2) ∧
      a.allRanges = a0.allRanges ++ results.flatMap (fun r => r.ranges) ∧
      a.allUnits = a0.allUnits ++ results.flatMap (fun r => r.units) := by
  intro results
  induction results with
  | nil =>
    intro a0 a hd
    simp only [drain, Except.ok.injEq] at hd
    subst hd
    simp
  | cons r rest ih =>
    intro a0 a hd
    rw [drain] at hd
    cases he : r.err with
    | some e => rw [he] at hd; cases hd
    | none =>
      rw [he] at hd
      obtain ⟨h1, h2, h3, h4, h5⟩ := ih _ a hd
      simp only [List.flatMap_cons]
      refine ⟨?_, ?_, ?_, ?_, ?_⟩
      · rw [h1, List.append_assoc]
      · rw [h2, List.append_assoc]
      · rw [h3, List.append_assoc]
      · rw [h4, List.append_assoc]
      · rw [h5, List.append_assoc]

theorem uniqSymbs_subset (h : Heap) : ∀ (l acc : List Nat),
    ∀ s ∈ uniqSymbs h l acc, s ∈ acc ∨ s ∈ l := by
  intro l
  induction l with
  | nil => intro acc s hs; exact Or.inl hs
  | cons x rest ih =>
    intro acc s hs
    rw [uniqSymbs] at hs
    split_ifs at hs
    · rcases ih acc s hs with h1 | h1
      · exact Or.inl h1
      · exact Or.inr (List.mem_cons_of_mem _ h1)
    · rcases ih _ s hs with h1 | h1
      · rcases List.mem_append.1 h1 with h2 | h2
        · exact Or.inl h2
        · rw [List.mem_singleton.1 h2]
          exact Or.inr (List.mem_cons_self _ _)
      · exact Or.inr (List.mem_cons_of_mem _ h1)

theorem uniqSymbs_distinct (h : Heap) : ∀ (l acc : List Nat),
    acc.Pairwise (fun a b => (h.symbols a).Start ≠ (h.symbols b).Start) →
    (uniqSymbs h l acc).Pairwise (fun a b => (h.symbols a).Start ≠ (h.symbols b).Start) := by
  intro l
  induction l with
  | nil => intro acc hacc; exact hacc
  | cons x rest ih =>
    intro acc hacc
    rw [uniqSymbs]
    split_ifs with hany
    · exact ih acc hacc
    · apply ih
      rw [List.pairwise_append]
      refine ⟨hacc, List.pairwise_singleton _ _, ?_⟩
      intro a ha b hb
      rw [List.mem_singleton.1 hb]
      intro heq
      apply hany
      rw [List.any_eq_true]
      exact ⟨a, ha, by simpa using heq⟩

theorem sortSymbols_perm (h : Heap) (l : List Nat) : (sortSymbols h l).Perm l :=
  List.perm_insertionSort _ l

theorem sortPCs_perm (l : List Nat) : (sortPCs l).Perm l :=
  List.perm_insertionSort _ l

theorem sortPCs_sorted (l : List Nat) : (sortPCs l).Sorted (· ≤ ·) :=
  List.sorted_insertionSort _ l

/-- The symbols handed to `buildSymbols` are pairwise distinct pointers taken from the
aggregated slice. -/
theorem sortSymbols_uniq (h : Heap) (l : List Nat) :
    (sortSymbols h (uniqSymbs h l [])).Nodup ∧
    ∀ s ∈ sortSymbols h (uniqSymbs h l []), s ∈ l := by
  constructor
  · rw [(sortSymbols_perm h _).nodup_iff]
    refine List.Pairwise.imp ?_ (uniqSymbs_distinct h l [] List.Pairwise.nil)
    intro a b hab heq
    exact hab (by rw [heq])
  · intro s hs
    rcases uniqSymbs_subset h l [] s ((sortSymbols_perm h _).mem_iff.1 hs) with h1 | h1
    · cases h1
    · exact h1

theorem setUnitName_PCs (h : Heap) (u0 u : Nat) (n p : String) :
    ((h.setUnitName u0 n p).units u).PCs = (h.units u).PCs := by
  unfold Heap.setUnitName
  by_cases hu : u = u0
  · subst hu; simp
  · simp [Function.update_noteq hu]

theorem keepUnits_spec (cleanPath : String → String × String) :
    ∀ (l : List Nat) (h : Heap) (kept : List Nat),
      (∀ u, (((keepUnits cleanPath l h kept).2).units u).PCs = (h.units u).PCs) ∧
      (keepUnits cleanPath l h kept).1 =
        kept ++ l.filter (fun u => decide ((h.units u).PCs ≠ [])) := by
  intro l
  induction l with
  | nil => intro h kept; exact ⟨fun _ => rfl, by simp [keepUnits]⟩
  | cons x rest ih =>
    intro h kept
    rw [keepUnits]
    by_cases hx : (h.units x).PCs.length = 0
    · rw [if_pos hx]
      obtain ⟨i1, i2⟩ := ih h kept
      refine ⟨i1, ?_⟩
      rw [i2, List.filter_cons_of_neg (by simpa using List.length_eq_zero.1 hx)]
    · rw [if_neg hx]
      dsimp only
      obtain ⟨i1, i2⟩ := ih (h.setUnitName x (cleanPath (h.units x).Name).1
        (cleanPath (h.units x).Name).2) (kept ++ [x])
      constructor
      · intro u
        rw [i1, setUnitName_PCs]
      · rw [i2, List.filter_cons_of_pos (by simpa using fun hc => hx (by rw [hc]; rfl))]
        rw [List.append_assoc, List.singleton_append]
        congr 2
        apply List.filter_congr
        intro u _
        rw [setUnitName_PCs]

/-- C10 (amended): for every successful assembly whose units start without PCs and whose input
symbols start without PCs and CMPs, every unit retained in `Impl.Units` has at least one PC,
and its PCs are a sub-list of `Impl.CallbackPoints` (the sorted trace-pc cover points): they
are sorted ascending and contain no value more often than the input trace-pc cover points. -/
theorem makeDWARFUnsafe_unit_pcs_sorted (sortRanges : List pcRange → List pcRange)
    (cleanPath : String → String × String) (preciseCoverage : Bool)
    (results : List binResult) (h : Heap) (impl : Impl) (h' : Heap)
    (hok : makeDWARFUnsafe sortRanges cleanPath preciseCoverage results h = .ok (impl, h'))
    (hunits : ∀ r ∈ results, ∀ u ∈ r.units, (h.units u).PCs = [])
    (hsyms : ∀ r ∈ results, ∀ s ∈ r.symbols,
      (h.symbols s).PCs = [] ∧ (h.symbols s).CMPs = []) :
    ∀ u ∈ impl.Units,
      (h'.units u).PCs ≠ [] ∧
      (h'.units u).PCs.Sorted (· ≤ ·) ∧
      (h'.units u).PCs.Sublist impl.CallbackPoints ∧
      ∀ v, (h'.units u).PCs.count v ≤ (results.flatMap (fun r => r.coverPoints.1)).count v := by
  unfold makeDWARFUnsafe at hok
  cases hd : drain results
      { allSymbols := [], allCoverPoints := ([], []), allRanges := [], allUnits := [] } with
  | error e => rw [hd] at hok; cases hok
  | ok a =>
    rw [hd] at hok
    dsimp only at hok
    split_ifs at hok with hfail
    cases hok
    dsimp only
    obtain ⟨d1, d2, -, -, d5⟩ := drain_ok results _ a hd
    simp only [List.nil_append] at d1 d2 d5
    obtain ⟨k1, k2⟩ := keepUnits_spec cleanPath a.allUnits
      (buildSymbols (sortSymbols h (uniqSymbs h a.allSymbols [])) (sortRanges a.allRanges)
        (sortPCs a.allCoverPoints.1, sortPCs a.allCoverPoints.2) h).2 []
    obtain ⟨n1, n2⟩ := sortSymbols_uniq h a.allSymbols
    intro u hu
    rw [k2, List.nil_append, List.mem_filter] at hu
    obtain ⟨humem, hune⟩ := hu
    have hu0 : (h.units u).PCs = [] := by
      rw [d5, List.mem_flatMap] at humem
      obtain ⟨r, hr, hur⟩ := humem
      exact hunits r hr u hur
    have hempty : ∀ p ∈ sortSymbols h (uniqSymbs h a.allSymbols []),
        (h.symbols p).PCs = [] ∧ (h.symbols p).CMPs = [] := by
      intro p hp
      have := n2 p hp
      rw [d1, List.mem_flatMap] at this
      obtain ⟨r, hr, hpr⟩ := this
      exact hsyms r hr p hpr
    obtain ⟨P, hP⟩ := buildSymbols_unit_filter (sortSymbols h (uniqSymbs h a.allSymbols []))
      (sortRanges a.allRanges) (sortPCs a.allCoverPoints.1, sortPCs a.allCoverPoints.2) h u n1
      (sortPCs_sorted _) (sortPCs_sorted _) hempty hu0
    rw [k1 u]
    have hsub : (List.filter P (sortPCs a.allCoverPoints.1)).Sublist (sortPCs a.allCoverPoints.1) :=
      List.filter_sublist _
    refine ⟨of_decide_eq_true hune, ?_, ?_, ?_⟩
    · rw [hP]
      exact (sortPCs_sorted _).sublist hsub
    · rw [hP]
      exact hsub
    · intro v
      rw [hP, ← d2, ← (sortPCs_perm a.allCoverPoints.1).count_eq v]
      exact hsub.count_le v

/-- C10 (counterexample): a symbol that enters the assembly with the PCs `[9, 3]` and receives
no cover point keeps them and hands them to its unit: the assembly succeeds, the single input
cover point list `[0x50]` is sorted and the units start without PCs, but the retained unit at
address 1 ends with the PCs `[9, 3]`, which are not sorted and are no input cover points. -/
theorem makeDWARFUnsafe_preset_pcs_unsorted :
    ∃ impl h',
      makeDWARFUnsafe insertionSortRanges (fun n => (n, n)) true [presetResult] presetHeap
        = .ok (impl, h') ∧
      presetResult.coverPoints.1.Sorted (· ≤ ·) ∧
      (∀ u ∈ presetResult.units, (presetHeap.units u).PCs = []) ∧
      1 ∈ impl.Units ∧ (h'.units 1).PCs = [9, 3] ∧
      ¬ (h'.units 1).PCs.Sorted (· ≤ ·) ∧
      ¬ (∀ v, (h'.units 1).PCs.count v ≤ presetResult.coverPoints.1.count v) := by
  refine ⟨_, _, rfl, by decide, by decide, by decide, by decide, by decide, ?_⟩
  intro hc
  exact absurd (hc 9) (by decide)

theorem makeDWARFUnsafe_unit_pcs_sorted_witness :
    ∃ impl h',
      makeDWARFUnsafe insertionSortRanges (fun n => (n, n)) true [fixtureResult] fixtureHeap
        = .ok (impl, h') ∧
      impl.Units = [0] ∧
      ∀ u ∈ impl.Units,
        (h'.units u).PCs ≠ [] ∧
        (h'.units u).PCs.Sorted (· ≤ ·) ∧
        (h'.units u).PCs.Sublist impl.CallbackPoints ∧
        ∀ v, (h'.units u).PCs.count v ≤
          ([fixtureResult].flatMap (fun r => r.coverPoints.1)).count v := by
  refine ⟨_, _, rfl, by decide, ?_⟩
  exact makeDWARFUnsafe_unit_pcs_sorted insertionSortRanges (fun n => (n, n)) true
    [fixtureResult] fixtureHeap _ _ rfl (by decide) (by decide)

/-! ## The assembler: de-duplication and order of the symbols -/

theorem mem_uniqSymbs (h : Heap) : ∀ (l acc : List Nat) (s : Nat),
    s ∈ uniqSymbs h l acc ↔
      s ∈ acc ∨ ((∀ a ∈ acc, (h.symbols a).Start ≠ (h.symbols s).Start) ∧
        l.find? (fun y => (h.symbols y).Start == (h.symbols s).Start) = some s) := by
  intro l
  induction l with
  | nil =>
    intro acc s
    simp [uniqSymbs]
  | cons x rest ih =>
    intro acc s
    rw [uniqSymbs, List.find?_cons]
    by_cases hany : acc.any (fun a => (h.symbols a).Start == (h.symbols x).Start) = true
    · rw [if_pos hany, ih]
      obtain ⟨a, ha, hax⟩ := List.any_eq_true.1 hany
      have hax' : (h.symbols a).Start = (h.symbols x).Start := by simpa using hax
      by_cases hxs : (h.symbols x).Start = (h.symbols s).Start
      · have hno : ¬ ∀ a ∈ acc, (h.symbols a).Start ≠ (h.symbols s).Start :=
          fun hc => hc a ha (hax'.trans hxs)
        constructor
        · rintro (h1 | ⟨h1, -⟩)
          · exact Or.inl h1
          · exact absurd h1 hno
        · rintro (h1 | ⟨h1, -⟩)
          · exact Or.inl h1
          · exact absurd h1 hno
      · have hb : ((h.symbols x).Start == (h.symbols s).Start) = false := by simpa using hxs
        rw [hb]
    · rw [if_neg hany, ih]
      have hacc : ∀ a ∈ acc, (h.symbols a).Start ≠ (h.symbols x).Start := by
        intro a ha heq
        exact hany (List.any_eq_true.2 ⟨a, ha, by simpa using heq⟩)
      by_cases hxs : (h.symbols x).Start = (h.symbols s).Start
      · have hb : ((h.symbols x).Start == (h.symbols s).Start) = true := by simpa using hxs
        rw [hb]
        constructor
        · rintro (h1 | ⟨h1, -⟩)
          · rcases List.mem_append.1 h1 with h2 | h2
            · exact Or.inl h2
            · have hsx : s = x := List.mem_singleton.1 h2
              subst hsx
              exact Or.inr ⟨hacc, rfl⟩
          · exact absurd hxs (h1 x (List.mem_append_right _ (List.mem_singleton_self x)))
        · rintro (h1 | ⟨-, h2⟩)
          · exact Or.inl (List.mem_append_left _ h1)
          · have hsx : x = s := Option.some.inj h2
            subst hsx
            exact Or.inl (List.mem_append_right _ (List.mem_singleton_self x))
      · have hb : ((h.symbols x).Start == (h.symbols s).Start) = false := by simpa using hxs
        rw [hb]
        constructor
        · rintro (h1 | ⟨h1, h2⟩)
          · rcases List.mem_append.1 h1 with h3 | h3
            · exact Or.inl h3
            · have hsx : s = x := List.mem_singleton.1 h3
              subst hsx
              exact absurd rfl hxs
          · exact Or.inr ⟨fun a ha => h1 a (List.mem_append_left _ ha), h2⟩
        · rintro (h1 | ⟨h1, h2⟩)
          · exact Or.inl (List.mem_append_left _ h1)
          · refine Or.inr ⟨?_, h2⟩
            intro a ha
            rcases List.mem_append.1 ha with h3 | h3
            · exact h1 a h3
            · rw [List.mem_singleton.1 h3]
              exact hxs

theorem sortSymbols_sorted (h : Heap) (l : List Nat) :
    (sortSymbols h l).Pairwise (fun a b => (h.symbols a).Start ≤ (h.symbols b).Start) := by
  haveI : IsTotal Nat (fun a b => (h.symbols a).Start ≤ (h.symbols b).Start) :=
    ⟨fun a b => le_total _ _⟩
  haveI : IsTrans Nat (fun a b => (h.symbols a).Start ≤ (h.symbols b).Start) :=
    ⟨fun a b c hab hbc => le_trans hab hbc⟩
  exact List.sorted_insertionSort _ l

/-- The symbols handed to `buildSymbols` are strictly increasing by `Start`. -/
theorem sortSymbols_uniq_strict (h : Heap) (l : List Nat) :
    (sortSymbols h (uniqSymbs h l [])).Pairwise
      (fun a b => (h.symbols a).Start < (h.symbols b).Start) := by
  have hd : (sortSymbols h (uniqSymbs h l [])).Pairwise
      (fun a b => (h.symbols a).Start ≠ (h.symbols b).Start) := by
    refine (List.Perm.pairwise_iff ?_ (sortSymbols_perm h _)).2
      (uniqSymbs_distinct h l [] List.Pairwise.nil)
    intro a b hab heq
    exact hab heq.symm
  refine ((sortSymbols_sorted h _).and hd).imp ?_
  intro a b hab
  exact lt_of_le_of_ne hab.1 hab.2

/-- C13: symbol de-duplication in the assembler. The slice handed to `buildSymbols` is
strictly increasing by `Start` (sorted ascending, one symbol per `Start`); its members are
exactly the symbols that are the first one with their `Start` in the aggregated slice; and
every `Start` of the aggregated slice is represented, by the first symbol that has it. -/
theorem dedup_first_wins_sorted (h : Heap) (allSymbols : List Nat) :
    (sortSymbols h (uniqSymbs h allSymbols [])).Pairwise
      (fun a b => (h.symbols a).Start < (h.symbols b).Start) ∧
    (∀ s, s ∈ sortSymbols h (uniqSymbs h allSymbols []) ↔
      s ∈ allSymbols ∧
        allSymbols.find? (fun y => (h.symbols y).Start == (h.symbols s).Start) = some s) ∧
    (∀ x ∈ allSymbols, ∃ s ∈ sortSymbols h (uniqSymbs h allSymbols []),
      (h.symbols s).Start = (h.symbols x).Start ∧
      allSymbols.find? (fun y => (h.symbols y).Start == (h.symbols x).Start) = some s) := by
  have hmem : ∀ s, s ∈ sortSymbols h (uniqSymbs h allSymbols []) ↔
      allSymbols.find? (fun y => (h.symbols y).Start == (h.symbols s).Start) = some s := by
    intro s
    rw [(sortSymbols_perm h _).mem_iff, mem_uniqSymbs]
    simp
  refine ⟨sortSymbols_uniq_strict h allSymbols, ?_, ?_⟩
  · intro s
    rw [hmem]
    constructor
    · intro hf
      exact ⟨List.mem_of_find?_eq_some hf, hf⟩
    · exact fun hf => hf.2
  · intro x hx
    cases hf : allSymbols.find? (fun y => (h.symbols y).Start == (h.symbols x).Start) with
    | none =>
      rw [List.find?_eq_none] at hf
      exact absurd (by simp) (hf x hx)
    | some s =>
      have hs : (h.symbols s).Start = (h.symbols x).Start := by
        simpa using List.find?_some hf
      refine ⟨s, ?_, hs, rfl⟩
      rw [hmem, hs]
      exact hf

theorem unitFold_kept_pcs (ranges : List pcRange) (h1 : Heap) (symbols : List Nat) :
    ∀ st : UnitState,
      (∀ p, (st.heap.symbols p).toObjectUnit = (h1.symbols p).toObjectUnit) →
      (∀ s ∈ st.kept, (h1.symbols s).PCs ≠ []) →
      ∀ s ∈ (symbols.foldl (unitStep ranges) st).kept, (h1.symbols s).PCs ≠ [] := by
  induction symbols with
  | nil => intro st _ hk; exact hk
  | cons x rest ih =>
    intro st hframe hk
    rw [List.foldl_cons]
    obtain ⟨f1, -⟩ := unitStep_frame ranges st x
    refine ih _ (fun p => (f1 p).1.trans (hframe p)) ?_
    have hx : (st.heap.symbols x).PCs = (h1.symbols x).PCs := congrArg ObjectUnit.PCs (hframe x)
    unfold unitStep
    dsimp only
    split
    · exact hk
    · split_ifs with hc
      · exact hk
      · intro s hs
        rcases List.mem_append.1 hs with h2 | h2
        · exact hk s h2
        · rw [List.mem_singleton.1 h2, ← hx]
          intro hnil
          exact hc (Or.inr (by rw [hnil]; rfl))

/-- The bounds of a symbol are the same before and after `buildSymbols`. -/
theorem buildSymbols_bounds (symbols : List Nat) (ranges : List pcRange)
    (coverPoints : List Nat × List Nat) (h : Heap) :
    ∀ p, ((buildSymbols symbols ranges coverPoints h).2.symbols p).Start = (h.symbols p).Start ∧
      ((buildSymbols symbols ranges coverPoints h).2.symbols p).End = (h.symbols p).End := by
  intro p
  have hsnd : (buildSymbols symbols ranges coverPoints h).2.symbols =
      (assignUnits symbols ranges (attributePCs symbols coverPoints h)).heap.symbols := by
    unfold buildSymbols
    dsimp only
    rw [propagatePCs_symbols]
  obtain ⟨f, -⟩ := unitFold_frame ranges symbols
    { heap := attributePCs symbols coverPoints h, rangeIndex := 0, kept := [] }
  obtain ⟨b1, b2⟩ := attributePCs_bounds symbols coverPoints h p
  rw [hsnd]
  unfold assignUnits
  exact ⟨(f p).2.1.trans b1, (f p).2.2.trans b2⟩

/-- A symbol returned by `buildSymbols` for symbols that start without PCs is not empty. -/
theorem buildSymbols_kept_nonempty (symbols : List Nat) (ranges : List pcRange)
    (coverPoints : List Nat × List Nat) (h : Heap)
    (hempty : ∀ p ∈ symbols, (h.symbols p).PCs = [] ∧ (h.symbols p).CMPs = []) :
    ∀ s ∈ (buildSymbols symbols ranges coverPoints h).1,
      (h.symbols s).Start < (h.symbols s).End := by
  intro s hs
  have hmem : s ∈ symbols := (assignUnits_kept_sublist symbols ranges _).subset hs
  have h0 : ∀ p ∈ symbols, InRange h p := by
    intro p hp typ pc hpc
    obtain ⟨e1, e2⟩ := hempty p hp
    unfold selectPCs at hpc
    rw [e1, e2] at hpc
    split_ifs at hpc <;> cases hpc
  have h1 := attributePCs_inRange symbols coverPoints h h0 s hmem
  have hne := unitFold_kept_pcs ranges (attributePCs symbols coverPoints h) symbols
    { heap := attributePCs symbols coverPoints h, rangeIndex := 0, kept := [] }
    (fun _ => rfl) (fun s hs => by cases hs) s hs
  obtain ⟨pc, hpc⟩ := List.exists_mem_of_ne_nil _ hne
  obtain ⟨b1, b2⟩ := attributePCs_bounds symbols coverPoints h s
  have := h1 0 pc hpc
  rw [b1, b2] at this
  omega

theorem keepUnits_symbols (cleanPath : String → String × String) :
    ∀ (l : List Nat) (h : Heap) (kept : List Nat),
      (keepUnits cleanPath l h kept).2.symbols = h.symbols := by
  intro l
  induction l with
  | nil => intro h kept; rfl
  | cons x rest ih =>
    intro h kept
    rw [keepUnits]
    split_ifs
    · exact ih h kept
    · dsimp only
      rw [ih]
      rfl

/-- What a successful run of the assembler returns, in terms of its intermediate values. -/
theorem makeDWARFUnsafe_ok (sortRanges : List pcRange → List pcRange)
    (cleanPath : String → String × String) (preciseCoverage : Bool)
    (results : List binResult) (h : Heap) (impl : Impl) (h' : Heap)
    (hok : makeDWARFUnsafe sortRanges cleanPath preciseCoverage results h = .ok (impl, h')) :
    ∃ a : Aggregate,
      drain results
        { allSymbols := [], allCoverPoints := ([], []), allRanges := [], allUnits := [] }
        = .ok a ∧
      impl.Symbols = (buildSymbols (sortSymbols h (uniqSymbs h a.allSymbols []))
        (sortRanges a.allRanges) (sortPCs a.allCoverPoints.1, sortPCs a.allCoverPoints.2) h).1 ∧
      impl.CallbackPoints = sortPCs a.allCoverPoints.1 ∧
      impl.PreciseCoverage = preciseCoverage ∧
      impl.Units = (keepUnits cleanPath a.allUnits
        (buildSymbols (sortSymbols h (uniqSymbs h a.allSymbols []))
          (sortRanges a.allRanges) (sortPCs a.allCoverPoints.1, sortPCs a.allCoverPoints.2)
          h).2 []).1 ∧
      h' = (keepUnits cleanPath a.allUnits
        (buildSymbols (sortSymbols h (uniqSymbs h a.allSymbols []))
          (sortRanges a.allRanges) (sortPCs a.allCoverPoints.1, sortPCs a.allCoverPoints.2)
          h).2 []).2 ∧
      impl.Symbols ≠ [] ∧ impl.Units ≠ [] := by
  unfold makeDWARFUnsafe at hok
  cases hd : drain results
      { allSymbols := [], allCoverPoints := ([], []), allRanges := [], allUnits := [] } with
  | error e => rw [hd] at hok; cases hok
  | ok a =>
    rw [hd] at hok
    dsimp only at hok
    split_ifs at hok with hfail
    cases hok
    refine ⟨a, rfl, rfl, rfl, rfl, rfl, rfl, ?_, ?_⟩
    · intro hnil
      dsimp only at hnil
      exact hfail (Or.inl (by rw [hnil]; rfl))
    · intro hnil
      dsimp only at hnil
      exact hfail (Or.inr (by rw [hnil]; rfl))

/-- C12: for every successful assembly whose input symbols start without PCs and CMPs,
`Impl.Symbols` is strictly increasing by `Start` (so the `Start` values are pairwise distinct)
and every retained symbol satisfies `Start < End`. -/
theorem makeDWARFUnsafe_symbols_strict (sortRanges : List pcRange → List pcRange)
    (cleanPath : String → String × String) (preciseCoverage : Bool)
    (results : List binResult) (h : Heap) (impl : Impl) (h' : Heap)
    (hok : makeDWARFUnsafe sortRanges cleanPath preciseCoverage results h = .ok (impl, h'))
    (hsyms : ∀ r ∈ results, ∀ s ∈ r.symbols,
      (h.symbols s).PCs = [] ∧ (h.symbols s).CMPs = []) :
    impl.Symbols.Pairwise (fun a b => (h'.symbols a).Start < (h'.symbols b).Start) ∧
    ∀ s ∈ impl.Symbols, (h'.symbols s).Start < (h'.symbols s).End := by
  obtain ⟨a, hd, e1, -, -, -, e5, -, -⟩ :=
    makeDWARFUnsafe_ok sortRanges cleanPath preciseCoverage results h impl h' hok
  obtain ⟨d1, -, -, -, -⟩ := drain_ok results _ a hd
  simp only [List.nil_append] at d1
  have hb : ∀ p, (h'.symbols p).Start = (h.symbols p).Start ∧
      (h'.symbols p).End = (h.symbols p).End := by
    intro p
    rw [e5, keepUnits_symbols]
    exact buildSymbols_bounds _ _ _ h p
  have hsub : impl.Symbols.Sublist (sortSymbols h (uniqSymbs h a.allSymbols [])) := by
    rw [e1]
    exact assignUnits_kept_sublist _ _ _
  have hempty : ∀ p ∈ sortSymbols h (uniqSymbs h a.allSymbols []),
      (h.symbols p).PCs = [] ∧ (h.symbols p).CMPs = [] := by
    intro p hp
    have := (sortSymbols_uniq h a.allSymbols).2 p hp
    rw [d1, List.mem_flatMap] at this
    obtain ⟨r, hr, hpr⟩ := this
    exact hsyms r hr p hpr
  constructor
  · refine ((sortSymbols_uniq_strict h a.allSymbols).sublist hsub).imp ?_
    intro x y hxy
    rw [(hb x).1, (hb y).1]
    exact hxy
  · intro s hs
    rw [(hb s).1, (hb s).2]
    rw [e1] at hs
    exact buildSymbols_kept_nonempty _ _ _ h hempty s hs

theorem makeDWARFUnsafe_symbols_strict_witness :
    ∃ impl h',
      makeDWARFUnsafe insertionSortRanges (fun n => (n, n)) true [fixtureResult] fixtureHeap
        = .ok (impl, h') ∧
      impl.Symbols = [0, 1] ∧
      impl.Symbols.Pairwise (fun a b => (h'.symbols a).Start < (h'.symbols b).Start) ∧
      ∀ s ∈ impl.Symbols, (h'.symbols s).Start < (h'.symbols s).End := by
  refine ⟨_, _, rfl, by decide, ?_⟩
  exact makeDWARFUnsafe_symbols_strict insertionSortRanges (fun n => (n, n)) true
    [fixtureResult] fixtureHeap _ _ rfl (by decide)

/-- C11 (amended): for every successful assembly, `Impl.CallbackPoints` is sorted ascending and
is the sorted list of all input trace-pc cover points, attributed or not; when the units and
the input symbols start without PCs, the PCs of every retained unit are a sub-list of it. -/
theorem makeDWARFUnsafe_callbackPoints (sortRanges : List pcRange → List pcRange)
    (cleanPath : String → String × String) (preciseCoverage : Bool)
    (results : List binResult) (h : Heap) (impl : Impl) (h' : Heap)
    (hok : makeDWARFUnsafe sortRanges cleanPath preciseCoverage results h = .ok (impl, h')) :
    impl.CallbackPoints.Sorted (· ≤ ·) ∧
    impl.CallbackPoints.Perm (results.flatMap (fun r => r.coverPoints.1)) ∧
    ((∀ r ∈ results, ∀ u ∈ r.units, (h.units u).PCs = []) →
      (∀ r ∈ results, ∀ s ∈ r.symbols, (h.symbols s).PCs = [] ∧ (h.symbols s).CMPs = []) →
      ∀ u ∈ impl.Units, (h'.units u).PCs.Sublist impl.CallbackPoints) := by
  obtain ⟨a, hd, -, e2, -, e4, e5, -, -⟩ :=
    makeDWARFUnsafe_ok sortRanges cleanPath preciseCoverage results h impl h' hok
  obtain ⟨d1, d2, -, -, d5⟩ := drain_ok results _ a hd
  simp only [List.nil_append] at d1 d2 d5
  refine ⟨?_, ?_, ?_⟩
  · rw [e2]
    exact sortPCs_sorted _
  · rw [e2, ← d2]
    exact sortPCs_perm _
  · intro hunits hsyms u hu
    obtain ⟨k1, k2⟩ := keepUnits_spec cleanPath a.allUnits
      (buildSymbols (sortSymbols h (uniqSymbs h a.allSymbols [])) (sortRanges a.allRanges)
        (sortPCs a.allCoverPoints.1, sortPCs a.allCoverPoints.2) h).2 []
    obtain ⟨n1, n2⟩ := sortSymbols_uniq h a.allSymbols
    rw [e4, k2, List.nil_append, List.mem_filter] at hu
    have hu0 : (h.units u).PCs = [] := by
      have humem := hu.1
      rw [d5, List.mem_flatMap] at humem
      obtain ⟨r, hr, hur⟩ := humem
      exact hunits r hr u hur
    have hempty : ∀ p ∈ sortSymbols h (uniqSymbs h a.allSymbols []),
        (h.symbols p).PCs = [] ∧ (h.symbols p).CMPs = [] := by
      intro p hp
      have := n2 p hp
      rw [d1, List.mem_flatMap] at this
      obtain ⟨r, hr, hpr⟩ := this
      exact hsyms r hr p hpr
    obtain ⟨P, hP⟩ := buildSymbols_unit_filter (sortSymbols h (uniqSymbs h a.allSymbols []))
      (sortRanges a.allRanges) (sortPCs a.allCoverPoints.1, sortPCs a.allCoverPoints.2) h u n1
      (sortPCs_sorted _) (sortPCs_sorted _) hempty hu0
    rw [e5, k1 u, hP, e2]
    exact List.filter_sublist _

/-- C11 (counterexample): with one trace-pc call site (`0x5000`) outside every symbol, the
assembly succeeds with the single retained unit holding `[0x1010, 0x1110]`, while
`Impl.CallbackPoints` is `[0x1010, 0x1110, 0x5000]`: it is not the union of the unit PCs. -/
theorem makeDWARFUnsafe_callbackPoints_stray :
    ∃ impl h',
      makeDWARFUnsafe insertionSortRanges (fun n => (n, n)) true [strayResult] fixtureHeap
        = .ok (impl, h') ∧
      impl.Units = [0] ∧ (h'.units 0).PCs = [0x1010, 0x1110] ∧
      impl.CallbackPoints = [0x1010, 0x1110, 0x5000] ∧
      0x5000 ∈ impl.CallbackPoints ∧ ∀ u ∈ impl.Units, 0x5000 ∉ (h'.units u).PCs := by
  refine ⟨_, _, rfl, by decide, by decide, by decide, by decide, by decide⟩

theorem makeDWARFUnsafe_callbackPoints_witness :
    ∃ impl h',
      makeDWARFUnsafe insertionSortRanges (fun n => (n, n)) true [strayResult] fixtureHeap
        = .ok (impl, h') ∧
      impl.CallbackPoints.Sorted (· ≤ ·) ∧
      impl.CallbackPoints.Perm ([strayResult].flatMap (fun r => r.coverPoints.1)) ∧
      ∀ u ∈ impl.Units, (h'.units u).PCs.Sublist impl.CallbackPoints := by
  refine ⟨_, _, rfl, ?_⟩
  have hw := makeDWARFUnsafe_callbackPoints insertionSortRanges (fun n => (n, n)) true
    [strayResult] fixtureHeap _ _ rfl
  exact ⟨hw.1, hw.2.1, hw.2.2 (by decide) (by decide)⟩

/-! ## The assembler: the order in which the results are consumed -/

theorem sortPCs_congr (l l' : List Nat) (hp : l.Perm l') : sortPCs l = sortPCs l' :=
  List.eq_of_perm_of_sorted ((sortPCs_perm l).trans (hp.trans (sortPCs_perm l').symm))
    (sortPCs_sorted l) (sortPCs_sorted l')

theorem find?_start_of_inj (h : Heap) (l : List Nat)
    (hinj : ∀ s ∈ l, ∀ s' ∈ l, (h.symbols s).Start = (h.symbols s').Start → s = s') (s : Nat) :
    l.find? (fun y => (h.symbols y).Start == (h.symbols s).Start) = some s ↔ s ∈ l := by
  constructor
  · exact List.mem_of_find?_eq_some
  · intro hs
    cases hf : l.find? (fun y => (h.symbols y).Start == (h.symbols s).Start) with
    | none =>
      rw [List.find?_eq_none] at hf
      exact absurd (by simp) (hf s hs)
    | some y =>
      have hy : (h.symbols y).Start = (h.symbols s).Start := by simpa using List.find?_some hf
      rw [hinj y (List.mem_of_find?_eq_some hf) s hs hy]

/-- When distinct symbols have distinct `Start`, permuting the aggregated symbols does not
change the slice handed to `buildSymbols`. -/
theorem sortSymbols_uniq_congr (h : Heap) (l l' : List Nat) (hp : l.Perm l')
    (hinj : ∀ s ∈ l, ∀ s' ∈ l, (h.symbols s).Start = (h.symbols s').Start → s = s') :
    sortSymbols h (uniqSymbs h l []) = sortSymbols h (uniqSymbs h l' []) := by
  have hinj' : ∀ s ∈ l', ∀ s' ∈ l', (h.symbols s).Start = (h.symbols s').Start → s = s' :=
    fun s hs s' hs' => hinj s (hp.mem_iff.2 hs) s' (hp.mem_iff.2 hs')
  have hmem : ∀ (m : List Nat),
      (∀ s ∈ m, ∀ s' ∈ m, (h.symbols s).Start = (h.symbols s').Start → s = s') →
      ∀ s, s ∈ sortSymbols h (uniqSymbs h m []) ↔ s ∈ m := by
    intro m hm s
    rw [(sortSymbols_perm h _).mem_iff, mem_uniqSymbs]
    simp only [List.not_mem_nil, false_or, IsEmpty.forall_iff, implies_true, true_and]
    exact find?_start_of_inj h m hm s
  have hperm : (sortSymbols h (uniqSymbs h l [])).Perm (sortSymbols h (uniqSymbs h l' [])) := by
    rw [List.perm_ext_iff_of_nodup (sortSymbols_uniq h l).1 (sortSymbols_uniq h l').1]
    intro s
    rw [hmem l hinj, hmem l' hinj', hp.mem_iff]
  haveI : IsAntisymm Nat (fun a b => (h.symbols a).Start < (h.symbols b).Start) :=
    ⟨fun a b hab hba => absurd (lt_trans hab hba) (lt_irrefl _)⟩
  exact List.eq_of_perm_of_sorted hperm (sortSymbols_uniq_strict h l)
    (sortSymbols_uniq_strict h l')

theorem Retained_perm (h : Heap) (ranges ranges' : List pcRange) (hp : ranges.Perm ranges')
    (s : Nat) : Retained h ranges s ↔ Retained h ranges' s := by
  unfold Retained
  constructor
  · rintro ⟨⟨rg, hrg, hc⟩, hne⟩
    exact ⟨⟨rg, hp.mem_iff.1 hrg, hc⟩, hne⟩
  · rintro ⟨⟨rg, hrg, hc⟩, hne⟩
    exact ⟨⟨rg, hp.mem_iff.2 hrg, hc⟩, hne⟩

/-- The symbols returned by `buildSymbols` for sorted inputs do not depend on the order of
ranges that have the same `start`. -/
theorem buildSymbols_kept_perm (symbols : List Nat) (ranges ranges' : List pcRange)
    (coverPoints : List Nat × List Nat) (h : Heap)
    (hsym : symbols.Pairwise (fun a b => (h.symbols a).Start ≤ (h.symbols b).Start))
    (hr : ranges.Pairwise (fun a b => a.start ≤ b.start))
    (hr' : ranges'.Pairwise (fun a b => a.start ≤ b.start))
    (hp : ranges.Perm ranges') :
    (buildSymbols symbols ranges coverPoints h).1 =
      (buildSymbols symbols ranges' coverPoints h).1 := by
  have hb := attributePCs_bounds symbols coverPoints h
  have hsym' : symbols.Pairwise (fun a b =>
      ((attributePCs symbols coverPoints h).symbols a).Start ≤
        ((attributePCs symbols coverPoints h).symbols b).Start) := by
    refine hsym.imp ?_
    intro a b hab
    rw [(hb a).1, (hb b).1]
    exact hab
  have e1 : (buildSymbols symbols ranges coverPoints h).1 =
      (assignUnits symbols ranges (attributePCs symbols coverPoints h)).kept := rfl
  have e2 : (buildSymbols symbols ranges' coverPoints h).1 =
      (assignUnits symbols ranges' (attributePCs symbols coverPoints h)).kept := rfl
  rw [e1, e2, (assignUnits_spec symbols ranges _ hsym' hr).1,
    (assignUnits_spec symbols ranges' _ hsym' hr').1]
  apply List.filter_congr
  intro s _
  exact decide_eq_decide.2 (Retained_perm _ ranges ranges' hp s)

theorem keepUnits_heap (cleanPath : String → String × String) :
    ∀ (l : List Nat) (h : Heap) (kept : List Nat),
      (keepUnits cleanPath l h kept).2 = l.foldl (keepStep cleanPath) h := by
  intro l
  induction l with
  | nil => intro h kept; rfl
  | cons u rest ih =>
    intro h kept
    rw [keepUnits, List.foldl_cons]
    unfold keepStep
    by_cases hu : (h.units u).PCs.length = 0
    · rw [if_pos hu, if_pos hu]
      exact ih h kept
    · rw [if_neg hu, if_neg hu]
      exact ih _ _

theorem setUnitName_of_ne (h : Heap) (u0 u : Nat) (n p : String) (hu : u ≠ u0) :
    (h.setUnitName u0 n p).units u = h.units u := by
  unfold Heap.setUnitName
  simp [Function.update_noteq hu]

theorem setUnitName_comm (h : Heap) (u v : Nat) (n p n' p' : String) (huv : u ≠ v) :
    (h.setUnitName u n p).setUnitName v n' p' = (h.setUnitName v n' p').setUnitName u n p := by
  unfold Heap.setUnitName
  simp only [Function.update_noteq huv, Function.update_noteq (Ne.symm huv)]
  rw [Function.update_comm huv]

/-- The iterations of the loop over `allUnits` for two units can be exchanged. -/
theorem keepStep_comm (cleanPath : String → String × String) (h : Heap) (u v : Nat) :
    keepStep cleanPath (keepStep cleanPath h u) v =
      keepStep cleanPath (keepStep cleanPath h v) u := by
  by_cases huv : u = v
  · rw [huv]
  · have hvu : v ≠ u := Ne.symm huv
    unfold keepStep
    by_cases h1 : (h.units u).PCs.length = 0
    · rw [if_pos h1]
      by_cases h2 : (h.units v).PCs.length = 0
      · rw [if_pos h2, if_pos h1]
      · rw [if_neg h2]
        dsimp only
        rw [setUnitName_PCs, if_pos h1]
    · rw [if_neg h1]
      by_cases h2 : (h.units v).PCs.length = 0
      · rw [if_pos h2]
        dsimp only
        rw [setUnitName_PCs, if_pos h2, if_neg h1]
      · rw [if_neg h2]
        dsimp only
        rw [setUnitName_PCs, setUnitName_PCs, if_neg h2, if_neg h1,
          setUnitName_of_ne h u v _ _ hvu, setUnitName_of_ne h v u _ _ huv]
        exact setUnitName_comm h u v _ _ _ _ huv

/-- The heap left by the loop over `allUnits` does not depend on the order of `allUnits`. -/
theorem keepUnits_heap_perm (cleanPath : String → String × String) (l l' : List Nat)
    (hp : l.Perm l') (h : Heap) :
    (keepUnits cleanPath l h []).2 = (keepUnits cleanPath l' h []).2 := by
  rw [keepUnits_heap, keepUnits_heap]
  exact hp.foldl_eq' (fun x _ y _ z => keepStep_comm cleanPath z x y) h

/-- C14 (as amended): for two consumption orders of the same successful per-module results on
which the assembly succeeds, `Impl.CallbackPoints` is the same sequence, and `Impl.Units` lists,
in the order of consumption, the units that hold a PC. If distinct input symbols have distinct
`Start`, `Impl.Symbols` is the same sequence of symbol pointers; if moreover distinct input
ranges have distinct `start`, the two assemblies leave the same heap (every symbol and every
unit has the same fields) and the two `Impl.Units` are permutations of one another. -/
theorem makeDWARFUnsafe_order_independent (sortRanges : List pcRange → List pcRange)
    (hsort : IsRangeSort sortRanges)
    (cleanPath : String → String × String) (preciseCoverage : Bool)
    (results results' : List binResult) (hperm : results.Perm results') (h : Heap)
    (impl impl' : Impl) (h' h'' : Heap)
    (hok : makeDWARFUnsafe sortRanges cleanPath preciseCoverage results h = .ok (impl, h'))
    (hok' : makeDWARFUnsafe sortRanges cleanPath preciseCoverage results' h = .ok (impl', h'')) :
    impl.CallbackPoints = impl'.CallbackPoints ∧
    (impl.Units = (results.flatMap (fun r => r.units)).filter
        (fun u => decide ((h'.units u).PCs ≠ [])) ∧
      impl'.Units = (results'.flatMap (fun r => r.units)).filter
        (fun u => decide ((h''.units u).PCs ≠ []))) ∧
    ((∀ r ∈ results, ∀ s ∈ r.symbols, ∀ r' ∈ results, ∀ s' ∈ r'.symbols,
        (h.symbols s).Start = (h.symbols s').Start → s = s') →
      impl.Symbols = impl'.Symbols ∧
      ((∀ r ∈ results, ∀ rg ∈ r.ranges, ∀ r' ∈ results, ∀ rg' ∈ r'.ranges,
          rg.start = rg'.start → rg = rg') →
        h' = h'' ∧ impl.Units.Perm impl'.Units)) := by
  obtain ⟨a, hd, e1, e2, -, e4, e5, -, -⟩ :=
    makeDWARFUnsafe_ok sortRanges cleanPath preciseCoverage results h impl h' hok
  obtain ⟨a', hd', e1', e2', -, e4', e5', -, -⟩ :=
    makeDWARFUnsafe_ok sortRanges cleanPath preciseCoverage results' h impl' h'' hok'
  obtain ⟨d1, d2, d3, d4, d5⟩ := drain_ok results _ a hd
  obtain ⟨d1', d2', d3', d4', d5'⟩ := drain_ok results' _ a' hd'
  simp only [List.nil_append] at d1 d2 d3 d4 d5 d1' d2' d3' d4' d5'
  have p1 : a.allSymbols.Perm a'.allSymbols := by
    rw [d1, d1']; exact hperm.flatMap_right _
  have p2 : a.allCoverPoints.1.Perm a'.allCoverPoints.1 := by
    rw [d2, d2']; exact hperm.flatMap_right _
  have p3 : a.allCoverPoints.2.Perm a'.allCoverPoints.2 := by
    rw [d3, d3']; exact hperm.flatMap_right _
  have p4 : a.allRanges.Perm a'.allRanges := by
    rw [d4, d4']; exact hperm.flatMap_right _
  have p5 : a.allUnits.Perm a'.allUnits := by
    rw [d5, d5']; exact hperm.flatMap_right _
  have c1 := sortPCs_congr _ _ p2
  have c2 := sortPCs_congr _ _ p3
  have hunits : ∀ (l : List Nat) (B : Heap),
      (keepUnits cleanPath l B []).1 =
        l.filter (fun u => decide ((((keepUnits cleanPath l B []).2).units u).PCs ≠ [])) := by
    intro l B
    obtain ⟨k1, k2⟩ := keepUnits_spec cleanPath l B []
    rw [k2, List.nil_append]
    apply List.filter_congr
    intro u _
    rw [k1 u]
  refine ⟨by rw [e2, e2', c1], ⟨?_, ?_⟩, ?_⟩
  · rw [e4, e5, ← d5]
    exact hunits _ _
  · rw [e4', e5', ← d5']
    exact hunits _ _
  intro hinj
  have hinj' : ∀ s ∈ a.allSymbols, ∀ s' ∈ a.allSymbols,
      (h.symbols s).Start = (h.symbols s').Start → s = s' := by
    intro s hs s' hs'
    rw [d1, List.mem_flatMap] at hs hs'
    obtain ⟨r, hr, hsr⟩ := hs
    obtain ⟨r', hr', hsr'⟩ := hs'
    exact hinj r hr s hsr r' hr' s' hsr'
  have hS := sortSymbols_uniq_congr h _ _ p1 hinj'
  constructor
  · rw [e1, e1', ← hS, ← c1, ← c2]
    exact buildSymbols_kept_perm _ _ _ _ h (sortSymbols_sorted h _) (hsort _).2 (hsort _).2
      ((hsort _).1.trans (p4.trans (hsort _).1.symm))
  · intro hrinj
    have hmem : ∀ rg ∈ a.allRanges, ∃ r ∈ results, rg ∈ r.ranges := by
      intro rg hrg
      rw [d4, List.mem_flatMap] at hrg
      exact hrg
    have hR : sortRanges a.allRanges = sortRanges a'.allRanges := by
      refine @List.Perm.eq_of_sorted pcRange (fun x y => x.start ≤ y.start) _ _ ?_ (hsort _).2
        (hsort _).2 ((hsort _).1.trans (p4.trans (hsort _).1.symm))
      intro x y hx hy hxy hyx
      obtain ⟨r, hr, hxr⟩ := hmem x ((hsort _).1.mem_iff.1 hx)
      obtain ⟨r', hr', hyr⟩ := hmem y (p4.mem_iff.2 ((hsort _).1.mem_iff.1 hy))
      exact hrinj r hr x hxr r' hr' y hyr (le_antisymm hxy hyx)
    rw [← hS, ← hR, ← c1, ← c2] at e4' e5'
    constructor
    · rw [e5, e5']
      exact keepUnits_heap_perm cleanPath _ _ p5 _
    · obtain ⟨-, k2⟩ := keepUnits_spec cleanPath a.allUnits
        (buildSymbols (sortSymbols h (uniqSymbs h a.allSymbols [])) (sortRanges a.allRanges)
          (sortPCs a.allCoverPoints.1, sortPCs a.allCoverPoints.2) h).2 []
      obtain ⟨-, k2'⟩ := keepUnits_spec cleanPath a'.allUnits
        (buildSymbols (sortSymbols h (uniqSymbs h a.allSymbols [])) (sortRanges a.allRanges)
          (sortPCs a.allCoverPoints.1, sortPCs a.allCoverPoints.2) h).2 []
      rw [e4, e4', k2, k2', List.nil_append, List.nil_append]
      exact p5.filter _

theorem insertionSortRanges_isRangeSort : IsRangeSort insertionSortRanges := by
  intro l
  haveI : IsTotal pcRange (fun a b => a.start ≤ b.start) := ⟨fun a b => le_total _ _⟩
  haveI : IsTrans pcRange (fun a b => a.start ≤ b.start) :=
    ⟨fun a b c hab hbc => le_trans hab hbc⟩
  exact ⟨List.perm_insertionSort _ l, List.sorted_insertionSort _ l⟩

/-- C14 (counterexample): two modules whose symbols share the `Start` address `0x1000` give
`Impl.Symbols = [0]`, `Impl.Units = [0]` when consumed in one order and `Impl.Symbols = [1]`,
`Impl.Units = [1]` in the other; two modules at different addresses give
`Impl.Units = [0, 2]` in one order and `[2, 0]` in the other; and two modules whose ranges
share the `start` address `0x1000` give, with a stable sort, the same `Impl.Symbols = [0]`
whose symbol has the unit 0 and `Impl.Units = [0]` in one order, and the unit 1 and
`Impl.Units = [1]` in the other. -/
theorem makeDWARFUnsafe_order_dependent :
    (∃ impl h' impl' h'',
      makeDWARFUnsafe insertionSortRanges (fun n => (n, n)) true
        [orderResultA, orderResultB] orderHeap = .ok (impl, h') ∧
      makeDWARFUnsafe insertionSortRanges (fun n => (n, n)) true
        [orderResultB, orderResultA] orderHeap = .ok (impl', h'') ∧
      impl.Symbols = [0] ∧ impl'.Symbols = [1] ∧ impl.Units = [0] ∧ impl'.Units = [1]) ∧
    (∃ impl h' impl' h'',
      makeDWARFUnsafe insertionSortRanges (fun n => (n, n)) true
        [orderResultA, orderResultC] orderHeap = .ok (impl, h') ∧
      makeDWARFUnsafe insertionSortRanges (fun n => (n, n)) true
        [orderResultC, orderResultA] orderHeap = .ok (impl', h'') ∧
      impl.Symbols = impl'.Symbols ∧ impl.Units = [0, 2] ∧ impl'.Units = [2, 0]) ∧
    (∃ impl h' impl' h'',
      makeDWARFUnsafe insertionSortRanges (fun n => (n, n)) true
        [orderResultA, orderResultD] orderHeap = .ok (impl, h') ∧
      makeDWARFUnsafe insertionSortRanges (fun n => (n, n)) true
        [orderResultD, orderResultA] orderHeap = .ok (impl', h'') ∧
      impl.Symbols = [0] ∧ impl'.Symbols = [0] ∧
      (h'.symbols 0).Unit = some 0 ∧ (h''.symbols 0).Unit = some 1 ∧
      impl.Units = [0] ∧ impl'.Units = [1]) ∧
    [orderResultA, orderResultB].Perm [orderResultB, orderResultA] ∧
    [orderResultA, orderResultC].Perm [orderResultC, orderResultA] ∧
    [orderResultA, orderResultD].Perm [orderResultD, orderResultA] := by
  refine ⟨⟨_, _, _, _, rfl, rfl, by decide, by decide, by decide, by decide⟩,
    ⟨_, _, _, _, rfl, rfl, by decide, by decide, by decide⟩,
    ⟨_, _, _, _, rfl, rfl, by decide, by decide, by decide, by decide, by decide, by decide⟩,
    List.Perm.swap _ _ _, List.Perm.swap _ _ _, List.Perm.swap _ _ _⟩

theorem makeDWARFUnsafe_order_independent_witness :
    ∃ impl h' impl' h'',
      makeDWARFUnsafe insertionSortRanges (fun n => (n, n)) true
        [orderResultA, orderResultC] orderHeap = .ok (impl, h') ∧
      makeDWARFUnsafe insertionSortRanges (fun n => (n, n)) true
        [orderResultC, orderResultA] orderHeap = .ok (impl', h'') ∧
      impl.CallbackPoints = impl'.CallbackPoints ∧ impl.Symbols = impl'.Symbols ∧
      h' = h'' ∧ impl.Units.Perm impl'.Units ∧
      impl.Symbols = [0, 2] ∧ impl.Units = [0, 2] ∧ impl'.Units = [2, 0] := by
  refine ⟨_, _, _, _, rfl, rfl, ?_⟩
  have hw := makeDWARFUnsafe_order_independent insertionSortRanges
    insertionSortRanges_isRangeSort (fun n => (n, n)) true
    [orderResultA, orderResultC] [orderResultC, orderResultA] (List.Perm.swap _ _ _)
    orderHeap _ _ _ _ rfl rfl
  have hs := hw.2.2 (by decide)
  have hr := hs.2 (by decide)
  exact ⟨hw.1, hs.1, hr.1, hr.2, by decide, by decide, by decide⟩

/-! ## Rust ranges -/

theorem nextEnd_cons_same (A : Nat) (e : LineEntry) (later : List LineEntry)
    (he : e.Address = A) : nextEnd A (e :: later) = nextEnd A later := by
  unfold nextEnd
  rw [List.find?_cons_of_neg _ (by simpa using he)]

theorem nextEnd_cons_diff (A : Nat) (e : LineEntry) (later : List LineEntry)
    (he : e.Address ≠ A) : nextEnd A (e :: later) = e.Address := by
  unfold nextEnd
  rw [List.find?_cons_of_pos _ (by simpa using he)]

theorem rustRangesLoop_spec : ∀ (entries : List LineEntry) (startPC : Nat)
    (files : List String) (ret : List rustRange),
    (∀ e ∈ entries, e.Address ≠ 0) → (startPC = 0 → files = []) →
    rustRangesLoop entries startPC files ret =
      ret ++ files.map (fun file =>
        { start := startPC, end_ := nextEnd startPC entries, file := file }) ++
        rustRangesRef entries := by
  intro entries
  induction entries with
  | nil =>
    intro startPC files ret _ hf
    rw [rustRangesLoop]
    by_cases h0 : startPC = 0
    · rw [if_neg (by simpa using h0), hf h0]
      simp [rustRangesRef]
    · rw [if_pos h0]
      simp [rustRangesRef, nextEnd]
  | cons e rest ih =>
    intro startPC files ret hnz hf
    have hrest : ∀ e' ∈ rest, e'.Address ≠ 0 := fun e' he' => hnz e' (List.mem_cons_of_mem _ he')
    have he0 : e.Address ≠ 0 := hnz e (List.mem_cons_self _ _)
    rw [rustRangesLoop]
    by_cases hc : startPC = 0 ∨ e.Address ≠ startPC
    · rw [if_pos hc, ih _ _ _ hrest (fun h0 => absurd h0 he0)]
      by_cases h0 : startPC = 0
      · rw [hf h0]
        simp [rustRangesRef]
      · have hne : e.Address ≠ startPC := by
          rcases hc with h1 | h1
          · exact absurd h1 h0
          · exact h1
        rw [nextEnd_cons_diff startPC e rest hne]
        simp [rustRangesRef]
    · rw [if_neg hc]
      have heq : e.Address = startPC := by
        by_contra hne
        exact hc (Or.inr hne)
      rw [ih _ _ _ hrest (fun h0 => absurd (heq.trans h0) he0),
        nextEnd_cons_same startPC e rest heq]
      simp [rustRangesRef, heq]

/-- C15: the Rust range reconstruction equals its reference definition. For a line program
whose entries all have non-zero addresses, `rustRanges` returns one range per line entry, in
entry order; the entry with file `f` at address `A` yields `{A, B, f}` with `B` the address of
the first later entry whose address differs from `A`, or `{A, A+1, f}` (`A+1` as a `uint64`)
when no later entry differs. For the line program `[a@0x100, b@0x100, a@0x108, c@0x110]` the
result is `[{0x100,0x108,a}, {0x100,0x108,b}, {0x108,0x110,a}, {0x110,0x111,c}]`. -/
theorem rustRanges_eq_reference (entries : List LineEntry)
    (hnz : ∀ e ∈ entries, e.Address ≠ 0) :
    rustRanges entries = rustRangesRef entries ∧
    (rustRanges entries).length = entries.length ∧
    (rustRanges entries).map (fun r => (r.start, r.file)) =
      entries.map (fun e => (e.Address, e.File)) ∧
    rustRanges rustFixture =
      [{ start := 0x100, end_ := 0x108, file := "a.rs" },
       { start := 0x100, end_ := 0x108, file := "b.rs" },
       { start := 0x108, end_ := 0x110, file := "a.rs" },
       { start := 0x110, end_ := 0x111, file := "c.rs" }] := by
  have hmain : rustRanges entries = rustRangesRef entries := by
    unfold rustRanges
    rw [rustRangesLoop_spec entries 0 [] [] hnz (fun _ => rfl)]
    simp
  have hlen : ∀ l : List LineEntry, (rustRangesRef l).length = l.length := by
    intro l
    induction l with
    | nil => rfl
    | cons e rest ih => simp [rustRangesRef, ih]
  have hmap : ∀ l : List LineEntry, (rustRangesRef l).map (fun r => (r.start, r.file)) =
      l.map (fun e => (e.Address, e.File)) := by
    intro l
    induction l with
    | nil => rfl
    | cons e rest ih => simp [rustRangesRef, ih]
  refine ⟨hmain, ?_, ?_, by decide⟩
  · rw [hmain, hlen]
  · rw [hmain, hmap]

theorem rustRanges_eq_reference_witness :
    (∀ e ∈ rustFixture, e.Address ≠ 0) ∧ rustRanges rustFixture = rustRangesRef rustFixture :=
  ⟨by decide, (rustRanges_eq_reference rustFixture (by decide)).1⟩

theorem rustRangesRef_covers : ∀ (entries : List LineEntry),
    entries.Pairwise (fun a b => a.Address ≤ b.Address) →
    (∀ e ∈ entries, e.Address + 1 < u64) →
    ∀ e ∈ entries, Covered (rustRangesRef entries) e := by
  intro entries
  induction entries with
  | nil => intro _ _ e he; cases he
  | cons x rest ih =>
    intro hmono hmax e he
    obtain ⟨hx, hrest⟩ := List.pairwise_cons.1 hmono
    rcases List.mem_cons.1 he with rfl | he'
    · refine ⟨_, List.mem_cons_self _ _, rfl, le_refl _, ?_⟩
      show e.Address < nextEnd e.Address rest
      unfold nextEnd
      cases hf : rest.find? (fun e' => e'.Address != e.Address) with
      | none =>
        have := hmax e (List.mem_cons_self _ _)
        dsimp only
        rw [Nat.mod_eq_of_lt this]
        omega
      | some e' =>
        have h1 : e'.Address ≠ e.Address := by simpa using List.find?_some hf
        have h2 := hx e' (List.mem_of_find?_eq_some hf)
        dsimp only
        omega
    · obtain ⟨r, hr, hc⟩ := ih hrest (fun e' he'' => hmax e' (List.mem_cons_of_mem _ he'')) e he'
      exact ⟨r, List.mem_cons_of_mem _ hr, hc⟩

/-- C16 (amended): for every line program whose addresses are non-zero, non-decreasing and
below `2^64 - 1`, every line entry's address lies inside at least one emitted range
`[start, end)` whose file is that entry's file. -/
theorem rustRanges_covers (entries : List LineEntry)
    (hnz : ∀ e ∈ entries, e.Address ≠ 0)
    (hmono : entries.Pairwise (fun a b => a.Address ≤ b.Address))
    (hmax : ∀ e ∈ entries, e.Address + 1 < u64) :
    ∀ e ∈ entries, Covered (rustRanges entries) e := by
  have hmain : rustRanges entries = rustRangesRef entries := by
    unfold rustRanges
    rw [rustRangesLoop_spec entries 0 [] [] hnz (fun _ => rfl)]
    simp
  rw [hmain]
  exact rustRangesRef_covers entries hmono hmax

theorem rustRanges_covers_witness :
    ((∀ e ∈ rustFixture, e.Address ≠ 0) ∧
      rustFixture.Pairwise (fun a b => a.Address ≤ b.Address) ∧
      (∀ e ∈ rustFixture, e.Address + 1 < u64)) ∧
    ∀ e ∈ rustFixture, Covered (rustRanges rustFixture) e :=
  ⟨⟨by decide, by decide, by decide⟩,
    rustRanges_covers rustFixture (by decide) (by decide) (by decide)⟩

/-- C16 (counterexample): three line programs with an entry that no emitted range of its file
contains. A single entry at address 0 yields no range at all; in `[a@0x200, b@0x100]` the
range of `a` is `{0x200, 0x100, a}`, which is empty; a single entry at `2^64 - 1` yields
`{2^64 - 1, 0, a}`, which is empty. -/
theorem rustRanges_uncovered :
    (rustRanges [{ Address := 0, File := "a.rs" }] = [] ∧
      ¬ Covered (rustRanges [{ Address := 0, File := "a.rs" }]) { Address := 0, File := "a.rs" }) ∧
    (rustRanges [{ Address := 0x200, File := "a.rs" }, { Address := 0x100, File := "b.rs" }] =
        [{ start := 0x200, end_ := 0x100, file := "a.rs" },
         { start := 0x100, end_ := 0x101, file := "b.rs" }] ∧
      ¬ Covered
        (rustRanges [{ Address := 0x200, File := "a.rs" }, { Address := 0x100, File := "b.rs" }])
        { Address := 0x200, File := "a.rs" }) ∧
    (rustRanges [{ Address := 0xffffffffffffffff, File := "a.rs" }] =
        [{ start := 0xffffffffffffffff, end_ := 0, file := "a.rs" }] ∧
      ¬ Covered (rustRanges [{ Address := 0xffffffffffffffff, File := "a.rs" }])
        { Address := 0xffffffffffffffff, File := "a.rs" }) := by
  refine ⟨⟨by decide, by decide⟩, ⟨by decide, by decide⟩, ⟨by decide, by decide⟩⟩

/-! ## Compiler version check -/

/-- C17: `isKcovBrokenInCompiler` on the documented fixtures: true for "gcc 13.2.0", false for
"gcc 14.0.1", false for "clang 17" and true for "g++ 11.4.0". -/
theorem isKcovBrokenInCompiler_fixtures :
    isKcovBrokenInCompiler "gcc 13.2.0" = true ∧
    isKcovBrokenInCompiler "gcc 14.0.1" = false ∧
    isKcovBrokenInCompiler "clang 17" = false ∧
    isKcovBrokenInCompiler "g++ 11.4.0" = true := by
  refine ⟨by decide, by decide, by decide, by decide⟩

theorem dropDigits_spec : ∀ cs : List Char,
    ∃ ds, (∀ c ∈ ds, c.isDigit = true) ∧ cs = ds ++ dropDigits cs := by
  intro cs
  induction cs with
  | nil => exact ⟨[], by simp, rfl⟩
  | cons c rest ih =>
    rw [dropDigits]
    by_cases hc : c.isDigit = true
    · rw [if_pos hc]
      obtain ⟨ds, h1, h2⟩ := ih
      refine ⟨c :: ds, ?_, ?_⟩
      · intro x hx
        rcases List.mem_cons.1 hx with rfl | hx
        · exact hc
        · exact h1 x hx
      · rw [List.cons_append, ← h2]
    · rw [if_neg hc]
      exact ⟨[], by simp, rfl⟩

theorem matchDigits_some (cs r : List Char) (h : matchDigits cs = some r) :
    ∃ ds, IsDigits ds ∧ cs = ds ++ r := by
  cases cs with
  | nil => simp [matchDigits] at h
  | cons c rest =>
    rw [matchDigits] at h
    split_ifs at h with hc
    cases h
    obtain ⟨ds, h1, h2⟩ := dropDigits_spec rest
    refine ⟨c :: ds, ⟨by simp, ?_⟩, ?_⟩
    · intro x hx
      rcases List.mem_cons.1 hx with rfl | hx
      · exact hc
      · exact h1 x hx
    · rw [List.cons_append, ← h2]

theorem matchVersionTail_true (cs : List Char) (h : matchVersionTail cs = true) :
    ∃ m p post, cs = '.' :: m ++ '.' :: p ++ post ∧ IsDigits m ∧ IsDigits p := by
  cases cs with
  | nil => simp [matchVersionTail] at h
  | cons c rest =>
    rw [matchVersionTail] at h
    split_ifs at h with hc
    subst hc
    cases h1 : matchDigits rest with
    | none => rw [h1] at h; simp at h
    | some r =>
      rw [h1] at h
      cases r with
      | nil => simp at h
      | cons c' rest' =>
        simp only [Bool.and_eq_true, decide_eq_true_eq] at h
        obtain ⟨hc', h2⟩ := h
        subst hc'
        obtain ⟨m, hm, e1⟩ := matchDigits_some rest _ h1
        cases h3 : matchDigits rest' with
        | none => rw [h3] at h2; simp at h2
        | some post =>
          obtain ⟨p, hp, e2⟩ := matchDigits_some rest' _ h3
          refine ⟨m, p, post, ?_, hm, hp⟩
          rw [e1, e2]
          simp

theorem matchVersion_some (cs g : List Char) (h : matchVersion cs = some g) :
    IsVersionAt cs := by
  match cs, h with
  | [], h => simp [matchVersion] at h
  | [_], h => simp [matchVersion] at h
  | sp :: d1 :: rest, h =>
    unfold matchVersion at h
    dsimp only at h
    by_cases hc : sp = ' ' ∧ d1.isDigit = true
    · rw [if_pos hc] at h
      obtain ⟨hsp, hd1⟩ := hc
      subst hsp
      cases rest with
      | nil => simp at h
      | cons d2 rest2 =>
        dsimp only at h
        by_cases h2 : d2.isDigit = true ∧ matchVersionTail rest2 = true
        · obtain ⟨m, p, post, e, hm, hp⟩ := matchVersionTail_true _ h2.2
          refine ⟨[d1, d2], m, p, post, ?_, ⟨by simp, ?_⟩, by simp, hm, hp⟩
          · rw [e]; simp
          · intro c hc
            simp only [List.mem_cons, List.mem_singleton, List.not_mem_nil, or_false] at hc
            rcases hc with rfl | rfl
            · exact hd1
            · exact h2.1
        · rw [if_neg h2] at h
          by_cases h3 : matchVersionTail (d2 :: rest2) = true
          · obtain ⟨m, p, post, e, hm, hp⟩ := matchVersionTail_true _ h3
            refine ⟨[d1], m, p, post, ?_, ⟨by simp, ?_⟩, by simp, hm, hp⟩
            · rw [e]; simp
            · intro c hc
              rw [List.mem_singleton] at hc
              subst hc
              exact hd1
          · rw [if_neg h3] at h
            cases h
    · rw [if_neg hc] at h
      cases h

theorem matchRest_some : ∀ (cs g : List Char), matchRest cs = some g →
    ∃ mid suf, cs = mid ++ suf ∧ IsVersionAt suf := by
  intro cs
  induction cs with
  | nil => intro g h; simp [matchRest] at h
  | cons c rest ih =>
    intro g h
    rw [matchRest] at h
    split_ifs at h with hc
    · cases h1 : matchRest rest with
      | some g' =>
        obtain ⟨mid, suf, e, hv⟩ := ih g' h1
        exact ⟨c :: mid, suf, by rw [e]; rfl, hv⟩
      | none =>
        rw [h1] at h
        exact ⟨[], c :: rest, rfl, matchVersion_some _ g h⟩
    · exact ⟨[], c :: rest, rfl, matchVersion_some _ g h⟩

theorem gcc_toList : "gcc".toList = ['g', 'c', 'c'] := by decide

theorem GCC_toList : "GCC".toList = ['G', 'C', 'C'] := by decide

theorem gpp_toList : "g++".toList = ['g', '+', '+'] := by decide

theorem isPrefixOf_drop (tok cs : List Char) (h : tok.isPrefixOf cs = true) :
    cs = tok ++ cs.drop tok.length := by
  obtain ⟨t, rfl⟩ := List.isPrefixOf_iff_prefix.1 h
  simp

theorem vendorPrefix_some (cs r : List Char) (h : vendorPrefix cs = some r) :
    ∃ tok, IsVendorToken tok ∧ cs = tok ++ r := by
  unfold vendorPrefix at h
  split_ifs at h with h1 h2 h3
  · cases h
    exact ⟨_, Or.inl rfl, by simpa [gcc_toList] using isPrefixOf_drop _ cs h1⟩
  · cases h
    exact ⟨_, Or.inr (Or.inl rfl), by simpa [GCC_toList] using isPrefixOf_drop _ cs h2⟩
  · cases h
    exact ⟨_, Or.inr (Or.inr rfl), by simpa [gpp_toList] using isPrefixOf_drop _ cs h3⟩

theorem vendorPrefix_append (tok X : List Char) (htok : IsVendorToken tok) :
    vendorPrefix (tok ++ X) = some X := by
  rcases htok with rfl | rfl | rfl
  · simp [vendorPrefix, gcc_toList]
  · simp [vendorPrefix, gcc_toList, GCC_toList]
  · simp [vendorPrefix, gcc_toList, GCC_toList, gpp_toList]

theorem gccVersionRE_some : ∀ (cs g : List Char), gccVersionRE cs = some g →
    ∃ pre tok mid suf, cs = pre ++ tok ++ mid ++ suf ∧ IsVendorToken tok ∧ IsVersionAt suf := by
  intro cs
  induction cs with
  | nil => intro g h; simp [gccVersionRE] at h
  | cons c rest ih =>
    intro g h
    rw [gccVersionRE] at h
    cases h1 : (vendorPrefix (c :: rest)).bind matchRest with
    | some g' =>
      obtain ⟨r, hr, hm⟩ := Option.bind_eq_some.1 h1
      obtain ⟨tok, htok, e1⟩ := vendorPrefix_some _ _ hr
      obtain ⟨mid, suf, e2, hv⟩ := matchRest_some r g' hm
      refine ⟨[], tok, mid, suf, ?_, htok, hv⟩
      rw [e1, e2]
      simp
    | none =>
      rw [h1] at h
      obtain ⟨pre, tok, mid, suf, e, htok, hv⟩ := ih g h
      refine ⟨c :: pre, tok, mid, suf, ?_, htok, hv⟩
      rw [e]
      simp

theorem gccRE_true_iff : ∀ cs : List Char,
    gccRE cs = true ↔ ∃ tok, IsVendorToken tok ∧ tok <:+: cs := by
  intro cs
  induction cs with
  | nil =>
    simp only [gccRE, Bool.false_eq_true, false_iff]
    rintro ⟨tok, htok, hin⟩
    have : tok = [] := List.eq_nil_of_infix_nil hin
    rcases htok with h | h | h <;> rw [this] at h <;> exact absurd h (by decide)
  | cons c rest ih =>
    rw [gccRE, Bool.or_eq_true, ih]
    constructor
    · rintro (h | ⟨tok, htok, hin⟩)
      · obtain ⟨r, hr⟩ := Option.isSome_iff_exists.1 h
        obtain ⟨tok, htok, e⟩ := vendorPrefix_some _ _ hr
        exact ⟨tok, htok, ⟨[], r, by rw [e]; simp⟩⟩
      · exact ⟨tok, htok, hin.trans (List.suffix_cons c rest).isInfix⟩
    · rintro ⟨tok, htok, hin⟩
      rcases List.infix_cons_iff.1 hin with hpre | hin'
      · left
        obtain ⟨t, ht⟩ := hpre
        rw [← ht, vendorPrefix_append tok t htok]
        rfl
      · exact Or.inr ⟨tok, htok, hin'⟩

theorem dropDigits_append_dot (ds X : List Char) (hds : ∀ c ∈ ds, c.isDigit = true) :
    dropDigits (ds ++ '.' :: X) = '.' :: X := by
  induction ds with
  | nil =>
    rw [List.nil_append, dropDigits, if_neg (by decide)]
  | cons c rest ih =>
    rw [List.cons_append, dropDigits, if_pos (hds c (List.mem_cons_self _ _))]
    exact ih (fun x hx => hds x (List.mem_cons_of_mem _ hx))

theorem matchDigits_append_dot (m X : List Char) (hm : IsDigits m) :
    matchDigits (m ++ '.' :: X) = some ('.' :: X) := by
  obtain ⟨hne, hd⟩ := hm
  cases m with
  | nil => exact absurd rfl hne
  | cons c rest =>
    rw [List.cons_append, matchDigits, if_pos (hd c (List.mem_cons_self _ _)),
      dropDigits_append_dot rest X (fun x hx => hd x (List.mem_cons_of_mem _ hx))]

theorem matchDigits_isSome (p X : List Char) (hp : IsDigits p) :
    (matchDigits (p ++ X)).isSome = true := by
  obtain ⟨hne, hd⟩ := hp
  cases p with
  | nil => exact absurd rfl hne
  | cons c rest =>
    rw [List.cons_append, matchDigits, if_pos (hd c (List.mem_cons_self _ _))]
    rfl

theorem matchVersionTail_version (m p X : List Char) (hm : IsDigits m) (hp : IsDigits p) :
    matchVersionTail ('.' :: (m ++ '.' :: (p ++ X))) = true := by
  rw [matchVersionTail, if_pos rfl, matchDigits_append_dot m _ hm]
  simp [matchDigits_isSome p X hp]

theorem matchVersion_version (M m p X : List Char) (hM : IsDigits M) (hM2 : M.length ≤ 2)
    (hm : IsDigits m) (hp : IsDigits p) :
    matchVersion (' ' :: (M ++ '.' :: (m ++ '.' :: (p ++ X)))) = some M := by
  obtain ⟨hne, hd⟩ := hM
  have htail := matchVersionTail_version m p X hm hp
  match M, hne, hd, hM2 with
  | [], hne, _, _ => exact absurd rfl hne
  | [d1], _, hd, _ =>
    have h1 : d1.isDigit = true := hd d1 (List.mem_singleton_self _)
    show matchVersion (' ' :: d1 :: '.' :: (m ++ '.' :: (p ++ X))) = some [d1]
    unfold matchVersion
    dsimp only
    rw [if_pos ⟨rfl, h1⟩, if_neg (fun hc => absurd hc.1 (by decide)), if_pos htail]
  | [d1, d2], _, hd, _ =>
    have h1 : d1.isDigit = true := hd d1 (List.mem_cons_self _ _)
    have h2 : d2.isDigit = true := hd d2 (List.mem_cons_of_mem _ (List.mem_singleton_self _))
    show matchVersion (' ' :: d1 :: d2 :: '.' :: (m ++ '.' :: (p ++ X))) = some [d1, d2]
    unfold matchVersion
    dsimp only
    rw [if_pos ⟨rfl, h1⟩, if_pos ⟨h2, htail⟩]
  | _ :: _ :: _ :: _, _, _, h3 => simp at h3

theorem matchVersion_head_ne (c : Char) (X : List Char) (hc : c ≠ ' ') :
    matchVersion (c :: X) = none := by
  cases X with
  | nil => rfl
  | cons d rest =>
    unfold matchVersion
    dsimp only
    rw [if_neg (fun h => hc h.1)]

theorem matchRest_none : ∀ cs : List Char,
    (∀ suf, suf <:+ cs → matchVersion suf = none) → matchRest cs = none := by
  intro cs
  induction cs with
  | nil => intro _; rfl
  | cons c rest ih =>
    intro h
    have h1 := ih (fun suf hs => h suf (hs.trans (List.suffix_cons c rest)))
    have h2 := h (c :: rest) (List.suffix_refl _)
    rw [matchRest, h1, h2]
    simp

theorem matchVersion_none_of_suffix (A rest : List Char) (hA : ∀ c ∈ A, c ≠ ' ')
    (hrest : ∀ suf, suf <:+ rest → matchVersion suf = none) :
    ∀ suf, suf <:+ A ++ rest → matchVersion suf = none := by
  induction A with
  | nil => simpa using hrest
  | cons a A ih =>
    intro suf hs
    rw [List.cons_append, List.suffix_cons_iff] at hs
    rcases hs with rfl | hs
    · exact matchVersion_head_ne a _ (hA a (List.mem_cons_self _ _))
    · exact ih (fun c hc => hA c (List.mem_cons_of_mem _ hc)) suf hs

theorem isDigit_ne_space (c : Char) (hc : c.isDigit = true) : c ≠ ' ' := by
  rintro rfl
  exact absurd hc (by decide)

theorem gccVersionRE_of_prefix (cs X g : List Char) (hv : vendorPrefix cs = some X)
    (hr : matchRest X = some g) : gccVersionRE cs = some g := by
  cases cs with
  | nil => simp [vendorPrefix] at hv
  | cons c rest =>
    rw [gccVersionRE, hv]
    simp [hr]

theorem atoi_digits (M : List Char) (hM : IsDigits M) : atoi M = some (decimal M) := by
  unfold atoi
  rw [if_pos]
  exact ⟨hM.1, List.all_eq_true.2 hM.2⟩

/-- C18 (amended): for a version string that consists of a vendor token (`gcc`, `GCC` or
`g++`), a space, a version `M.m.p` whose major `M` has one or two digits, and further text in
which no space-preceded version `D.d.d` starts, `isKcovBrokenInCompiler` returns true iff
`M < 14`. -/
theorem isKcovBrokenInCompiler_major_rule (tok M m p rest : List Char)
    (htok : IsVendorToken tok) (hM : IsDigits M) (hM2 : M.length ≤ 2)
    (hm : IsDigits m) (hp : IsDigits p)
    (hrest : ∀ suf, suf <:+ rest → ¬ IsVersionAt suf) :
    isKcovBrokenInCompiler (String.mk (tok ++ ' ' :: M ++ '.' :: m ++ '.' :: p ++ rest)) = true ↔
      decimal M < 14 := by
  have hcs : tok ++ ' ' :: M ++ '.' :: m ++ '.' :: p ++ rest =
      tok ++ ' ' :: (M ++ '.' :: (m ++ '.' :: (p ++ rest))) := by simp
  have hT : M ++ '.' :: (m ++ '.' :: (p ++ rest)) = (M ++ '.' :: (m ++ '.' :: p)) ++ rest := by
    simp
  have hno : ∀ suf, suf <:+ rest → matchVersion suf = none := by
    intro suf hs
    cases hv : matchVersion suf with
    | none => rfl
    | some g => exact absurd (matchVersion_some suf g hv) (hrest suf hs)
  have hA : ∀ c ∈ M ++ '.' :: (m ++ '.' :: p), c ≠ ' ' := by
    intro c hc
    simp only [List.mem_append, List.mem_cons] at hc
    rcases hc with h1 | rfl | h1 | rfl | h1
    · exact isDigit_ne_space c (hM.2 c h1)
    · decide
    · exact isDigit_ne_space c (hm.2 c h1)
    · decide
    · exact isDigit_ne_space c (hp.2 c h1)
  have hrestNone : matchRest (M ++ '.' :: (m ++ '.' :: (p ++ rest))) = none := by
    rw [hT]
    exact matchRest_none _ (matchVersion_none_of_suffix _ rest hA hno)
  have hmr : matchRest (' ' :: (M ++ '.' :: (m ++ '.' :: (p ++ rest)))) = some M := by
    rw [matchRest, if_pos (by decide), hrestNone]
    exact matchVersion_version M m p rest hM hM2 hm hp
  have hfind : gccVersionRE (tok ++ ' ' :: (M ++ '.' :: (m ++ '.' :: (p ++ rest)))) = some M :=
    gccVersionRE_of_prefix _ _ _ (vendorPrefix_append tok _ htok) hmr
  have hre : gccRE (tok ++ ' ' :: (M ++ '.' :: (m ++ '.' :: (p ++ rest)))) = true :=
    (gccRE_true_iff _).2 ⟨tok, htok, List.infix_append' [] tok _⟩
  unfold isKcovBrokenInCompiler
  show (if ¬ gccRE (tok ++ ' ' :: M ++ '.' :: m ++ '.' :: p ++ rest) = true then false
    else match gccVersionRE (tok ++ ' ' :: M ++ '.' :: m ++ '.' :: p ++ rest) with
      | some g => match atoi g with
        | some version => decide (version < 14)
        | none => true
      | none => true) = true ↔ decimal M < 14
  rw [hcs, hre, hfind]
  simp [atoi_digits M hM]

theorem isKcovBrokenInCompiler_major_rule_witness :
    isKcovBrokenInCompiler
        (String.mk ("gcc".toList ++ ' ' :: "13".toList ++ '.' :: "2".toList ++ '.' :: "0".toList
          ++ [])) = true ↔
      decimal "13".toList < 14 :=
  isKcovBrokenInCompiler_major_rule "gcc".toList "13".toList "2".toList "0".toList []
    (Or.inl rfl) (by decide) (by decide) (by decide) (by decide)
    (fun suf hs hv => by
      have hnil : suf = [] := List.eq_nil_of_suffix_nil hs
      obtain ⟨D, m, p, post, e, -⟩ := hv
      rw [hnil] at e
      simp at e)

/-- C18 (counterexample): the strings `gcc 14.0.1 9.0.0` and `gcc 13.2.0 14.0.0` have the
stated form, with majors 14 and 13 and the further text ` 9.0.0` resp. ` 14.0.0`; the greedy
`.*` hands the last version to the capture group, so the results are true for major 14 and
false for major 13. -/
theorem isKcovBrokenInCompiler_last_version_wins :
    ("gcc 14.0.1 9.0.0".toList =
        "gcc".toList ++ ' ' :: "14".toList ++ '.' :: "0".toList ++ '.' :: "1".toList
          ++ " 9.0.0".toList ∧
      isKcovBrokenInCompiler "gcc 14.0.1 9.0.0" = true ∧ ¬ decimal "14".toList < 14) ∧
    ("gcc 13.2.0 14.0.0".toList =
        "gcc".toList ++ ' ' :: "13".toList ++ '.' :: "2".toList ++ '.' :: "0".toList
          ++ " 14.0.0".toList ∧
      isKcovBrokenInCompiler "gcc 13.2.0 14.0.0" = false ∧ decimal "13".toList < 14) := by
  refine ⟨⟨by decide, by decide, by decide⟩, ⟨by decide, by decide, by decide⟩⟩

/-- C19: the fallback of `isKcovBrokenInCompiler`. A version string that contains none of the
substrings `gcc`, `GCC`, `g++` gives false; a string that contains one of them but in which no
vendor token is followed, anywhere later, by a space-preceded version `D.d.d` (`D` one or two
digits) gives true. -/
theorem isKcovBrokenInCompiler_fallback (versionStr : String) :
    ((¬ "gcc".toList <:+: versionStr.toList ∧ ¬ "GCC".toList <:+: versionStr.toList ∧
        ¬ "g++".toList <:+: versionStr.toList) →
      isKcovBrokenInCompiler versionStr = false) ∧
    ((∃ tok, IsVendorToken tok ∧ tok <:+: versionStr.toList) →
      (¬ ∃ pre tok mid suf, versionStr.toList = pre ++ tok ++ mid ++ suf ∧
        IsVendorToken tok ∧ IsVersionAt suf) →
      isKcovBrokenInCompiler versionStr = true) := by
  constructor
  · rintro ⟨h1, h2, h3⟩
    have hre : ¬ gccRE versionStr.toList = true := by
      rw [gccRE_true_iff]
      rintro ⟨tok, htok | htok | htok, hin⟩
      · exact h1 (htok ▸ hin)
      · exact h2 (htok ▸ hin)
      · exact h3 (htok ▸ hin)
    unfold isKcovBrokenInCompiler
    rw [if_pos hre]
  · intro hv hno
    have hre : gccRE versionStr.toList = true := (gccRE_true_iff _).2 hv
    have hfind : gccVersionRE versionStr.toList = none := by
      cases hf : gccVersionRE versionStr.toList with
      | none => rfl
      | some g => exact absurd (gccVersionRE_some _ g hf) hno
    unfold isKcovBrokenInCompiler
    rw [if_neg (by simpa using hre), hfind]

theorem isKcovBrokenInCompiler_fallback_witness :
    isKcovBrokenInCompiler "clang 17" = false ∧ isKcovBrokenInCompiler "gcc" = true :=
  ⟨(isKcovBrokenInCompiler_fallback "clang 17").1 ⟨by decide, by decide, by decide⟩,
    (isKcovBrokenInCompiler_fallback "gcc").2 ⟨"gcc".toList, Or.inl rfl, List.infix_refl _⟩
      (by
        rintro ⟨pre, tok, mid, suf, e, -, D, m, p, post, e2, -⟩
        have hmem : ' ' ∈ "gcc".toList := by
          rw [e, e2]
          simp
        exact absurd hmem (by decide))⟩

/-! ## The per-module tasks -/

theorem drain_error : ∀ (results : List binResult) (a0 : Aggregate) (r : binResult) (e : String),
    r ∈ results → r.err = some e → ∃ e', drain results a0 = .error e' := by
  intro results
  induction results with
  | nil => intro a0 r e hr; cases hr
  | cons x rest ih =>
    intro a0 r e hr he
    rw [drain]
    cases hx : x.err with
    | some e' => exact ⟨e', rfl⟩
    | none =>
      dsimp only
      rcases List.mem_cons.1 hr with rfl | hr'
      · rw [he] at hx
        cases hx
      · exact ih _ r e hr' he

theorem makeDWARFUnsafe_error (sortRanges : List pcRange → List pcRange)
    (cleanPath : String → String × String) (pc : Bool) (results : List binResult) (h : Heap)
    (r : binResult) (e : String) (hr : r ∈ results) (he : r.err = some e) :
    ∃ e', makeDWARFUnsafe sortRanges cleanPath pc results h = .error e' := by
  obtain ⟨e', hd⟩ := drain_error results
    { allSymbols := [], allCoverPoints := ([], []), allRanges := [], allUnits := [] } r e hr he
  exact ⟨e', by unfold makeDWARFUnsafe; rw [hd]⟩

/-- The task of the main image when the symbol reader leaves `tracePC` empty, on an
architecture with a fast decoder. -/
theorem moduleTask_no_tracePC (params : dwarfParams)
    (objdump : KernelModule → Except String (List Nat × List Nat)) (module : KernelModule)
    (arch : Arch) (symbols : List Nat) (info : symbolInfo)
    (hname : module.Name = "") (harch : arches params.targetArch = some arch)
    (hsym : params.readSymbols module = .ok (symbols, info)) (htrace : info.tracePC = []) :
    moduleTask params objdump module =
      some (binResult.failed
        (match params.readTextData module with
          | .error e => e
          | .ok _ => "no __sanitizer_cov_trace_pc symbol in the object file")) := by
  unfold moduleTask processModule
  rw [hsym]
  dsimp only
  rw [harch]
  dsimp only
  rw [if_pos hname]
  cases hdata : params.readTextData module with
  | error e => rfl
  | ok data =>
    dsimp only
    unfold readCoverPoints
    rw [if_pos (by rw [htrace]; rfl)]

/-- C20 (amended): for the main image on an architecture with a fast decoder, if the symbol
reader succeeds but leaves `tracePC` empty, building the backend fails, in whatever order the
results are received. The task of the main image fails with the error of `readTextData` or,
when the text is read, with `no __sanitizer_cov_trace_pc symbol in the object file`; for a
kernel without further modules this is the error of the build. -/
theorem makeDWARFUnsafe_no_tracePC (params : dwarfParams)
    (objdump : KernelModule → Except String (List Nat × List Nat))
    (sortRanges : List pcRange → List pcRange) (cleanPath : String → String × String)
    (modules : List KernelModule) (results : List binResult) (h : Heap)
    (module : KernelModule) (arch : Arch) (symbols : List Nat) (info : symbolInfo)
    (hres : (results.map some).Perm (modules.map (moduleTask params objdump)))
    (hmem : module ∈ modules)
    (hname : module.Name = "") (harch : arches params.targetArch = some arch)
    (hsym : params.readSymbols module = .ok (symbols, info)) (htrace : info.tracePC = []) :
    (∃ e, makeDWARFUnsafe sortRanges cleanPath (preciseCoverage params modules) results h
        = .error e) ∧
    (modules = [module] → ∀ data, params.readTextData module = .ok data →
      makeDWARFUnsafe sortRanges cleanPath (preciseCoverage params modules) results h
        = .error "no __sanitizer_cov_trace_pc symbol in the object file") := by
  have htask := moduleTask_no_tracePC params objdump module arch symbols info hname harch
    hsym htrace
  constructor
  · have hin : some (binResult.failed
        (match params.readTextData module with
          | .error e => e
          | .ok _ => "no __sanitizer_cov_trace_pc symbol in the object file"))
        ∈ results.map some := by
      rw [hres.mem_iff, List.mem_map]
      exact ⟨module, hmem, htask⟩
    obtain ⟨r, hr, hr'⟩ := List.mem_map.1 hin
    cases hr'
    exact makeDWARFUnsafe_error sortRanges cleanPath _ results h _ _ hr rfl
  · intro hone data hdata
    rw [hdata] at htask
    rw [hone, List.map_singleton, htask] at hres
    have hres' : results.map some =
        [some (binResult.failed "no __sanitizer_cov_trace_pc symbol in the object file")] :=
      List.perm_singleton.1 hres
    have hresults : results =
        [binResult.failed "no __sanitizer_cov_trace_pc symbol in the object file"] := by
      match results, hres' with
      | [r], h1 =>
        simp only [List.map_cons, List.map_nil, List.cons.injEq, Option.some.injEq,
          and_true] at h1
        rw [h1]
    rw [hresults]
    rfl

theorem makeDWARFUnsafe_no_tracePC_witness :
    (∃ e, makeDWARFUnsafe insertionSortRanges (fun n => (n, n))
        (preciseCoverage noKcovParams [mainImage])
        [binResult.failed "no __sanitizer_cov_trace_pc symbol in the object file"] fixtureHeap
        = .error e) ∧
    ([mainImage] = [mainImage] → ∀ data, noKcovParams.readTextData mainImage = .ok data →
      makeDWARFUnsafe insertionSortRanges (fun n => (n, n))
        (preciseCoverage noKcovParams [mainImage])
        [binResult.failed "no __sanitizer_cov_trace_pc symbol in the object file"] fixtureHeap
        = .error "no __sanitizer_cov_trace_pc symbol in the object file") :=
  makeDWARFUnsafe_no_tracePC noKcovParams (fun _ => .ok ([], [])) insertionSortRanges
    (fun n => (n, n)) [mainImage]
    [binResult.failed "no __sanitizer_cov_trace_pc symbol in the object file"] fixtureHeap
    mainImage amd64 [] _ (List.Perm.refl _) (List.mem_singleton_self _) rfl rfl rfl rfl

/-- C20 (counterexample): an AMD64 main image whose symbol reader succeeds with an empty
`tracePC`. The task of the main image sends the error of `readCoverPoints`, the build fails
with `no __sanitizer_cov_trace_pc symbol in the object file`, and this message does not
mention `CONFIG_KCOV`. -/
theorem makeDWARFUnsafe_no_tracePC_message :
    mainImage.Name = "" ∧ (arches noKcovParams.targetArch).isSome = true ∧
    moduleTask noKcovParams (fun _ => .ok ([], [])) mainImage =
      some (binResult.failed "no __sanitizer_cov_trace_pc symbol in the object file") ∧
    makeDWARFUnsafe insertionSortRanges (fun n => (n, n))
      (preciseCoverage noKcovParams [mainImage])
      [binResult.failed "no __sanitizer_cov_trace_pc symbol in the object file"] fixtureHeap
      = .error "no __sanitizer_cov_trace_pc symbol in the object file" ∧
    ¬ Mentions "no __sanitizer_cov_trace_pc symbol in the object file" "CONFIG_KCOV" := by
  refine ⟨rfl, rfl, rfl, rfl, by decide⟩

/-! ## The symbolizer workers -/

theorem symbolizeProcs_eq (c n : Nat) :
    symbolizeProcs c n = max 1 (min 4 (min (c / 2) (n / 1000))) := by
  unfold symbolizeProcs
  dsimp only
  omega

/-- C26: for every core count `c` and PC count `n` the worker count of `symbolizeModule` is
`max(1, min(4, min(c div 2, n div 1000)))`; it is the number of workers started, it lies in
`[1, 4]`, and it is 1 whenever fewer than 2000 PCs are requested or `c < 4`. -/
theorem symbolizeProcs_bound (c n : Nat) (hc : 1 ≤ c) :
    symbolizeProcs c n = max 1 (min 4 (min (c / 2) (n / 1000))) ∧
    (∀ pcs : List Nat, pcs.length = n → (symbolizeWorkers c pcs).length = symbolizeProcs c n) ∧
    1 ≤ symbolizeProcs c n ∧ symbolizeProcs c n ≤ 4 ∧
    (n < 2000 ∨ c < 4 → symbolizeProcs c n = 1) := by
  have h := symbolizeProcs_eq c n
  refine ⟨h, ?_, ?_, ?_, ?_⟩
  · intro pcs hp
    unfold symbolizeWorkers
    rw [List.length_range, hp]
  · omega
  · omega
  · intro hn
    omega

theorem symbolizeProcs_bound_witness :
    symbolizeProcs 8 3500 = max 1 (min 4 (min (8 / 2) (3500 / 1000))) ∧
    symbolizeProcs 8 3500 = 3 ∧ symbolizeProcs 3 100000 = 1 ∧ symbolizeProcs 64 1999 = 1 :=
  ⟨(symbolizeProcs_bound 8 3500 (by decide)).1, by decide,
    (symbolizeProcs_bound 3 100000 (by decide)).2.2.2.2 (Or.inr (by decide)),
    (symbolizeProcs_bound 64 1999 (by decide)).2.2.2.2 (Or.inl (by decide))⟩

/-- C25 (as amended): `symbolizeModule` starts exactly
`clamp(min(concurrency/2, len(pcs)/1000), 1, 4)` workers. The count never exceeds
`clamp(concurrency/2, 1, 4)` and reaches it whenever at least 4000 PCs are requested. -/
theorem symbolizeWorkers_count (c : Nat) (pcs : List Nat) :
    (symbolizeWorkers c pcs).length = clamp (min (c / 2) (pcs.length / 1000)) 1 4 ∧
    (symbolizeWorkers c pcs).length ≤ clamp (c / 2) 1 4 ∧
    (4000 ≤ pcs.length → (symbolizeWorkers c pcs).length = clamp (c / 2) 1 4) := by
  unfold symbolizeWorkers clamp
  rw [List.length_range, symbolizeProcs_eq]
  refine ⟨by omega, by omega, fun h => by omega⟩

theorem symbolizeWorkers_count_witness :
    4000 ≤ (List.replicate 4000 0).length ∧
    (symbolizeWorkers 8 (List.replicate 4000 0)).length = clamp (8 / 2) 1 4 :=
  ⟨le_of_eq (List.length_replicate 4000 0).symm,
    (symbolizeWorkers_count 8 (List.replicate 4000 0)).2.2
      (le_of_eq (List.length_replicate 4000 0).symm)⟩

/-- C25 (as stated) fails: with `GOMAXPROCS = 8` and no PC requested a single worker is
started, although `clamp(8/2, 1, 4) = 4`; with 4000 PCs four workers are started, so the count
depends on the number of PCs. -/
theorem symbolizeWorkers_depends_on_pcs :
    (symbolizeWorkers 8 []).length = 1 ∧ clamp (8 / 2) 1 4 = 4 ∧
    (symbolizeWorkers 8 (List.replicate 4000 0)).length = 4 ∧
    ¬ (∀ (c : Nat) (pcs : List Nat), (symbolizeWorkers c pcs).length = clamp (c / 2) 1 4) := by
  have h1 : (symbolizeWorkers 8 []).length = 1 := by decide
  have h2 : clamp (8 / 2) 1 4 = 4 := by decide
  refine ⟨h1, h2, ?_, fun hall => ?_⟩
  · unfold symbolizeWorkers
    rw [List.length_range, List.length_replicate]
    decide
  · have := hall 8 []
    rw [h1, h2] at this
    exact absurd this (by decide)

/-! ## The outcome of the assembly -/

theorem drain_all_ok : ∀ (results : List binResult) (a0 : Aggregate),
    (∀ r ∈ results, r.err = none) →
    drain results a0 = .ok
      { allSymbols := a0.allSymbols ++ results.flatMap (fun r => r.symbols)
        allCoverPoints := (a0.allCoverPoints.1 ++ results.flatMap (fun r => r.coverPoints.1),
          a0.allCoverPoints.2 ++ results.flatMap (fun r => r.coverPoints.2))
        allRanges := a0.allRanges ++ results.flatMap (fun r => r.ranges)
        allUnits := a0.allUnits ++ results.flatMap (fun r => r.units) } := by
  intro results
  induction results with
  | nil =>
    intro a0 _
    simp [drain]
  | cons r rest ih =>
    intro a0 hall
    have hr : r.err = none := hall r (List.mem_cons_self _ _)
    unfold drain
    rw [hr]
    dsimp only
    rw [ih _ (fun x hx => hall x (List.mem_cons_of_mem _ hx))]
    simp [List.flatMap_cons, List.append_assoc]

/-- The assembly written with the retained lists, when no received result carries an error. -/
theorem makeDWARFUnsafe_eq (sortRanges : List pcRange → List pcRange)
    (cleanPath : String → String × String) (pc : Bool) (results : List binResult) (h : Heap)
    (hall : ∀ r ∈ results, r.err = none) :
    makeDWARFUnsafe sortRanges cleanPath pc results h =
      if (retainedSymbols sortRanges results h).1.length = 0 ∨
          (retainedUnits sortRanges cleanPath results h).1.length = 0 then
        .error "failed to parse DWARF (set CONFIG_DEBUG_INFO=y on linux)"
      else
        .ok ({ Units := (retainedUnits sortRanges cleanPath results h).1,
               Symbols := (retainedSymbols sortRanges results h).1,
               CallbackPoints := sortPCs (results.flatMap (fun r => r.coverPoints.1)),
               PreciseCoverage := pc }, (retainedUnits sortRanges cleanPath results h).2) := by
  unfold makeDWARFUnsafe retainedUnits retainedSymbols
  rw [drain_all_ok results _ hall]
  simp only [List.nil_append]

/-- C21: when no module reports an error, `makeDWARFUnsafe` fails iff the symbol list
retained after attribution is empty or the retained unit list is empty; the error is then the
message that mentions `CONFIG_DEBUG_INFO=y` (an error result carries no `Impl`); otherwise an
`Impl` is returned whose `Symbols` and `Units` are the retained lists, both non-empty. -/
theorem makeDWARFUnsafe_no_coverage (sortRanges : List pcRange → List pcRange)
    (cleanPath : String → String × String) (pc : Bool) (results : List binResult) (h : Heap)
    (hall : ∀ r ∈ results, r.err = none) :
    ((∃ e, makeDWARFUnsafe sortRanges cleanPath pc results h = .error e) ↔
      (retainedSymbols sortRanges results h).1 = [] ∨
        (retainedUnits sortRanges cleanPath results h).1 = []) ∧
    (∀ e, makeDWARFUnsafe sortRanges cleanPath pc results h = .error e →
      e = "failed to parse DWARF (set CONFIG_DEBUG_INFO=y on linux)" ∧
        Mentions e "CONFIG_DEBUG_INFO=y") ∧
    (¬ ((retainedSymbols sortRanges results h).1 = [] ∨
        (retainedUnits sortRanges cleanPath results h).1 = []) →
      ∃ impl h', makeDWARFUnsafe sortRanges cleanPath pc results h = .ok (impl, h') ∧
        impl.Symbols = (retainedSymbols sortRanges results h).1 ∧
        impl.Units = (retainedUnits sortRanges cleanPath results h).1 ∧
        impl.Symbols ≠ [] ∧ impl.Units ≠ []) := by
  have heq := makeDWARFUnsafe_eq sortRanges cleanPath pc results h hall
  have hcond : ((retainedSymbols sortRanges results h).1.length = 0 ∨
      (retainedUnits sortRanges cleanPath results h).1.length = 0) ↔
      ((retainedSymbols sortRanges results h).1 = [] ∨
        (retainedUnits sortRanges cleanPath results h).1 = []) := by
    rw [List.length_eq_zero, List.length_eq_zero]
  by_cases hc : (retainedSymbols sortRanges results h).1.length = 0 ∨
      (retainedUnits sortRanges cleanPath results h).1.length = 0
  · rw [if_pos hc] at heq
    refine ⟨⟨fun _ => hcond.1 hc, fun _ => ⟨_, heq⟩⟩, ?_, fun hne => absurd (hcond.1 hc) hne⟩
    intro e he
    rw [heq] at he
    cases he
    exact ⟨rfl, by decide⟩
  · rw [if_neg hc] at heq
    refine ⟨⟨?_, fun hemp => absurd (hcond.2 hemp) hc⟩, ?_, fun hne => ?_⟩
    · rintro ⟨e, he⟩
      rw [heq] at he
      cases he
    · intro e he
      rw [heq] at he
      cases he
    · refine ⟨_, _, heq, rfl, rfl, ?_, ?_⟩
      · exact fun hs => hne (Or.inl hs)
      · exact fun hu => hne (Or.inr hu)

theorem makeDWARFUnsafe_no_coverage_witness :
    (∀ r ∈ [fixtureResult], r.err = none) ∧
    (∃ impl h', makeDWARFUnsafe insertionSortRanges (fun p => (p, p)) true [fixtureResult]
        fixtureHeap = .ok (impl, h') ∧
      impl.Symbols = (retainedSymbols insertionSortRanges [fixtureResult] fixtureHeap).1 ∧
      impl.Units = (retainedUnits insertionSortRanges (fun p => (p, p)) [fixtureResult]
        fixtureHeap).1 ∧
      impl.Symbols ≠ [] ∧ impl.Units ≠ []) ∧
    (retainedSymbols insertionSortRanges [fixtureResult] fixtureHeap).1 = [0, 1] ∧
    (retainedUnits insertionSortRanges (fun p => (p, p)) [fixtureResult] fixtureHeap).1 = [0] ∧
    ((∃ e, makeDWARFUnsafe insertionSortRanges (fun p => (p, p)) true [] fixtureHeap
        = .error e) ↔
      (retainedSymbols insertionSortRanges [] fixtureHeap).1 = [] ∨
        (retainedUnits insertionSortRanges (fun p => (p, p)) [] fixtureHeap).1 = []) :=
  ⟨by decide,
    (makeDWARFUnsafe_no_coverage insertionSortRanges (fun p => (p, p)) true [fixtureResult]
      fixtureHeap (by decide)).2.2 (by decide),
    by decide, by decide,
    (makeDWARFUnsafe_no_coverage insertionSortRanges (fun p => (p, p)) true []
      fixtureHeap (by decide)).1⟩

/-! ## Bounds-checked execution of the scanner -/

theorem sliceChecked_window (data : List Nat) (i n : Nat) (h : i + n ≤ data.length) :
    sliceChecked data i (i + n) = some ((data.drop i).take n) ∧
      ((data.drop i).take n).length = n := by
  unfold sliceChecked
  rw [if_pos ⟨by omega, h⟩, Nat.add_sub_cancel_left]
  refine ⟨rfl, ?_⟩
  rw [List.length_take, List.length_drop]
  omega

theorem sliceChecked_tail (w : List Nat) (i : Nat) (h : i ≤ w.length) :
    sliceChecked w i w.length = some (w.drop i) := by
  unfold sliceChecked
  rw [if_pos ⟨h, le_refl _⟩, List.take_of_length_le]
  rw [List.length_drop]

theorem amd64Checked_agrees : Agrees amd64Checked amd64 := by
  refine ⟨rfl, rfl, ?_⟩
  intro w hw
  have hw5 : w.length = 5 := hw
  constructor
  · show (indexChecked w 0).map (fun b => b == 0xe8) = some (w.getD 0 0 == 0xe8)
    unfold indexChecked
    rw [List.getD_eq_getElem?_getD, List.getElem?_eq_getElem (by omega)]
    rfl
  · intro pc
    show (sliceChecked w 1 w.length).bind _ = _
    rw [sliceChecked_tail w 1 (by omega)]
    show (leUint32Checked (w.drop 1)).map _ = _
    unfold leUint32Checked
    rw [if_pos (by rw [List.length_drop]; omega)]
    rfl

theorem arm64Checked_agrees : Agrees arm64Checked arm64 := by
  refine ⟨rfl, rfl, ?_⟩
  intro w hw
  have hw4 : w.length = 4 := hw
  constructor
  · show (leUint32Checked w).map _ = _
    unfold leUint32Checked
    rw [if_pos (by omega)]
    rfl
  · intro pc
    show (leUint32Checked w).map _ = _
    unfold leUint32Checked
    rw [if_pos (by omega)]
    rfl

theorem s390xChecked_agrees : Agrees s390xChecked s390x := by
  refine ⟨rfl, rfl, ?_⟩
  intro w hw
  have hw6 : w.length = 6 := hw
  constructor
  · show (indexChecked w 0).bind _ = some (w.getD 0 0 == 0xc0 && w.getD 1 0 == 0xe5)
    unfold indexChecked
    rw [List.getD_eq_getElem?_getD, List.getD_eq_getElem?_getD,
      List.getElem?_eq_getElem (show 0 < w.length by omega),
      List.getElem?_eq_getElem (show 1 < w.length by omega)]
    simp only [Option.some_bind, Option.getD_some, Option.map_some']
    by_cases h0 : (w[0] == 0xc0) = true
    · rw [if_pos h0, h0, Bool.true_and]
    · rw [if_neg h0]
      rw [Bool.not_eq_true] at h0
      rw [h0, Bool.false_and]
  · intro pc
    show (sliceChecked w 2 w.length).bind _ = _
    rw [sliceChecked_tail w 2 (by omega)]
    show (beUint32Checked (w.drop 2)).map _ = _
    unfold beUint32Checked
    rw [if_pos (by rw [List.length_drop]; omega)]
    rfl

/-- With agreeing decoders the checked loop, run behind the monitor, computes what the
unchecked loop computes and never fails with an out-of-range access. -/
theorem nextCallTargetCheckedLoop_eq (c : CheckedArch) (arch : Arch) (ha : Agrees c arch)
    (textAddr : Nat) (data : List Nat) :
    ∀ fuel pos, nextCallTargetCheckedLoop c.strict textAddr data fuel pos =
      (nextCallTargetLoop arch textAddr data fuel pos).map some := by
  obtain ⟨hs, hl, hd⟩ := ha
  intro fuel
  induction fuel with
  | zero => intro pos; rfl
  | succ fuel ih =>
    intro pos
    unfold nextCallTargetCheckedLoop nextCallTargetLoop
    have hsl : c.strict.callLen = arch.callLen := hl
    have hss : c.strict.scanSize = arch.scanSize := hs
    by_cases hp : pos < data.length
    · rw [if_pos hp, if_pos hp]
      dsimp only
      rw [hsl, hss]
      by_cases hfit : pos + arch.callLen > data.length
      · rw [if_pos hfit, if_pos hfit]
        rfl
      · rw [if_neg hfit, if_neg hfit]
        obtain ⟨e1, e2⟩ := sliceChecked_window data pos arch.callLen (by omega)
        rw [e1]
        dsimp only
        obtain ⟨d1, d2⟩ := hd _ e2
        have s1 : c.strict.isCallInsn (List.take arch.callLen (List.drop pos data)) =
            some (arch.isCallInsn (List.take arch.callLen (List.drop pos data))) := by
          show (if _ then _ else _) = _
          rw [if_pos (by rw [e2, hl]), d1]
        have s2 : ∀ pc, c.strict.callTarget arch.callLen
            (List.take arch.callLen (List.drop pos data)) pc =
            some (arch.callTarget arch.callLen (List.take arch.callLen (List.drop pos data))
              pc) := by
          intro pc
          show (if _ then _ else _) = _
          rw [if_pos (by rw [e2, hl]), d2]
        rw [s1]
        dsimp only
        by_cases hcall : (!arch.isCallInsn (List.take arch.callLen (List.drop pos data))) = true
        · rw [if_pos hcall, if_pos hcall]
          exact ih _
        · rw [if_neg hcall, if_neg hcall, s2]
          rfl
    · rw [if_neg hp, if_neg hp]
      rfl

theorem readCoverPointsCheckedLoop_eq (c : CheckedArch) (arch : Arch) (ha : Agrees c arch)
    (info : symbolInfo) (data : List Nat) :
    ∀ fuel i pcs, readCoverPointsCheckedLoop c.strict info data fuel i pcs =
      (readCoverPointsLoop arch info data fuel i pcs).map some := by
  intro fuel
  induction fuel with
  | zero => intro i pcs; rfl
  | succ fuel ih =>
    intro i pcs
    unfold readCoverPointsCheckedLoop readCoverPointsLoop
    unfold nextCallTargetChecked nextCallTarget
    rw [nextCallTargetCheckedLoop_eq c arch ha]
    cases hn : nextCallTargetLoop arch info.textAddr data (data.length + 1) i with
    | none => rfl
    | some r =>
      obtain ⟨callTarget, pc, i'⟩ := r
      simp only [Option.map_some']
      split_ifs
      · rfl
      · exact ih _ _
      · exact ih _ _
      · exact ih _ _

theorem readCoverPointsChecked_eq (c : CheckedArch) (arch : Arch) (ha : Agrees c arch)
    (info : symbolInfo) (data : List Nat) :
    readCoverPointsChecked c.strict info data = (readCoverPoints arch info data).map some := by
  unfold readCoverPointsChecked readCoverPoints
  by_cases h0 : info.tracePC.length = 0
  · rw [if_pos h0, if_pos h0]
    rfl
  · rw [if_neg h0, if_neg h0, readCoverPointsCheckedLoop_eq c arch ha]
    cases readCoverPointsLoop arch info data (data.length + 1) 0 ([], []) <;> rfl

theorem readCoverPoints_terminates (arch : Arch) (hA : FastArch arch) (info : symbolInfo)
    (data : List Nat) : ∃ r, readCoverPoints arch info data = some r := by
  unfold readCoverPoints
  by_cases h0 : info.tracePC.length = 0
  · rw [if_pos h0]
    exact ⟨_, rfl⟩
  · rw [if_neg h0]
    obtain ⟨hs, hc⟩ := hA.pos
    obtain ⟨J0, J1, hrun, -⟩ := readCoverPointsLoop_spec arch hs hc info data
      (data.length + 1) 0 ([], []) (by omega) (by omega) (dvd_zero _)
    rw [hrun]
    exact ⟨_, rfl⟩

theorem readCoverPointsChecked_safe (c : CheckedArch) (arch : Arch) (ha : Agrees c arch)
    (hA : FastArch arch) (info : symbolInfo) (data : List Nat) :
    ∃ r, readCoverPointsChecked c.strict info data = some (some r) ∧
      readCoverPoints arch info data = some r := by
  obtain ⟨r, hr⟩ := readCoverPoints_terminates arch hA info data
  refine ⟨r, ?_, hr⟩
  rw [readCoverPointsChecked_eq c arch ha, hr]
  rfl

/-- C30: for AMD64, ARM64 and S390X and every byte string, `readCoverPoints` executed with
the run-time checks of Go terminates without an out-of-range access and returns what the
unchecked model returns; the decoders run behind a monitor that fails on a window whose
length is not `callLen`, and on a window of `callLen` bytes every access of a decoder is
inside the window. The empty text and a text shorter than `callLen` are scanned without
decoding anything; a decoder that is handed a shorter window does fail. -/
theorem readCoverPoints_safe (info : symbolInfo) (data : List Nat) :
    (∃ r, readCoverPointsChecked amd64Checked.strict info data = some (some r) ∧
      readCoverPoints amd64 info data = some r) ∧
    (∃ r, readCoverPointsChecked arm64Checked.strict info data = some (some r) ∧
      readCoverPoints arm64 info data = some r) ∧
    (∃ r, readCoverPointsChecked s390xChecked.strict info data = some (some r) ∧
      readCoverPoints s390x info data = some r) ∧
    (∀ (w : List Nat) (pc : Nat),
      (w.length = amd64Checked.callLen →
        amd64Checked.isCallInsn w ≠ none ∧ amd64Checked.callTarget 5 w pc ≠ none) ∧
      (w.length = arm64Checked.callLen →
        arm64Checked.isCallInsn w ≠ none ∧ arm64Checked.callTarget 4 w pc ≠ none) ∧
      (w.length = s390xChecked.callLen →
        s390xChecked.isCallInsn w ≠ none ∧ s390xChecked.callTarget 6 w pc ≠ none)) ∧
    (readCoverPointsChecked amd64Checked.strict oneCallInfo [] = some (some (.ok ([], []))) ∧
      readCoverPointsChecked amd64Checked.strict oneCallInfo [0xe8, 0, 0, 0]
        = some (some (.ok ([], []))) ∧
      readCoverPointsChecked arm64Checked.strict oneCallInfo [0, 0, 0]
        = some (some (.ok ([], []))) ∧
      readCoverPointsChecked s390xChecked.strict oneCallInfo [0xc0, 0xe5, 0, 0, 0]
        = some (some (.ok ([], [])))) ∧
    (amd64Checked.isCallInsn [] = none ∧ amd64Checked.callTarget 5 [0xe8, 0, 0, 0] 0 = none ∧
      arm64Checked.isCallInsn [0, 0, 0] = none ∧ s390xChecked.isCallInsn [0xc0] = none ∧
      amd64Checked.strict.isCallInsn [0xe8, 0, 0, 0, 0, 0] = none) := by
  refine ⟨readCoverPointsChecked_safe _ _ amd64Checked_agrees (Or.inl rfl) info data,
    readCoverPointsChecked_safe _ _ arm64Checked_agrees (Or.inr (Or.inl rfl)) info data,
    readCoverPointsChecked_safe _ _ s390xChecked_agrees (Or.inr (Or.inr rfl)) info data,
    ?_, ⟨rfl, rfl, rfl, rfl⟩, ⟨rfl, rfl, rfl, rfl, rfl⟩⟩
  intro w pc
  refine ⟨fun hw => ?_, fun hw => ?_, fun hw => ?_⟩
  · obtain ⟨d1, d2⟩ := amd64Checked_agrees.2.2 w hw
    have d2' := d2 pc
    constructor
    · rw [d1]; exact Option.some_ne_none _
    · rw [show (5 : Nat) = amd64.callLen from rfl, d2']; exact Option.some_ne_none _
  · obtain ⟨d1, d2⟩ := arm64Checked_agrees.2.2 w hw
    have d2' := d2 pc
    constructor
    · rw [d1]; exact Option.some_ne_none _
    · rw [show (4 : Nat) = arm64.callLen from rfl, d2']; exact Option.some_ne_none _
  · obtain ⟨d1, d2⟩ := s390xChecked_agrees.2.2 w hw
    have d2' := d2 pc
    constructor
    · rw [d1]; exact Option.some_ne_none _
    · rw [show (6 : Nat) = s390x.callLen from rfl, d2']; exact Option.some_ne_none _

/-! ## The first pass, cover point by cover point -/

theorem Owns.same_point {h : Heap} {symbols : List Nat} {k k' p : Nat}
    (a : Owns h symbols k p) (b : Owns h symbols k' p) : k = k' :=
  le_antisymm (Owns.index_le a b (le_refl _)) (Owns.index_le b a (le_refl _))

/-- Two indices that own a cover point each and hold the same symbol are equal. -/
theorem Owns.same_symbol {h : Heap} {symbols : List Nat} {k k' p p' : Nat}
    (a : Owns h symbols k p) (b : Owns h symbols k' p')
    (hs : symbols.getD k 0 = symbols.getD k' 0) : k = k' := by
  have hE : symEnd h symbols k = symEnd h symbols k' := by
    unfold symEnd
    rw [hs]
  rcases Nat.lt_trichotomy k k' with hlt | heq | hgt
  · have h1 := b.2.2.1 k hlt
    have h2 := b.2.1
    omega
  · exact heq
  · have h1 := a.2.2.1 k' hgt
    have h2 := a.2.1
    omega

theorem mem_run (l : List Nat) (n f x : Nat) :
    x ∈ (l.take n).drop f ↔ ∃ j, f ≤ j ∧ j < n ∧ j < l.length ∧ x = l.getD j 0 := by
  rw [List.mem_iff_getElem?]
  constructor
  · rintro ⟨i, hi⟩
    rw [List.getElem?_drop] at hi
    by_cases hlt : f + i < n
    · rw [List.getElem?_take_of_lt hlt] at hi
      obtain ⟨hlen, -⟩ := List.getElem?_eq_some_iff.1 hi
      refine ⟨f + i, by omega, hlt, hlen, ?_⟩
      rw [List.getD_eq_getElem?_getD, hi]
      rfl
    · rw [List.getElem?_take_eq_none (by omega)] at hi
      cases hi
  · rintro ⟨j, h1, h2, h3, rfl⟩
    refine ⟨j - f, ?_⟩
    rw [List.getElem?_drop, show f + (j - f) = j by omega, List.getElem?_take_of_lt h2,
      List.getD_eq_getElem?_getD, List.getElem?_eq_getElem h3]
    rfl

theorem sorted_getD_le (pcs : List Nat) (hs : pcs.Sorted (· ≤ ·)) (a b : Nat) (hab : a ≤ b)
    (hb : b < pcs.length) : pcs.getD a 0 ≤ pcs.getD b 0 := by
  rcases Nat.eq_or_lt_of_le hab with heq | hlt
  · rw [heq]
  · refine sorted_take_le_drop pcs hs b _ ?_ _ (getD_mem_drop pcs b hb)
    have : pcs.getD a 0 ∈ (pcs.take b).drop 0 :=
      (mem_run pcs b 0 _).2 ⟨a, Nat.zero_le _, hlt, by omega, rfl⟩
    simpa using this

/-- The new value of `firstSymbolPC` after iteration `i`. -/
theorem attrStep_first (symbols pcs : List Nat) (typ : Nat) (st : AttrState) (i : Nat)
    (h3 : st.curSymbol = none → st.firstSymbolPC = -1)
    (h4 : ∀ c, st.curSymbol = some c → 0 ≤ st.firstSymbolPC) :
    (stepSymb symbols pcs st i = none → (attrStep symbols pcs typ st i).firstSymbolPC = -1) ∧
    (∀ s, stepSymb symbols pcs st i = some s → st.curSymbol ≠ some s →
      (attrStep symbols pcs typ st i).firstSymbolPC = (i : Int)) ∧
    (∀ s, stepSymb symbols pcs st i = some s → st.curSymbol = some s →
      (attrStep symbols pcs typ st i).firstSymbolPC = st.firstSymbolPC) := by
  rcases hc : st.curSymbol with _ | c
  · obtain ⟨-, hf⟩ := attrStep_none symbols pcs typ st i hc
    rw [h3 hc] at hf
    refine ⟨fun hn => ?_, fun s hs _ => ?_, fun s _ hcs => by cases hcs⟩
    · rw [hf, if_neg (fun hh => hh.1 hn)]
    · rw [hf, if_pos ⟨by rw [hs]; exact Option.some_ne_none _, rfl⟩]
  · by_cases hsame : stepSymb symbols pcs st i = some c
    · obtain ⟨-, hf⟩ := attrStep_same symbols pcs typ st i c hc hsame
      have hne : st.firstSymbolPC ≠ -1 := by
        have := h4 c hc
        omega
      rw [if_neg hne] at hf
      refine ⟨fun hn => ?_, fun s hs hne' => ?_, fun s _ _ => hf⟩
      · rw [hsame] at hn
        cases hn
      · rw [hsame] at hs
        exact absurd hs.symm (fun hh => hne' (by rw [hh]))
    · obtain ⟨-, hf⟩ := attrStep_flush symbols pcs typ st i c hc hsame
      refine ⟨fun hn => ?_, fun s hs _ => ?_, fun s hs hcs => ?_⟩
      · rw [hf, if_neg (fun hh => hh hn)]
      · rw [hf, if_pos (by rw [hs]; exact Option.some_ne_none _)]
      · rw [hs] at hsame
        exact absurd hcs.symm (fun hh => hsame (by rw [hh]))

/-- The new heap after iteration `i`: unchanged when no symbol is current or the current
symbol is the symbol of `pcs[i]`, and the current run stored otherwise. -/
theorem attrStep_heap (symbols pcs : List Nat) (typ : Nat) (st : AttrState) (i : Nat) :
    (st.curSymbol = none ∧ (attrStep symbols pcs typ st i).heap = st.heap) ∨
    (st.curSymbol = stepSymb symbols pcs st i ∧
      (attrStep symbols pcs typ st i).heap = st.heap) ∨
    ∃ c, st.curSymbol = some c ∧ stepSymb symbols pcs st i ≠ some c ∧
      (attrStep symbols pcs typ st i).heap =
        st.heap.setSymbolPCs c typ ((pcs.take i).drop st.firstSymbolPC.toNat) := by
  rcases hc : st.curSymbol with _ | c
  · exact Or.inl ⟨rfl, (attrStep_none symbols pcs typ st i hc).1⟩
  · by_cases hsame : stepSymb symbols pcs st i = some c
    · exact Or.inr (Or.inl ⟨hsame.symm, (attrStep_same symbols pcs typ st i c hc hsame).1⟩)
    · exact Or.inr (Or.inr ⟨c, rfl, hsame, (attrStep_flush symbols pcs typ st i c hc hsame).1⟩)

/-- Storing the current run: afterwards every cover point seen so far is in the slice of its
owner, and the slice that is written holds only points of the current symbol. -/
theorem flush_own (h0 : Heap) (symbols pcs : List Nat) (typ n : Nat) (st : AttrState) (c : Nat)
    (hinv : AttrOwn h0 symbols pcs typ n st) (hcur : st.curSymbol = some c) :
    (∀ i k, i < n → i < pcs.length → Owns h0 symbols k (pcs.getD i 0) →
      pcs.getD i 0 ∈ selectPCs ((st.heap.setSymbolPCs c typ
        ((pcs.take n).drop st.firstSymbolPC.toNat)).symbols (symbols.getD k 0)).toObjectUnit
          typ) ∧
    (∀ b, selectPCs ((st.heap.setSymbolPCs c typ
        ((pcs.take n).drop st.firstSymbolPC.toNat)).symbols b).toObjectUnit typ
        = selectPCs (h0.symbols b).toObjectUnit typ ∨
      ∀ x ∈ selectPCs ((st.heap.setSymbolPCs c typ
        ((pcs.take n).drop st.firstSymbolPC.toNat)).symbols b).toObjectUnit typ,
        ∃ k, k < symbols.length ∧ symbols.getD k 0 = b ∧ Owns h0 symbols k x) := by
  obtain ⟨-, -, -, -, hrun, hstored, hslice⟩ := hinv
  obtain ⟨hf0, hflt, k0, hk0, hg0, hr, hm⟩ := hrun c hcur
  have hfn : st.firstSymbolPC.toNat < n := by omega
  constructor
  · intro i k hi hil ho
    rw [setSymbolPCs_select]
    by_cases hkc : symbols.getD k 0 = c
    · rw [if_pos ⟨hkc, Iff.rfl⟩]
      have hkk : k = k0 := Owns.same_symbol ho (hr _ (le_refl _) hfn) (hkc.trans hg0.symm)
      subst hkk
      exact (mem_run pcs n _ _).2 ⟨i, hm i hi ho, hi, hil, rfl⟩
    · rw [if_neg (fun hh => hkc hh.1)]
      rcases hstored i k hi ho with hl | hrr
      · rw [hcur] at hl
        exact absurd (Option.some.inj hl).symm hkc
      · exact hrr
  · intro b
    rw [setSymbolPCs_select]
    by_cases hb : b = c
    · rw [if_pos ⟨hb, Iff.rfl⟩]
      right
      intro x hx
      obtain ⟨j, hj1, hj2, -, rfl⟩ := (mem_run pcs n _ _).1 hx
      exact ⟨k0, hk0, hg0.trans hb.symm, hr j hj1 hj2⟩
    · rw [if_neg (fun hh => hb hh.1)]
      exact hslice b

theorem attrStep_own (h0 : Heap) (symbols pcs : List Nat) (typ : Nat) (st : AttrState) (i : Nat)
    (hs : pcs.Sorted (· ≤ ·)) (hi : i < pcs.length)
    (hinv : AttrOwn h0 symbols pcs typ i st) :
    AttrOwn h0 symbols pcs typ (i + 1) (attrStep symbols pcs typ st i) := by
  have hflush := fun c => flush_own h0 symbols pcs typ i st c hinv
  obtain ⟨hframe, ⟨hle, hidx⟩, hnone, hlast, hrun, hstored, hslice⟩ := hinv
  have hpcmem := getD_mem_drop pcs i hi
  have hpcle := getD_le_drop_succ pcs hs i hi
  obtain ⟨⟨r_le, r_below⟩, so1, so2⟩ := stepSymb_owner h0 symbols pcs st i hframe hle
    (fun j hj => hidx j hj _ hpcmem)
  obtain ⟨f1, f2, f3⟩ := attrStep_first symbols pcs typ st i hnone
    (fun c hc => (hrun c hc).1)
  have hcur' : (attrStep symbols pcs typ st i).curSymbol = stepSymb symbols pcs st i := rfl
  have hidx' : (attrStep symbols pcs typ st i).symbolIdx =
      advanceSymbolIdx st.heap (pcs.getD i 0) (symbols.drop st.symbolIdx) st.symbolIdx := rfl
  have hprev : ∀ j k, j < i → Owns h0 symbols k (pcs.getD j 0) →
      Owns h0 symbols k (pcs.getD i 0) → st.curSymbol = some (symbols.getD k 0) := by
    intro j k hj hoj hoi
    refine hlast k (by omega) (Owns.sandwich hoj hoi ?_ ?_)
    · exact sorted_getD_le pcs hs j (i - 1) (by omega) (by omega)
    · exact sorted_getD_le pcs hs (i - 1) i (by omega) hi
  refine ⟨?_, ?_, ?_, ?_, ?_, ?_, ?_⟩
  · intro p
    rcases attrStep_heap symbols pcs typ st i with ⟨-, he⟩ | ⟨-, he⟩ | ⟨c, -, -, he⟩
    · rw [he]; exact hframe p
    · rw [he]; exact hframe p
    · rw [he, setSymbolPCs_Start, setSymbolPCs_End]; exact hframe p
  · rw [hidx']
    exact ⟨r_le, fun j hj x hx => le_trans (r_below j hj) (hpcle x hx)⟩
  · intro hn
    exact f1 (hcur' ▸ hn)
  · intro k _ ho
    rw [Nat.add_sub_cancel] at ho
    rw [hcur']
    exact so2 k ho
  · intro c' hc'
    rw [hcur'] at hc'
    obtain ⟨k1, hk1, hg1, ho1⟩ := so1 c' hc'
    by_cases hcc : st.curSymbol = some c'
    · rw [f3 c' hc' hcc]
      obtain ⟨hf0, hflt, k0, hk0, hg0, hr, hm⟩ := hrun c' hcc
      have hfn : st.firstSymbolPC.toNat < i := by omega
      have hkk : k1 = k0 := Owns.same_symbol ho1 (hr _ (le_refl _) hfn) (hg1.trans hg0.symm)
      subst hkk
      refine ⟨hf0, by omega, k1, hk1, hg1, ?_, ?_⟩
      · intro j hfj hj
        by_cases hji : j < i
        · exact hr j hfj hji
        · have : j = i := by omega
          subst this
          exact ho1
      · intro j hj ho
        by_cases hji : j < i
        · exact hm j hji ho
        · omega
    · rw [f2 c' hc' hcc]
      refine ⟨by omega, by omega, k1, hk1, hg1, ?_, ?_⟩
      · intro j hfj hj
        have : j = i := by
          rw [Int.toNat_ofNat] at hfj
          omega
        subst this
        exact ho1
      · intro j hj ho
        rw [Int.toNat_ofNat]
        by_contra hlt
        have := hprev j k1 (by omega) ho ho1
        rw [hg1] at this
        exact hcc this
  · intro j k hj ho
    by_cases hji : j < i
    · rcases attrStep_heap symbols pcs typ st i with ⟨hc, he⟩ | ⟨hc, he⟩ | ⟨c, hc, hne, he⟩
      · rw [he]
        rcases hstored j k hji ho with hl | hr
        · rw [hc] at hl
          cases hl
        · exact Or.inr hr
      · rw [he]
        rcases hstored j k hji ho with hl | hr
        · left
          rw [hcur', ← hc]
          exact hl
        · exact Or.inr hr
      · right
        rw [he]
        exact (hflush c hc).1 j k hji (by omega) ho
    · have : j = i := by omega
      subst this
      left
      rw [hcur']
      exact so2 k ho
  · intro b
    rcases attrStep_heap symbols pcs typ st i with ⟨-, he⟩ | ⟨-, he⟩ | ⟨c, hc, -, he⟩
    · rw [he]; exact hslice b
    · rw [he]; exact hslice b
    · rw [he]; exact (hflush c hc).2 b

theorem attrFold_own (h0 : Heap) (symbols pcs : List Nat) (typ : Nat)
    (hs : pcs.Sorted (· ≤ ·)) :
    ∀ n, n ≤ pcs.length → AttrOwn h0 symbols pcs typ n (attrStateAt symbols pcs typ h0 n) := by
  intro n
  induction n with
  | zero =>
    intro _
    refine ⟨fun p => ⟨rfl, rfl⟩, ⟨Nat.zero_le _, fun j hj => absurd hj (Nat.not_lt_zero _)⟩,
      fun _ => rfl, fun k hk => absurd hk (Nat.lt_irrefl _), ?_, ?_, fun b => Or.inl rfl⟩
    · intro c hc
      cases hc
    · intro i k hi
      exact absurd hi (Nat.not_lt_zero _)
  | succ n ih =>
    intro hle
    unfold attrStateAt
    rw [List.range_succ, List.foldl_append]
    exact attrStep_own h0 symbols pcs typ _ n hs (by omega) (ih (by omega))

/-- One pass over `pcs`, cover point by cover point: the symbol computed for `pcs[i]` is the
symbol at the index that owns `pcs[i]`, the point is in the slice of that symbol after the
pass, and a slice that the pass has written holds only points that an index of its symbol
owns. -/
theorem attributeType_own (symbols pcs : List Nat) (typ : Nat) (h : Heap)
    (hs : pcs.Sorted (· ≤ ·)) :
    (∀ i k, i < pcs.length → Owns h symbols k (pcs.getD i 0) →
      stepSymb symbols pcs (attrStateAt symbols pcs typ h i) i = some (symbols.getD k 0) ∧
      pcs.getD i 0 ∈
        selectPCs ((attributeType symbols pcs typ h).symbols (symbols.getD k 0)).toObjectUnit
          typ) ∧
    (∀ i s, i < pcs.length →
      stepSymb symbols pcs (attrStateAt symbols pcs typ h i) i = some s →
      ∃ k, k < symbols.length ∧ symbols.getD k 0 = s ∧ Owns h symbols k (pcs.getD i 0)) ∧
    (∀ b, selectPCs ((attributeType symbols pcs typ h).symbols b).toObjectUnit typ
        = selectPCs (h.symbols b).toObjectUnit typ ∨
      ∀ x ∈ selectPCs ((attributeType symbols pcs typ h).symbols b).toObjectUnit typ,
        ∃ k, k < symbols.length ∧ symbols.getD k 0 = b ∧ Owns h symbols k x) := by
  have hown : ∀ i, i < pcs.length →
      (∀ s, stepSymb symbols pcs (attrStateAt symbols pcs typ h i) i = some s →
        ∃ k, k < symbols.length ∧ symbols.getD k 0 = s ∧ Owns h symbols k (pcs.getD i 0)) ∧
      (∀ k, Owns h symbols k (pcs.getD i 0) →
        stepSymb symbols pcs (attrStateAt symbols pcs typ h i) i = some (symbols.getD k 0)) := by
    intro i hi
    obtain ⟨hframe, ⟨hle, hidx⟩, -⟩ := attrFold_own h symbols pcs typ hs i (by omega)
    exact (stepSymb_owner h symbols pcs _ i hframe hle
      (fun j hj => hidx j hj _ (getD_mem_drop pcs i hi))).2
  have hfin := attrFold_own h symbols pcs typ hs pcs.length (le_refl _)
  have hfl := fun c => flush_own h symbols pcs typ pcs.length _ c hfin
  rw [List.take_length] at hfl
  have hheap : attributeType symbols pcs typ h =
      match (attrStateAt symbols pcs typ h pcs.length).curSymbol with
      | some cur => (attrStateAt symbols pcs typ h pcs.length).heap.setSymbolPCs cur typ
          (pcs.drop (attrStateAt symbols pcs typ h pcs.length).firstSymbolPC.toNat)
      | none => (attrStateAt symbols pcs typ h pcs.length).heap := rfl
  obtain ⟨-, -, -, -, -, hstored, hslice⟩ := hfin
  refine ⟨fun i k hi ho => ⟨(hown i hi).2 k ho, ?_⟩, fun i s hi hsy => (hown i hi).1 s hsy, ?_⟩
  · rw [hheap]
    rcases hc : (attrStateAt symbols pcs typ h pcs.length).curSymbol with _ | c
    · rcases hstored i k hi ho with hl | hr
      · rw [hc] at hl
        cases hl
      · exact hr
    · exact (hfl c hc).1 i k hi hi ho
  · intro b
    rw [hheap]
    rcases hc : (attrStateAt symbols pcs typ h pcs.length).curSymbol with _ | c
    · exact hslice b
    · exact (hfl c hc).2 b

theorem Owns.contains {h : Heap} {symbols : List Nat} {k p : Nat} (ho : Owns h symbols k p) :
    symbols.getD k 0 ∈ symbols ∧ (h.symbols (symbols.getD k 0)).Start ≤ p ∧
      p < (h.symbols (symbols.getD k 0)).End := by
  obtain ⟨hk, h1, -, h2⟩ := ho
  refine ⟨?_, h2, h1⟩
  rw [getD_eq_of_lt symbols k hk]
  exact List.getElem_mem hk

/-- With symbols sorted by `Start`, a cover point that lies in some symbol has an owner. -/
theorem owner_of_contains (h : Heap) (symbols : List Nat)
    (hsym : symbols.Pairwise (fun a b => (h.symbols a).Start ≤ (h.symbols b).Start))
    (s : Nat) (hs : s ∈ symbols) (p : Nat)
    (hin : (h.symbols s).Start ≤ p ∧ p < (h.symbols s).End) :
    ∃ k, Owns h symbols k p := by
  obtain ⟨j, hj, hget⟩ := List.getElem_of_mem hs
  have hex : ∃ n, n < symbols.length ∧ p < symEnd h symbols n := by
    refine ⟨j, hj, ?_⟩
    unfold symEnd
    rw [getD_eq_of_lt symbols j hj, hget]
    exact hin.2
  classical
  refine ⟨Nat.find hex, (Nat.find_spec hex).1, (Nat.find_spec hex).2, ?_, ?_⟩
  · intro j' hj'
    have hmin := Nat.find_min hex hj'
    have hlt : j' < symbols.length := lt_trans hj' (Nat.find_spec hex).1
    by_contra hc
    exact hmin ⟨hlt, by omega⟩
  · have hkj : Nat.find hex ≤ j := Nat.find_min' hex ⟨hj, by
      unfold symEnd
      rw [getD_eq_of_lt symbols j hj, hget]
      exact hin.2⟩
    have hk := (Nat.find_spec hex).1
    unfold symStart
    rw [getD_eq_of_lt symbols _ hk]
    rcases Nat.eq_or_lt_of_le hkj with heq | hlt
    · have : symbols[Nat.find hex] = s := by
        rw [← hget]
        congr 1
      rw [this]
      exact hin.1
    · have := List.pairwise_iff_getElem.1 hsym _ _ hk hj hlt
      rw [hget] at this
      exact le_trans this hin.1

/-- The first pass of `buildSymbols`, cover point by cover point, for either kind of cover
point. -/
theorem attributePCs_own (symbols : List Nat) (coverPoints : List Nat × List Nat) (h : Heap)
    (typ : Nat) (htyp : typ < 2)
    (hs0 : coverPoints.1.Sorted (· ≤ ·)) (hs1 : coverPoints.2.Sorted (· ≤ ·)) :
    (∀ i k, i < (coverPointsAt coverPoints typ).length →
      Owns h symbols k ((coverPointsAt coverPoints typ).getD i 0) →
      attributedTo symbols coverPoints h typ i = some (symbols.getD k 0) ∧
      (coverPointsAt coverPoints typ).getD i 0 ∈
        selectPCs ((attributePCs symbols coverPoints h).symbols (symbols.getD k 0)).toObjectUnit
          typ) ∧
    (∀ i s, i < (coverPointsAt coverPoints typ).length →
      attributedTo symbols coverPoints h typ i = some s →
      ∃ k, k < symbols.length ∧ symbols.getD k 0 = s ∧
        Owns h symbols k ((coverPointsAt coverPoints typ).getD i 0)) ∧
    (∀ b, selectPCs ((attributePCs symbols coverPoints h).symbols b).toObjectUnit typ
        = selectPCs (h.symbols b).toObjectUnit typ ∨
      ∀ x ∈ selectPCs ((attributePCs symbols coverPoints h).symbols b).toObjectUnit typ,
        ∃ k, k < symbols.length ∧ symbols.getD k 0 = b ∧ Owns h symbols k x) := by
  have htyp' : typ = 0 ∨ typ = 1 := by omega
  rcases htyp' with rfl | rfl
  · obtain ⟨o1, o2, o3⟩ := attributeType_own symbols coverPoints.1 0 h hs0
    have hsl : ∀ b, selectPCs ((attributePCs symbols coverPoints h).symbols b).toObjectUnit 0 =
        selectPCs ((attributeType symbols coverPoints.1 0 h).symbols b).toObjectUnit 0 :=
      fun b => attributeType_other symbols coverPoints.2 1 0 _ (by decide) b
    refine ⟨fun i k hi ho => ⟨(o1 i k hi ho).1, ?_⟩, fun i s hi hsy => o2 i s hi hsy, ?_⟩
    · rw [hsl]
      exact (o1 i k hi ho).2
    · intro b
      rw [hsl]
      exact o3 b
  · have hb := attributeType_bounds symbols coverPoints.1 0 h
    have hO : ∀ k p, Owns (attributeType symbols coverPoints.1 0 h) symbols k p ↔
        Owns h symbols k p := Owns_congr h _ symbols hb
    obtain ⟨o1, o2, o3⟩ :=
      attributeType_own symbols coverPoints.2 1 (attributeType symbols coverPoints.1 0 h) hs1
    have hsl : ∀ b,
        selectPCs ((attributeType symbols coverPoints.1 0 h).symbols b).toObjectUnit 1 =
        selectPCs (h.symbols b).toObjectUnit 1 :=
      fun b => attributeType_other symbols coverPoints.1 0 1 h (by decide) b
    refine ⟨fun i k hi ho => o1 i k hi ((hO k _).2 ho), ?_, ?_⟩
    · intro i s hi hsy
      obtain ⟨k, hk, hg, ho⟩ := o2 i s hi hsy
      exact ⟨k, hk, hg, (hO k _).1 ho⟩
    · intro b
      rcases o3 b with hl | hr
      · left
        rw [← hsl b]
        exact hl
      · right
        intro x hx
        obtain ⟨k, hk, hg, ho⟩ := hr x hx
        exact ⟨k, hk, hg, (hO k _).1 ho⟩

/-- C28: given symbols sorted by `Start` and cover points sorted ascending, the first pass of
`buildSymbols` leaves a cover point unattributed only if no symbol's `[Start, End)` contains
it; a cover point that some symbol contains is attributed to a symbol that contains it, is
stored in the slice of that symbol after the pass, and is stored in no other symbol of the
list whose slice was empty before the pass. -/
theorem buildSymbols_no_point_lost (symbols : List Nat) (coverPoints : List Nat × List Nat)
    (h : Heap)
    (hsym : symbols.Pairwise (fun a b => (h.symbols a).Start ≤ (h.symbols b).Start))
    (hs0 : coverPoints.1.Sorted (· ≤ ·)) (hs1 : coverPoints.2.Sorted (· ≤ ·)) :
    ∀ typ i, typ < 2 → i < (coverPointsAt coverPoints typ).length →
      (attributedTo symbols coverPoints h typ i = none →
        ∀ s ∈ symbols, ¬ ((h.symbols s).Start ≤ (coverPointsAt coverPoints typ).getD i 0 ∧
          (coverPointsAt coverPoints typ).getD i 0 < (h.symbols s).End)) ∧
      ((∃ s ∈ symbols, (h.symbols s).Start ≤ (coverPointsAt coverPoints typ).getD i 0 ∧
          (coverPointsAt coverPoints typ).getD i 0 < (h.symbols s).End) →
        ∃ s ∈ symbols, attributedTo symbols coverPoints h typ i = some s ∧
          (h.symbols s).Start ≤ (coverPointsAt coverPoints typ).getD i 0 ∧
          (coverPointsAt coverPoints typ).getD i 0 < (h.symbols s).End ∧
          (coverPointsAt coverPoints typ).getD i 0 ∈
            selectPCs ((attributePCs symbols coverPoints h).symbols s).toObjectUnit typ ∧
          ∀ s' ∈ symbols, selectPCs (h.symbols s').toObjectUnit typ = [] →
            (coverPointsAt coverPoints typ).getD i 0 ∈
              selectPCs ((attributePCs symbols coverPoints h).symbols s').toObjectUnit typ →
            s' = s) := by
  intro typ i htyp hi
  obtain ⟨o1, o2, o3⟩ := attributePCs_own symbols coverPoints h typ htyp hs0 hs1
  have hmain : (∃ s ∈ symbols, (h.symbols s).Start ≤ (coverPointsAt coverPoints typ).getD i 0 ∧
      (coverPointsAt coverPoints typ).getD i 0 < (h.symbols s).End) →
      ∃ s ∈ symbols, attributedTo symbols coverPoints h typ i = some s ∧
        (h.symbols s).Start ≤ (coverPointsAt coverPoints typ).getD i 0 ∧
        (coverPointsAt coverPoints typ).getD i 0 < (h.symbols s).End ∧
        (coverPointsAt coverPoints typ).getD i 0 ∈
          selectPCs ((attributePCs symbols coverPoints h).symbols s).toObjectUnit typ ∧
        ∀ s' ∈ symbols, selectPCs (h.symbols s').toObjectUnit typ = [] →
          (coverPointsAt coverPoints typ).getD i 0 ∈
            selectPCs ((attributePCs symbols coverPoints h).symbols s').toObjectUnit typ →
          s' = s := by
    rintro ⟨s, hs, hin⟩
    obtain ⟨k, ho⟩ := owner_of_contains h symbols hsym s hs _ hin
    obtain ⟨hmem, hst, hen⟩ := ho.contains
    obtain ⟨ha, hstored⟩ := o1 i k hi ho
    refine ⟨_, hmem, ha, hst, hen, hstored, ?_⟩
    intro s' _ hemp hin'
    rcases o3 s' with hl | hr
    · rw [hl, hemp] at hin'
      cases hin'
    · obtain ⟨k', -, hg', ho'⟩ := hr _ hin'
      rw [← hg', Owns.same_point ho' ho]
  refine ⟨?_, hmain⟩
  intro hnone s hs hin
  obtain ⟨s2, -, ha, -⟩ := hmain ⟨s, hs, hin⟩
  rw [hnone] at ha
  cases ha

theorem buildSymbols_no_point_lost_witness :
    (fixtureSymbols.Pairwise
        (fun a b => (fixtureHeap.symbols a).Start ≤ (fixtureHeap.symbols b).Start) ∧
      fixtureCoverPoints.1.Sorted (· ≤ ·) ∧ fixtureCoverPoints.2.Sorted (· ≤ ·)) ∧
    attributedTo fixtureSymbols fixtureCoverPoints fixtureHeap 0 1 = some 1 ∧
    ∃ s ∈ fixtureSymbols, attributedTo fixtureSymbols fixtureCoverPoints fixtureHeap 1 0 = some s ∧
      (fixtureHeap.symbols s).Start ≤ (coverPointsAt fixtureCoverPoints 1).getD 0 0 ∧
      (coverPointsAt fixtureCoverPoints 1).getD 0 0 < (fixtureHeap.symbols s).End ∧
      (coverPointsAt fixtureCoverPoints 1).getD 0 0 ∈
        selectPCs ((attributePCs fixtureSymbols fixtureCoverPoints fixtureHeap).symbols
          s).toObjectUnit 1 ∧
      ∀ s' ∈ fixtureSymbols, selectPCs (fixtureHeap.symbols s').toObjectUnit 1 = [] →
        (coverPointsAt fixtureCoverPoints 1).getD 0 0 ∈
          selectPCs ((attributePCs fixtureSymbols fixtureCoverPoints fixtureHeap).symbols
            s').toObjectUnit 1 →
        s' = s :=
  ⟨⟨by decide, by decide, by decide⟩, by decide,
    (buildSymbols_no_point_lost fixtureSymbols fixtureCoverPoints fixtureHeap (by decide)
      (by decide) (by decide) 1 0 (by decide) (by decide)).2 ⟨1, by decide, by decide⟩⟩

/-- C29: given cover points sorted ascending and symbols with initially empty PCs and CMPs,
a symbol `B` of the list all of whose occurrences are preceded by a symbol `A` with
`A.End >= B.End` is never the symbol of a cover point, has no PCs and no CMPs after the first
pass and after `buildSymbols`, and is absent from the list returned by `buildSymbols`. -/
theorem buildSymbols_shadowed_dropped (symbols : List Nat) (ranges : List pcRange)
    (coverPoints : List Nat × List Nat) (h : Heap)
    (hs0 : coverPoints.1.Sorted (· ≤ ·)) (hs1 : coverPoints.2.Sorted (· ≤ ·))
    (hempty : ∀ p ∈ symbols, (h.symbols p).PCs = [] ∧ (h.symbols p).CMPs = [])
    (A B i : Nat) (hA : symbols[i]? = some A) (hB : B ∈ symbols)
    (hpre : ∀ j, symbols[j]? = some B → i < j)
    (hend : (h.symbols B).End ≤ (h.symbols A).End) :
    (∀ typ j, typ < 2 → j < (coverPointsAt coverPoints typ).length →
      attributedTo symbols coverPoints h typ j ≠ some B) ∧
    ((attributePCs symbols coverPoints h).symbols B).PCs = [] ∧
    ((attributePCs symbols coverPoints h).symbols B).CMPs = [] ∧
    B ∉ (buildSymbols symbols ranges coverPoints h).1 ∧
    ((buildSymbols symbols ranges coverPoints h).2.symbols B).PCs = [] ∧
    ((buildSymbols symbols ranges coverPoints h).2.symbols B).CMPs = [] := by
  have hnever : ∀ k x, k < symbols.length → symbols.getD k 0 = B → ¬ Owns h symbols k x := by
    intro k x hk hg ho
    have hik : i < k := by
      refine hpre k ?_
      rw [List.getElem?_eq_getElem hk, ← getD_eq_of_lt symbols k hk, hg]
    obtain ⟨hi, hgi⟩ := List.getElem?_eq_some_iff.1 hA
    have h1 := ho.2.2.1 i hik
    have h2 := ho.2.1
    unfold symEnd at h1 h2
    rw [getD_eq_of_lt symbols i hi, hgi] at h1
    rw [hg] at h2
    omega
  have hslice : ∀ typ, typ < 2 →
      selectPCs ((attributePCs symbols coverPoints h).symbols B).toObjectUnit typ = [] := by
    intro typ htyp
    obtain ⟨-, -, o3⟩ := attributePCs_own symbols coverPoints h typ htyp hs0 hs1
    rcases o3 B with hl | hr
    · rw [hl]
      obtain ⟨e1, e2⟩ := hempty B hB
      unfold selectPCs
      rw [e1, e2]
      split_ifs <;> rfl
    · refine List.eq_nil_iff_forall_not_mem.2 (fun x hx => ?_)
      obtain ⟨k, hk, hg, ho⟩ := hr x hx
      exact hnever k x hk hg ho
  have hP : ((attributePCs symbols coverPoints h).symbols B).PCs = [] := hslice 0 (by decide)
  have hC : ((attributePCs symbols coverPoints h).symbols B).CMPs = [] := hslice 1 (by decide)
  obtain ⟨f, -⟩ := unitFold_frame ranges symbols
    { heap := attributePCs symbols coverPoints h, rangeIndex := 0, kept := [] }
  have hobj : ((buildSymbols symbols ranges coverPoints h).2.symbols B).toObjectUnit =
      ((attributePCs symbols coverPoints h).symbols B).toObjectUnit := by
    unfold buildSymbols
    dsimp only
    rw [propagatePCs_symbols]
    exact (f B).1
  refine ⟨?_, hP, hC, ?_, ?_, ?_⟩
  · intro typ j htyp hj hc
    obtain ⟨-, o2, -⟩ := attributePCs_own symbols coverPoints h typ htyp hs0 hs1
    obtain ⟨k, hk, hg, ho⟩ := o2 j B hj hc
    exact hnever k _ hk hg ho
  · intro hmem
    have := unitFold_kept_pcs ranges (attributePCs symbols coverPoints h) symbols
      { heap := attributePCs symbols coverPoints h, rangeIndex := 0, kept := [] }
      (fun p => rfl) (fun s hs => by cases hs) B hmem
    exact this hP
  · show ((buildSymbols symbols ranges coverPoints h).2.symbols B).toObjectUnit.PCs = []
    rw [hobj]
    exact hP
  · show ((buildSymbols symbols ranges coverPoints h).2.symbols B).toObjectUnit.CMPs = []
    rw [hobj]
    exact hC

theorem buildSymbols_shadowed_dropped_witness :
    (fixtureCoverPoints.1.Sorted (· ≤ ·) ∧ fixtureCoverPoints.2.Sorted (· ≤ ·) ∧
      (shadowHeap.symbols 1).End ≤ (shadowHeap.symbols 0).End) ∧
    ((attributePCs [0, 1] fixtureCoverPoints shadowHeap).symbols 1).PCs = [] ∧
    ((attributePCs [0, 1] fixtureCoverPoints shadowHeap).symbols 1).CMPs = [] ∧
    1 ∉ (buildSymbols [0, 1] fixtureRanges fixtureCoverPoints shadowHeap).1 ∧
    (buildSymbols [0, 1] fixtureRanges fixtureCoverPoints shadowHeap).1 = [0] ∧
    ((buildSymbols [0, 1] fixtureRanges fixtureCoverPoints shadowHeap).2.symbols 0).PCs
      = [0x1010, 0x1110] :=
  have hw := buildSymbols_shadowed_dropped [0, 1] fixtureRanges fixtureCoverPoints shadowHeap
    (by decide) (by decide) (by decide) 0 1 0 rfl (by decide)
    (fun j hj => by
      cases j with
      | zero => exact absurd hj (by decide)
      | succ j => exact Nat.succ_pos j)
    (by decide)
  ⟨⟨by decide, by decide, by decide⟩, hw.2.1, hw.2.2.1, hw.2.2.2.1, by decide, by decide⟩

/-! ## The objdump scanner -/

theorem le_lower (c : Nat) : c ≤ lower c := by
  unfold lower
  refine Nat.le_of_testBit (fun i hi => ?_)
  rw [Nat.testBit_or, hi, Bool.true_or]

theorem parseDigit_spec (c : Nat) :
    (parseDigit c).bind (fun d => if d ≥ 16 then none else some d) =
      if IsHexDigit c then some (hexDigitValue c) else none := by
  by_cases hc : c < 128
  · revert c
    decide
  · have hl := le_lower c
    have e0 : '0'.toNat = 48 := rfl
    have e9 : '9'.toNat = 57 := rfl
    have ea : 'a'.toNat = 97 := rfl
    have ef : 'f'.toNat = 102 := rfl
    have ez : 'z'.toNat = 122 := rfl
    have eA : 'A'.toNat = 65 := rfl
    have eF : 'F'.toNat = 70 := rfl
    unfold parseDigit IsHexDigit
    simp only [e0, e9, ea, ef, ez, eA, eF]
    rw [if_neg (by omega), if_neg (by omega), if_neg (by omega)]
    rfl

theorem hexDigitValue_lt (c : Nat) (hc : IsHexDigit c) : hexDigitValue c < 16 := by
  have e0 : '0'.toNat = 48 := rfl
  have e9 : '9'.toNat = 57 := rfl
  have ea : 'a'.toNat = 97 := rfl
  have ef : 'f'.toNat = 102 := rfl
  have eA : 'A'.toNat = 65 := rfl
  have eF : 'F'.toNat = 70 := rfl
  unfold IsHexDigit at hc
  unfold hexDigitValue
  simp only [e0, e9, ea, ef, eA, eF] at hc ⊢
  split_ifs <;> omega

/-- The value read by the loop of `ParseUint` from `n` on. -/
theorem hexFold_ge (s : List Nat) : ∀ n, n ≤ s.foldl (fun n c => 16 * n + hexDigitValue c) n := by
  induction s with
  | nil => intro n; exact le_refl _
  | cons c rest ih =>
    intro n
    rw [List.foldl_cons]
    exact le_trans (by omega) (ih _)

theorem parseUintLoop_cons (c : Nat) (rest : List Nat) (n : Nat) (hn : n < u64) :
    parseUintLoop (c :: rest) n =
      if IsHexDigit c ∧ 16 * n + hexDigitValue c < u64 then
        parseUintLoop rest (16 * n + hexDigitValue c)
      else none := by
  have hspec := parseDigit_spec c
  have hu : u64 = 18446744073709551616 := rfl
  rw [parseUintLoop]
  by_cases hd : IsHexDigit c
  · rw [if_pos hd] at hspec
    have hlt := hexDigitValue_lt c hd
    rcases hp : parseDigit c with _ | d
    · rw [hp] at hspec
      cases hspec
    · rw [hp] at hspec
      simp only [Option.some_bind] at hspec
      by_cases hd16 : d ≥ 16
      · rw [if_pos hd16] at hspec
        cases hspec
      · rw [if_neg hd16] at hspec
        have hdv : d = hexDigitValue c := Option.some.inj hspec
        subst hdv
        dsimp only
        rw [if_neg hd16]
        by_cases hcut : n ≥ (u64 - 1) / 16 + 1
        · rw [if_pos hcut, if_neg]
          rw [hu] at hcut ⊢
          omega
        · rw [if_neg hcut]
          rw [hu] at hcut
          have e1 : n * 16 % u64 = n * 16 := Nat.mod_eq_of_lt (by rw [hu]; omega)
          have e2 : (n * 16 + hexDigitValue c) % u64 = n * 16 + hexDigitValue c :=
            Nat.mod_eq_of_lt (by rw [hu]; omega)
          rw [e1, e2, if_neg (by rw [hu]; omega), if_pos ⟨hd, by rw [hu]; omega⟩,
            Nat.mul_comm n 16]
  · rw [if_neg hd] at hspec
    rw [if_neg (fun hh => hd hh.1)]
    rcases hp : parseDigit c with _ | d
    · rfl
    · rw [hp] at hspec
      simp only [Option.some_bind] at hspec
      dsimp only
      by_cases hd16 : d ≥ 16
      · rw [if_pos hd16]
      · rw [if_neg hd16] at hspec
        cases hspec

theorem parseUintLoop_spec (s : List Nat) : ∀ n, n < u64 →
    parseUintLoop s n =
      if (∀ c ∈ s, IsHexDigit c) ∧ s.foldl (fun n c => 16 * n + hexDigitValue c) n < u64 then
        some (s.foldl (fun n c => 16 * n + hexDigitValue c) n)
      else none := by
  induction s with
  | nil =>
    intro n hn
    rw [parseUintLoop, if_pos]
    · rfl
    · exact ⟨fun c hc => (by cases hc), hn⟩
  | cons c rest ih =>
    intro n hn
    rw [parseUintLoop_cons c rest n hn, List.foldl_cons]
    by_cases h1 : IsHexDigit c ∧ 16 * n + hexDigitValue c < u64
    · rw [if_pos h1, ih _ h1.2]
      by_cases h2 : (∀ c ∈ rest, IsHexDigit c) ∧
          rest.foldl (fun n c => 16 * n + hexDigitValue c) (16 * n + hexDigitValue c) < u64
      · rw [if_pos h2, if_pos]
        refine ⟨fun x hx => ?_, h2.2⟩
        rcases List.mem_cons.1 hx with rfl | hx
        · exact h1.1
        · exact h2.1 x hx
      · rw [if_neg h2, if_neg]
        rintro ⟨a, b⟩
        exact h2 ⟨fun x hx => a x (List.mem_cons_of_mem _ hx), b⟩
    · rw [if_neg h1, if_neg]
      rintro ⟨a, b⟩
      refine h1 ⟨a c (List.mem_cons_self _ _), ?_⟩
      exact lt_of_le_of_lt (hexFold_ge rest _) b

/-- The function `strconv.ParseUint(s, 16, 64)` accepts exactly the non-empty texts of
hexadecimal digits whose value fits into 64 bits, and returns that value. -/
theorem parseUint16_spec (s : List Nat) :
    parseUint16 s = if IsHex s ∧ hexValue s < u64 then some (hexValue s) else none := by
  unfold parseUint16 IsHex hexValue
  by_cases hs : s = []
  · rw [if_pos hs, if_neg]
    exact fun hh => hh.1.1 hs
  · rw [if_neg hs, parseUintLoop_spec s 0 (by decide)]
    by_cases h : (∀ c ∈ s, IsHexDigit c) ∧
        s.foldl (fun n c => 16 * n + hexDigitValue c) 0 < u64
    · rw [if_pos h, if_pos ⟨⟨hs, h.1⟩, h.2⟩]
    · rw [if_neg h, if_neg]
      exact fun hh => h ⟨hh.1.2, hh.2⟩
theorem bytesIndexFrom_spec (sep : List Nat) : ∀ (s : List Nat) (i : Nat),
    (∀ r, bytesIndexFrom sep s i = some r → ∃ q, r = i + q ∧ FirstOccurrence s sep q) ∧
    (bytesIndexFrom sep s i = none → ∀ q, q ≤ s.length → ¬ sep <+: s.drop q) := by
  intro s
  induction s with
  | nil =>
    intro i
    rw [bytesIndexFrom]
    by_cases hp : sep.isPrefixOf [] = true
    · rw [if_pos hp]
      refine ⟨fun r hr => ⟨0, ?_, Nat.le_refl _, List.isPrefixOf_iff_prefix.1 hp,
        fun q hq => absurd hq (Nat.not_lt_zero _)⟩, fun hn => by cases hn⟩
      cases hr
      rfl
    · rw [if_neg hp]
      refine ⟨fun r hr => (by cases hr), fun _ q hq hpre => ?_⟩
      have hq0 : q = 0 := by simpa using hq
      subst hq0
      exact hp (List.isPrefixOf_iff_prefix.2 hpre)
  | cons c rest ih =>
    intro i
    rw [bytesIndexFrom]
    by_cases hp : sep.isPrefixOf (c :: rest) = true
    · rw [if_pos hp]
      refine ⟨fun r hr => ⟨0, ?_, Nat.zero_le _, List.isPrefixOf_iff_prefix.1 hp,
        fun q hq => absurd hq (Nat.not_lt_zero _)⟩, fun hn => by cases hn⟩
      cases hr
      rfl
    · rw [if_neg hp]
      obtain ⟨ih1, ih2⟩ := ih (i + 1)
      have h0 : ¬ sep <+: (c :: rest).drop 0 := fun hpre => hp (List.isPrefixOf_iff_prefix.2 hpre)
      constructor
      · intro r hr
        obtain ⟨q, hq, hle, hpre, hmin⟩ := ih1 r hr
        refine ⟨q + 1, by omega, by simpa using hle, by simpa using hpre, ?_⟩
        intro q' hq'
        cases q' with
        | zero => exact h0
        | succ q'' =>
          rw [List.drop_succ_cons]
          exact hmin q'' (by omega)
      · intro hn q hq
        cases q with
        | zero => exact h0
        | succ q'' =>
          rw [List.drop_succ_cons]
          exact ih2 hn q'' (by simpa using hq)

theorem FirstOccurrence.unique {s sep : List Nat} {p q : Nat} (hp : FirstOccurrence s sep p)
    (hq : FirstOccurrence s sep q) : p = q := by
  rcases Nat.lt_trichotomy p q with hlt | heq | hgt
  · exact absurd hp.2.1 (hq.2.2 p hlt)
  · exact heq
  · exact absurd hq.2.1 (hp.2.2 q hgt)

theorem infix_iff_drop (sep s : List Nat) :
    sep <:+: s ↔ ∃ q, q ≤ s.length ∧ sep <+: s.drop q := by
  constructor
  · rintro ⟨a, b, rfl⟩
    refine ⟨a.length, by simp, b, ?_⟩
    rw [List.append_assoc, List.drop_left]
  · rintro ⟨q, -, t, ht⟩
    refine ⟨s.take q, t, ?_⟩
    rw [List.append_assoc, ht, List.take_append_drop]

theorem bytesIndex_some (s sep : List Nat) (pos : Nat) :
    bytesIndex s sep = some pos ↔ FirstOccurrence s sep pos := by
  obtain ⟨h1, h2⟩ := bytesIndexFrom_spec sep s 0
  constructor
  · intro h
    obtain ⟨q, hq, hfo⟩ := h1 pos h
    rw [hq, Nat.zero_add]
    exact hfo
  · intro hfo
    rcases hb : bytesIndex s sep with _ | r
    · exact absurd hfo.2.1 (h2 hb pos hfo.1)
    · obtain ⟨q, hq, hfo'⟩ := h1 r hb
      rw [hq, Nat.zero_add, hfo'.unique hfo]

theorem bytesIndex_none (s sep : List Nat) : bytesIndex s sep = none ↔ ¬ sep <:+: s := by
  obtain ⟨h1, h2⟩ := bytesIndexFrom_spec sep s 0
  rw [infix_iff_drop]
  constructor
  · rintro h ⟨q, hq, hpre⟩
    exact h2 h q hq hpre
  · intro hn
    rcases hb : bytesIndex s sep with _ | r
    · rfl
    · obtain ⟨q, -, hfo⟩ := h1 r hb
      exact absurd ⟨q, hfo.1, hfo.2.1⟩ hn

theorem findCallInsn_none (ln : List Nat) : ∀ callInsns : List (List Nat),
    findCallInsn ln callInsns = none ↔ ∀ t ∈ callInsns, ¬ t <:+: ln := by
  intro callInsns
  induction callInsns with
  | nil => simp [findCallInsn]
  | cons t rest ih =>
    rw [findCallInsn]
    rcases hb : bytesIndex ln t with _ | pos
    · have hno := (bytesIndex_none ln t).1 hb
      dsimp only
      rw [ih]
      constructor
      · intro h x hx
        rcases List.mem_cons.1 hx with rfl | hx
        · exact hno
        · exact h x hx
      · intro h x hx
        exact h x (List.mem_cons_of_mem _ hx)
    · dsimp only
      have hfo := (bytesIndex_some ln t pos).1 hb
      constructor
      · intro h
        cases h
      · intro h
        exact absurd ((infix_iff_drop t ln).2 ⟨pos, hfo.1, hfo.2.1⟩) (h t (List.mem_cons_self _ _))

theorem findCallInsn_some (ln : List Nat) : ∀ (callInsns : List (List Nat)) (tok : List Nat)
    (pos : Nat), FirstToken callInsns ln tok pos → findCallInsn ln callInsns = some pos := by
  intro callInsns tok pos ⟨before, after, hsplit, hnone, hfo⟩
  subst hsplit
  induction before with
  | nil =>
    rw [List.nil_append, findCallInsn, (bytesIndex_some ln tok pos).2 hfo]
  | cons t rest ih =>
    rw [List.cons_append, findCallInsn,
      (bytesIndex_none ln t).2 (hnone t (List.mem_cons_self _ _))]
    exact ih (fun x hx => hnone x (List.mem_cons_of_mem _ hx))

theorem hasTraceFunc_iff (tail : List Nat) : ∀ traceFuncs : List (List Nat),
    hasTraceFunc tail traceFuncs = true ↔ ∃ f ∈ traceFuncs, f <:+: tail := by
  intro traceFuncs
  induction traceFuncs with
  | nil => simp [hasTraceFunc]
  | cons f rest ih =>
    rw [hasTraceFunc]
    unfold bytesContains
    rcases hb : bytesIndex tail f with _ | pos
    · have hno := (bytesIndex_none tail f).1 hb
      rw [if_neg (by simp), ih]
      constructor
      · rintro ⟨x, hx, hin⟩
        exact ⟨x, List.mem_cons_of_mem _ hx, hin⟩
      · rintro ⟨x, hx, hin⟩
        rcases List.mem_cons.1 hx with rfl | hx
        · exact absurd hin hno
        · exact ⟨x, hx, hin⟩
    · have hfo := (bytesIndex_some tail f pos).1 hb
      rw [if_pos (by simp)]
      exact ⟨fun _ => ⟨f, List.mem_cons_self _ _, (infix_iff_drop f tail).2 ⟨pos, hfo.1, hfo.2.1⟩⟩,
        fun _ => rfl⟩

theorem trimSpaces_replicate (t : List Nat) (ht : t.head? ≠ some ' '.toNat) :
    ∀ k, trimSpaces (List.replicate k ' '.toNat ++ t) = t := by
  intro k
  induction k with
  | zero =>
    rw [List.replicate_zero, List.nil_append]
    cases t with
    | nil => rfl
    | cons c rest =>
      rw [trimSpaces, if_neg]
      intro hc
      exact ht (by rw [List.head?_cons, hc])
  | succ k ih =>
    rw [List.replicate_succ, List.cons_append, trimSpaces, if_pos rfl]
    exact ih

theorem trimSpaces_subset : ∀ (l : List Nat) (x : Nat), x ∈ trimSpaces l → x ∈ l := by
  intro l
  induction l with
  | nil => intro x hx; exact hx
  | cons c rest ih =>
    intro x hx
    rw [trimSpaces] at hx
    split_ifs at hx
    · exact List.mem_cons_of_mem _ (ih x hx)
    · exact hx

theorem bytesIndexByteFrom_found (c : Nat) (rest : List Nat) : ∀ (pre : List Nat) (i : Nat),
    c ∉ pre → bytesIndexByteFrom c (pre ++ c :: rest) i = some (i + pre.length) := by
  intro pre
  induction pre with
  | nil =>
    intro i _
    rw [List.nil_append, bytesIndexByteFrom, if_pos rfl]
    rfl
  | cons b pre ih =>
    intro i hc
    rw [List.cons_append, bytesIndexByteFrom, if_neg (fun hb => hc (by rw [hb]; exact List.mem_cons_self _ _)),
      ih (i + 1) (fun h => hc (List.mem_cons_of_mem _ h)), List.length_cons]
    congr 1
    omega

theorem bytesIndexByteFrom_none (c : Nat) : ∀ (s : List Nat) (i : Nat),
    c ∉ s → bytesIndexByteFrom c s i = none := by
  intro s
  induction s with
  | nil => intro i _; rfl
  | cons b rest ih =>
    intro i hc
    rw [bytesIndexByteFrom, if_neg (fun hb => hc (by rw [hb]; exact List.mem_cons_self _ _))]
    exact ih (i + 1) (fun h => hc (List.mem_cons_of_mem _ h))

theorem isHexDigit_ne (c : Nat) (hc : IsHexDigit c) : c ≠ ' '.toNat ∧ c ≠ ':'.toNat := by
  have e0 : '0'.toNat = 48 := rfl
  have e9 : '9'.toNat = 57 := rfl
  have ea : 'a'.toNat = 97 := rfl
  have ef : 'f'.toNat = 102 := rfl
  have eA : 'A'.toNat = 65 := rfl
  have eF : 'F'.toNat = 70 := rfl
  have es : ' '.toNat = 32 := rfl
  have ec : ':'.toNat = 58 := rfl
  unfold IsHexDigit at hc
  simp only [e0, e9, ea, ef, eA, eF] at hc
  rw [es, ec]
  omega

/-- The part of `parseLine` after the two searches, on a line of the shape
`spaces ++ pfx ++ ":" ++ rest`. -/
theorem parseLine_shape (callInsns traceFuncs : List (List Nat)) (ln : List Nat)
    (k : Nat) (pfx rest : List Nat)
    (hshape : ln = List.replicate k ' '.toNat ++ pfx ++ ':'.toNat :: rest)
    (hcolon : ':'.toNat ∉ pfx) (hhead : pfx.head? ≠ some ' '.toNat) :
    parseLine callInsns traceFuncs ln =
      match findCallInsn ln callInsns with
      | none => 0
      | some pos =>
        if !hasTraceFunc (ln.drop pos) traceFuncs then 0
        else if IsHex pfx ∧ hexValue pfx < u64 then hexValue pfx else 0 := by
  have htrim : trimSpaces ln = pfx ++ ':'.toNat :: rest := by
    rw [hshape, List.append_assoc]
    refine trimSpaces_replicate _ ?_ k
    cases pfx with
    | nil =>
      rw [List.nil_append, List.head?_cons]
      exact fun hh => absurd (Option.some.inj hh) (by decide)
    | cons c t =>
      rw [List.cons_append, List.head?_cons]
      rw [List.head?_cons] at hhead
      exact hhead
  unfold parseLine
  rcases findCallInsn ln callInsns with _ | pos
  · rfl
  · dsimp only
    by_cases hh : (!hasTraceFunc (ln.drop pos) traceFuncs) = true
    · rw [if_pos hh, if_pos hh]
    · rw [if_neg hh, if_neg hh, htrim]
      unfold bytesIndexByte
      rw [bytesIndexByteFrom_found _ rest pfx 0 hcolon, Nat.zero_add]
      dsimp only
      rw [List.take_left, parseUint16_spec]
      split_ifs <;> rfl

/-- C27: `parseLine` on a line `ln`. If the first call token found (the first element of
`callInsns` that occurs in the line, at its first occurrence `pos`) is followed at or after
`pos` by one of the trace-function names, and the text between the leading spaces of the line
and its first `:` is a hexadecimal number of at most 64 bits, the result is the value of that
text. The result is 0 when no call token occurs, when no trace-function name occurs at or
after `pos`, when the line has no `:`, and when the text before the first `:` is not a
hexadecimal 64-bit number. -/
theorem parseLine_spec (callInsns traceFuncs : List (List Nat)) (ln : List Nat) :
    (∀ tok pos k digits rest, FirstToken callInsns ln tok pos →
      (∃ f ∈ traceFuncs, f <:+: ln.drop pos) →
      ln = List.replicate k ' '.toNat ++ digits ++ ':'.toNat :: rest →
      IsHex digits → hexValue digits < 2 ^ 64 →
      parseLine callInsns traceFuncs ln = hexValue digits) ∧
    ((∀ tok ∈ callInsns, ¬ tok <:+: ln) → parseLine callInsns traceFuncs ln = 0) ∧
    (∀ tok pos, FirstToken callInsns ln tok pos →
      (∀ f ∈ traceFuncs, ¬ f <:+: ln.drop pos) → parseLine callInsns traceFuncs ln = 0) ∧
    (':'.toNat ∉ ln → parseLine callInsns traceFuncs ln = 0) ∧
    (∀ k pfx rest, ln = List.replicate k ' '.toNat ++ pfx ++ ':'.toNat :: rest →
      ':'.toNat ∉ pfx → pfx.head? ≠ some ' '.toNat →
      ¬ (IsHex pfx ∧ hexValue pfx < 2 ^ 64) → parseLine callInsns traceFuncs ln = 0) := by
  refine ⟨?_, ?_, ?_, ?_, ?_⟩
  · intro tok pos k digits rest htok hname hshape hhex hval
    have hc : ':'.toNat ∉ digits := fun hm => (isHexDigit_ne _ (hhex.2 _ hm)).2 rfl
    have hh : digits.head? ≠ some ' '.toNat := by
      intro hm
      have hmem : ' '.toNat ∈ digits := List.mem_of_mem_head? hm
      exact (isHexDigit_ne _ (hhex.2 _ hmem)).1 rfl
    rw [parseLine_shape callInsns traceFuncs ln k digits rest hshape hc hh,
      findCallInsn_some ln callInsns tok pos htok]
    dsimp only
    rw [(hasTraceFunc_iff _ _).2 hname, if_neg (by simp), if_pos ⟨hhex, hval⟩]
  · intro hno
    unfold parseLine
    rw [(findCallInsn_none ln callInsns).2 hno]
  · intro tok pos htok hno
    unfold parseLine
    rw [findCallInsn_some ln callInsns tok pos htok]
    dsimp only
    have : hasTraceFunc (ln.drop pos) traceFuncs = false := by
      rw [← Bool.not_eq_true, hasTraceFunc_iff]
      rintro ⟨f, hf, hin⟩
      exact hno f hf hin
    rw [this]
    rfl
  · intro hno
    unfold parseLine
    rcases findCallInsn ln callInsns with _ | pos
    · rfl
    · dsimp only
      split_ifs
      · rfl
      · unfold bytesIndexByte
        rw [bytesIndexByteFrom_none _ _ 0 (fun hm => hno (trimSpaces_subset ln _ hm))]
  · intro k pfx rest hshape hc hh hbad
    rw [parseLine_shape callInsns traceFuncs ln k pfx rest hshape hc hh]
    rcases findCallInsn ln callInsns with _ | pos
    · rfl
    · dsimp only
      split_ifs
      · rfl
      · exact absurd ‹_› hbad
      · rfl

theorem parseLine_spec_witness :
    FirstToken [bytesOf "\tcall "] callLine (bytesOf "\tcall ") 9 ∧
    parseLine [bytesOf "\tcall "] [bytesOf " <__sanitizer_cov_trace_pc>"] callLine
      = hexValue (bytesOf "c1000102") ∧
    hexValue (bytesOf "c1000102") = 0xc1000102 ∧
    (archCallInsn "386" = some ([bytesOf "\tcall "], [bytesOf " <__sanitizer_cov_trace_pc>"])) ∧
    parseLine [bytesOf "\tcall "] [bytesOf " <__sanitizer_cov_trace_pc>"]
      (bytesOf "c1000102:\tcall   c10001f0 <other>") = 0 :=
  have hft : FirstToken [bytesOf "\tcall "] callLine (bytesOf "\tcall ") 9 :=
    ⟨[], [], rfl, fun t ht => (by cases ht), by decide, by decide, by decide⟩
  ⟨hft,
    (parseLine_spec [bytesOf "\tcall "] [bytesOf " <__sanitizer_cov_trace_pc>"] callLine).1
      (bytesOf "\tcall ") 9 0 (bytesOf "c1000102")
      (bytesOf "\tcall   c10001f0 <__sanitizer_cov_trace_pc>") hft
      ⟨_, List.mem_singleton_self _, by decide⟩ (by decide) (by decide) (by decide),
    by decide, by decide, by decide⟩

/-! ## Panics and goroutines -/

/-- C22 (failing input): for the main image of an AMD64 kernel whose symbols and text are
read without error and whose text ranges make the DWARF parser panic, the panic is raised in
the task of the module: it is not recovered, and the call of `makeDWARF` ends with the program
terminated instead of `(nil, err)`. A panic of the goroutine that executes `makeDWARFUnsafe`
is turned into an error that mentions `DWARF`. -/
theorem makeDWARF_task_panic_crashes :
    moduleTaskRun oneCallParams (fun _ => .ok ([], [])) dwarf5Readers mainImage =
      some (.panics "decoding dwarf section info at offset 0x0: unsupported version 5") ∧
    makeDWARF insertionSortRanges (fun p => (p, p)) oneCallParams (fun _ => .ok ([], []))
      dwarf5Readers [mainImage] fixtureHeap =
      some (.crashes "decoding dwarf section info at offset 0x0: unsupported version 5") ∧
    (∃ msg, makeDWARF insertionSortRanges (fun p => (p, p)) oneCallParams
        (fun _ => .ok ([], [])) versionPanicReaders [mainImage] fixtureHeap =
        some (.returns (none, some msg)) ∧ Mentions msg "DWARF") := by
  refine ⟨rfl, rfl, ⟨_, rfl, by decide⟩⟩

/-! ## Path canonicalisation -/

theorem trimLeftChars_head (cutset : List Char) : ∀ (l : List Char) (c : Char), c ∈ cutset →
    (trimLeftChars cutset l).head? ≠ some c := by
  intro l
  induction l with
  | nil =>
    intro c _ h
    cases h
  | cons x rest ih =>
    intro c hc
    rw [trimLeftChars]
    by_cases hx : x ∈ cutset
    · rw [if_pos hx]
      exact ih c hc
    · rw [if_neg hx, List.head?_cons]
      intro h
      exact hx (Option.some.inj h ▸ hc)

theorem trimLeft_not_beginsWith (s : String) :
    ¬ BeginsWith (trimLeft s "/\\") '/' ∧ ¬ BeginsWith (trimLeft s "/\\") '\\' :=
  ⟨trimLeftChars_head _ _ _ (by decide), trimLeftChars_head _ _ _ (by decide)⟩

/-- A delimiter without `.` matches exactly itself. -/
theorem matchDelimiter_literal : ∀ (d text : List Char), (∀ c ∈ d, c ≠ '.') →
    matchDelimiter d text = if d <+: text then some (d, text.drop d.length) else none := by
  intro d
  induction d with
  | nil =>
    intro text _
    rw [matchDelimiter, if_pos List.nil_prefix]
    rfl
  | cons p ps ih =>
    intro text hlit
    cases text with
    | nil =>
      rw [matchDelimiter, if_neg]
      exact fun h => by cases List.eq_nil_of_prefix_nil h
    | cons c text =>
      have hp : p ≠ '.' := hlit p (List.mem_cons_self _ _)
      rw [matchDelimiter, ih text (fun x hx => hlit x (List.mem_cons_of_mem _ hx))]
      unfold matchAtom
      rw [if_neg hp]
      by_cases hpc : p = c
      · subst hpc
        rw [if_pos (by simp)]
        by_cases hpre : ps <+: text
        · rw [if_pos hpre, if_pos ((List.cons_prefix_cons).2 ⟨rfl, hpre⟩)]
          rfl
        · rw [if_neg hpre, if_neg (fun h => hpre ((List.cons_prefix_cons).1 h).2)]
      · rw [if_neg (by simpa using hpc), if_neg (fun h => hpc ((List.cons_prefix_cons).1 h).1)]

/-- Among delimiters without `.`, the alternation takes the first one in list order that
the text starts with. -/
theorem matchAlternation_literal : ∀ (ds : List (List Char)) (text : List Char),
    (∀ d ∈ ds, ∀ c ∈ d, c ≠ '.') →
    (∀ before d after, ds = before ++ d :: after → (∀ d' ∈ before, ¬ d' <+: text) →
      d <+: text → matchAlternation ds text = some (d, text.drop d.length)) ∧
    ((∀ d ∈ ds, ¬ d <+: text) → matchAlternation ds text = none) := by
  intro ds
  induction ds with
  | nil =>
    intro text _
    refine ⟨fun before d after h => ?_, fun _ => rfl⟩
    cases before <;> cases h
  | cons d0 rest ih =>
    intro text hlit
    have h0 := matchDelimiter_literal d0 text (hlit d0 (List.mem_cons_self _ _))
    obtain ⟨ih1, ih2⟩ := ih text (fun d hd => hlit d (List.mem_cons_of_mem _ hd))
    constructor
    · intro before d after hsplit hbefore hpre
      rw [matchAlternation, h0]
      cases before with
      | nil =>
        rw [List.nil_append] at hsplit
        obtain ⟨e1, -⟩ := List.cons.inj hsplit
        subst e1
        rw [if_pos hpre]
      | cons b before =>
        rw [List.cons_append] at hsplit
        obtain ⟨e1, e2⟩ := List.cons.inj hsplit
        subst e1
        rw [if_neg (hbefore d0 (List.mem_cons_self _ _))]
        exact ih1 before d after e2 (fun x hx => hbefore x (List.mem_cons_of_mem _ hx)) hpre
    · intro hno
      rw [matchAlternation, h0, if_neg (hno d0 (List.mem_cons_self _ _))]
      exact ih2 (fun d hd => hno d (List.mem_cons_of_mem _ hd))

theorem takeLine_of_no_newline : ∀ l : List Char, '\n' ∉ l → takeLine l = l := by
  intro l
  induction l with
  | nil => intro _; rfl
  | cons c rest ih =>
    intro h
    rw [takeLine, if_neg (fun hc => h (by rw [hc]; exact List.mem_cons_self _ _)),
      ih (fun hm => h (List.mem_cons_of_mem _ hm))]

/-- For delimiters without `.`, the leftmost match is at the first offset at which the text
continues with a delimiter. -/
theorem findSubmatch_literal (ds : List (List Char)) (hlit : ∀ d ∈ ds, ∀ c ∈ d, c ≠ '.')
    (before : List (List Char)) (d : List Char) (after : List (List Char))
    (hsplit : ds = before ++ d :: after) (suffix : List Char) :
    ∀ pre : List Char,
      (∀ q, q < pre.length → ∀ d' ∈ ds, ¬ d' <+: (pre ++ d ++ suffix).drop q) →
      (∀ d' ∈ before, ¬ d' <+: d ++ suffix) →
      findSubmatch ds (pre ++ d ++ suffix) = some (d, takeLine suffix) := by
  have hat : (∀ d' ∈ before, ¬ d' <+: d ++ suffix) →
      matchAlternation ds (d ++ suffix) = some (d, suffix) := by
    intro hb
    have := (matchAlternation_literal ds (d ++ suffix) hlit).1 before d after hsplit hb
      (List.prefix_append _ _)
    rw [this, List.drop_left]
  intro pre
  induction pre with
  | nil =>
    intro _ hb
    rw [List.nil_append]
    have hm := hat hb
    cases hds : d ++ suffix with
    | nil =>
      rw [hds] at hm
      rw [findSubmatch, hm]
    | cons c t =>
      rw [hds] at hm
      rw [findSubmatch, hm]
  | cons c pre ih =>
    intro hleft hb
    have h0 := hleft 0 (by simp)
    rw [List.drop_zero] at h0
    have hnone := (matchAlternation_literal ds (c :: pre ++ d ++ suffix) hlit).2 h0
    rw [List.cons_append, List.cons_append] at hnone ⊢
    rw [findSubmatch, hnone]
    refine ih (fun q hq d' hd' => ?_) hb
    have := hleft (q + 1) (by simpa using hq) d' hd'
    rw [List.cons_append, List.cons_append, List.drop_succ_cons] at this
    exact this
/-- When every delimiter is free of special characters, `cleanPathAndroid` finds the leftmost
offset at which the path continues with a delimiter, takes the first delimiter in list order
that occurs there, and returns the text after it (up to a newline) without consulting the
file system. -/
theorem cleanPathAndroid_literal (path srcDir : String) (delimiters : List String)
    (existFn : String → Bool) (before : List String) (d : String) (after : List String)
    (pre suffix : List Char)
    (hsplit : delimiters = before ++ d :: after)
    (hlit : ∀ d' ∈ delimiters, ∀ c ∈ d'.toList, isRegexpMeta c = false ∧ c ≠ '.')
    (hpath : path.toList = pre ++ d.toList ++ suffix)
    (hleft : ∀ q, q < pre.length → ∀ d' ∈ delimiters, ¬ d'.toList <+: path.toList.drop q)
    (hfirst : ∀ d' ∈ before, ¬ d'.toList <+: d.toList ++ suffix)
    (hnl : '\n' ∉ suffix) :
    cleanPathAndroid path srcDir delimiters existFn =
      some (String.mk suffix, filepathClean (srcDir ++ d ++ String.mk suffix)) := by
  have hlen : ¬ delimiters.length = 0 := by
    rw [hsplit, List.length_append, List.length_cons]
    omega
  have hmeta : (delimiters.any fun d => d.toList.any isRegexpMeta) = false := by
    rw [Bool.eq_false_iff]
    intro h
    rw [List.any_eq_true] at h
    obtain ⟨d', hd', h2⟩ := h
    rw [List.any_eq_true] at h2
    obtain ⟨c, hc, h3⟩ := h2
    rw [(hlit d' hd' c hc).1] at h3
    cases h3
  have hfind : findSubmatch (delimiters.map String.toList) path.toList =
      some (d.toList, takeLine suffix) := by
    rw [hpath]
    refine findSubmatch_literal (delimiters.map String.toList) ?_ (before.map String.toList)
      d.toList (after.map String.toList) ?_ suffix pre ?_ ?_
    · intro x hx c hc
      obtain ⟨d', hd', rfl⟩ := List.mem_map.1 hx
      exact (hlit d' hd' c hc).2
    · rw [hsplit, List.map_append, List.map_cons]
    · intro q hq x hx
      obtain ⟨d', hd', rfl⟩ := List.mem_map.1 hx
      rw [← hpath]
      exact hleft q hq d' hd'
    · intro x hx
      obtain ⟨d', hd', rfl⟩ := List.mem_map.1 hx
      exact hfirst d' hd'
  unfold cleanPathAndroid
  rw [if_neg hlen, hmeta, if_neg (by decide), hfind, takeLine_of_no_newline suffix hnl]
  rfl

/-- C23 (failing input): the delimiters are made into a regular expression as they are. For
the delimiter `/v1.0/` and the path `/out/v1x0/src/v1.0/main.c`, in which the delimiter occurs
once, the `.` of the delimiter matches the `x` of `/v1x0/`: the result is resolved against
`/src/v1x0/` with the suffix `src/v1.0/main.c`, not against `/src/v1.0/` with the suffix
`main.c`, whatever the file system holds. A suffix is cut at a newline. For delimiters without
special characters and a suffix without newline the result is the suffix after the leftmost
delimiter and the cleaned `srcDir + delimiter + suffix`, as for `/common/`. -/
theorem cleanPathAndroid_delimiter_as_regexp :
    (∀ existFn, cleanPathAndroid "/out/v1x0/src/v1.0/main.c" "/src" ["/v1.0/"] existFn =
      some ("src/v1.0/main.c", "/src/v1x0/src/v1.0/main.c")) ∧
    ("/v1.0/".toList <:+: "/out/v1x0/src/v1.0/main.c".toList ∧
      "/out/v1x0/src/v1.0/main.c".toList = "/out/v1x0/src".toList ++ "/v1.0/".toList ++
        "main.c".toList ∧
      filepathClean ("/src" ++ "/v1.0/" ++ "main.c") = "/src/v1.0/main.c") ∧
    (∀ existFn, cleanPathAndroid "/build/common/a\nb.c" "/src" ["/common/"] existFn =
      some ("a", "/src/common/a")) ∧
    (∀ existFn, cleanPathAndroid "/build/common/drivers/x.c" "/src" ["/aosp/", "/common/"]
      existFn = some ("drivers/x.c", "/src/common/drivers/x.c")) ∧
    (∀ (path srcDir : String) (delimiters : List String) (existFn : String → Bool)
      (before : List String) (d : String) (after : List String) (pre suffix : List Char),
      delimiters = before ++ d :: after →
      (∀ d' ∈ delimiters, ∀ c ∈ d'.toList, isRegexpMeta c = false ∧ c ≠ '.') →
      path.toList = pre ++ d.toList ++ suffix →
      (∀ q, q < pre.length → ∀ d' ∈ delimiters, ¬ d'.toList <+: path.toList.drop q) →
      (∀ d' ∈ before, ¬ d'.toList <+: d.toList ++ suffix) →
      '\n' ∉ suffix →
      cleanPathAndroid path srcDir delimiters existFn =
        some (String.mk suffix, filepathClean (srcDir ++ d ++ String.mk suffix))) := by
  refine ⟨fun _ => rfl, ⟨by decide, by decide, by decide⟩, fun _ => rfl, fun _ => rfl, ?_⟩
  intro path srcDir delimiters existFn before d after pre suffix h1 h2 h3 h4 h5 h6
  exact cleanPathAndroid_literal path srcDir delimiters existFn before d after pre suffix
    h1 h2 h3 h4 h5 h6

/-- C24 (as amended): whenever `cleanPathAndroid` returns an empty name for the cleaned path
(in particular for an empty delimiter list), `CleanPath` returns a display name that begins
neither with `/` nor with a backslash. -/
theorem CleanPath_name_trimmed (abs : String → String) (isExist : String → Bool)
    (path : String) (kernelDirs : KernelDirs) (splitBuildDelimiters : List String) :
    ((∃ apath, cleanPathAndroid (filepathClean path) kernelDirs.Src splitBuildDelimiters isExist
        = some ("", apath)) →
      ∃ name filename, CleanPath abs isExist path kernelDirs splitBuildDelimiters
          = some (name, filename) ∧
        ¬ BeginsWith name '/' ∧ ¬ BeginsWith name '\\') ∧
    (splitBuildDelimiters = [] →
      ∃ name filename, CleanPath abs isExist path kernelDirs splitBuildDelimiters
          = some (name, filename) ∧
        ¬ BeginsWith name '/' ∧ ¬ BeginsWith name '\\') := by
  have main : (∃ apath, cleanPathAndroid (filepathClean path) kernelDirs.Src
      splitBuildDelimiters isExist = some ("", apath)) →
      ∃ name filename, CleanPath abs isExist path kernelDirs splitBuildDelimiters
          = some (name, filename) ∧
        ¬ BeginsWith name '/' ∧ ¬ BeginsWith name '\\' := by
    rintro ⟨apath, ha⟩
    unfold CleanPath
    dsimp only
    rw [ha]
    dsimp only
    rw [if_neg (by simp)]
    split_ifs
    · exact ⟨_, _, rfl, trimLeft_not_beginsWith _⟩
    · exact ⟨_, _, rfl, trimLeft_not_beginsWith _⟩
    · exact ⟨_, _, rfl, trimLeft_not_beginsWith _⟩
  refine ⟨main, fun hnil => main ⟨"", ?_⟩⟩
  subst hnil
  rfl

theorem CleanPath_name_trimmed_witness :
    (∃ apath, cleanPathAndroid (filepathClean "/build//drivers/x.c") androidDirs.Src
      ["/common/"] (fun _ => false) = some ("", apath)) ∧
    (∃ name filename, CleanPath id (fun _ => false) "/build//drivers/x.c" androidDirs
        ["/common/"] = some (name, filename) ∧
      ¬ BeginsWith name '/' ∧ ¬ BeginsWith name '\\') ∧
    CleanPath id (fun _ => false) "/build//drivers/x.c" androidDirs ["/common/"]
      = some ("drivers/x.c", "/src/drivers/x.c") :=
  ⟨⟨"", rfl⟩,
    (CleanPath_name_trimmed id (fun _ => false) "/build//drivers/x.c" androidDirs
      ["/common/"]).1 ⟨"", rfl⟩,
    rfl⟩

/-- C24 (as stated) fails: the name found by `cleanPathAndroid` is returned as it is. With
the delimiter `/common` the name of `/build/common/drivers/x.c` is `/drivers/x.c`; with the
delimiter `/common/` the name of `/x.c`, found under `/src/common/`, is `/x.c`, and the name
of a file whose name starts with a backslash starts with a backslash. -/
theorem CleanPath_android_name_untrimmed :
    (CleanPath id (fun _ => false) "/build/common/drivers/x.c" androidDirs ["/common"]
        = some ("/drivers/x.c", "/src/common/drivers/x.c") ∧
      BeginsWith "/drivers/x.c" '/') ∧
    (CleanPath id (fun p => p = "/src/common/x.c") "/x.c" androidDirs ["/common/"]
        = some ("/x.c", "/src/common/x.c") ∧
      BeginsWith "/x.c" '/') ∧
    (CleanPath id (fun _ => false) "/build/common/\\x.c" androidDirs ["/common/"]
        = some ("\\x.c", "/src/common/\\x.c") ∧
      BeginsWith "\\x.c" '\\') := by
  refine ⟨⟨by decide, by decide⟩, ⟨by decide, by decide⟩, ⟨by decide, by decide⟩⟩

/-! ## Retention and attribution -/

theorem attrStateAt_succ (symbols pcs : List Nat) (typ : Nat) (h : Heap) (n : Nat) :
    attrStateAt symbols pcs typ h (n + 1) =
      attrStep symbols pcs typ (attrStateAt symbols pcs typ h n) n := by
  unfold attrStateAt
  rw [List.range_succ, List.foldl_append]
  rfl

theorem run_ne_nil (pcs : List Nat) (n f : Nat) (hf : f < n) (hn : n ≤ pcs.length) :
    (pcs.take n).drop f ≠ [] :=
  List.ne_nil_of_mem ((mem_run pcs n f _).2 ⟨f, le_refl _, hf, by omega, rfl⟩)

/-- The loop over `pcs` in the first pass, without any assumption on the order of `pcs`:
before iteration `n`, the current symbol is the symbol of an earlier cover point, a slice
that differs from the initial one is not empty and belongs to the symbol of an earlier cover
point, and the symbol of every earlier cover point is current or has a non-empty slice. -/
theorem attrFold_attributed (symbols pcs : List Nat) (typ : Nat) (h : Heap) :
    ∀ n, n ≤ pcs.length →
      ((attrStateAt symbols pcs typ h n).curSymbol = none →
        (attrStateAt symbols pcs typ h n).firstSymbolPC = -1) ∧
      (∀ c, (attrStateAt symbols pcs typ h n).curSymbol = some c →
        0 ≤ (attrStateAt symbols pcs typ h n).firstSymbolPC ∧
        (attrStateAt symbols pcs typ h n).firstSymbolPC < n ∧
        ∃ i, i < n ∧ stepSymb symbols pcs (attrStateAt symbols pcs typ h i) i = some c) ∧
      (∀ b, selectPCs ((attrStateAt symbols pcs typ h n).heap.symbols b).toObjectUnit typ
          = selectPCs (h.symbols b).toObjectUnit typ ∨
        (selectPCs ((attrStateAt symbols pcs typ h n).heap.symbols b).toObjectUnit typ ≠ [] ∧
          ∃ i, i < n ∧ stepSymb symbols pcs (attrStateAt symbols pcs typ h i) i = some b)) ∧
      (∀ i b, i < n → stepSymb symbols pcs (attrStateAt symbols pcs typ h i) i = some b →
        (attrStateAt symbols pcs typ h n).curSymbol = some b ∨
          selectPCs ((attrStateAt symbols pcs typ h n).heap.symbols b).toObjectUnit typ ≠ []) := by
  intro n
  induction n with
  | zero =>
    intro _
    refine ⟨fun _ => rfl, fun c hc => (by cases hc), fun b => Or.inl rfl,
      fun i b hi => absurd hi (Nat.not_lt_zero _)⟩
  | succ n ih =>
    intro hle
    obtain ⟨hnone, hrun, hslice, hstored⟩ := ih (by omega)
    rw [attrStateAt_succ]
    generalize hst : attrStateAt symbols pcs typ h n = st at hnone hrun hslice hstored
    have hsym : stepSymb symbols pcs (attrStateAt symbols pcs typ h n) n =
        stepSymb symbols pcs st n := by rw [hst]
    obtain ⟨f1, f2, f3⟩ := attrStep_first symbols pcs typ st n hnone
      (fun c hc => (hrun c hc).1)
    have hcur' : (attrStep symbols pcs typ st n).curSymbol = stepSymb symbols pcs st n := rfl
    have hflush : ∀ c, st.curSymbol = some c →
        (pcs.take n).drop st.firstSymbolPC.toNat ≠ [] := by
      intro c hc
      obtain ⟨h0, h1, -⟩ := hrun c hc
      exact run_ne_nil pcs n _ (by omega) (by omega)
    refine ⟨?_, ?_, ?_, ?_⟩
    · intro hn
      exact f1 (hcur' ▸ hn)
    · intro c' hc'
      rw [hcur'] at hc'
      by_cases hcc : st.curSymbol = some c'
      · rw [f3 c' hc' hcc]
        obtain ⟨h0, h1, i, hi, hsi⟩ := hrun c' hcc
        exact ⟨h0, by omega, i, by omega, hsi⟩
      · rw [f2 c' hc' hcc]
        exact ⟨by omega, by omega, n, by omega, hsym.trans hc'⟩
    · intro b
      rcases attrStep_heap symbols pcs typ st n with ⟨-, he⟩ | ⟨-, he⟩ | ⟨c, hc, -, he⟩
      · rw [he]
        rcases hslice b with hl | ⟨hr1, i, hi, hsi⟩
        · exact Or.inl hl
        · exact Or.inr ⟨hr1, i, by omega, hsi⟩
      · rw [he]
        rcases hslice b with hl | ⟨hr1, i, hi, hsi⟩
        · exact Or.inl hl
        · exact Or.inr ⟨hr1, i, by omega, hsi⟩
      · rw [he, setSymbolPCs_select]
        by_cases hb : b = c
        · rw [if_pos ⟨hb, Iff.rfl⟩]
          obtain ⟨-, -, i, hi, hsi⟩ := hrun c hc
          exact Or.inr ⟨hflush c hc, i, by omega, hb ▸ hsi⟩
        · rw [if_neg (fun hh => hb hh.1)]
          rcases hslice b with hl | ⟨hr1, i, hi, hsi⟩
          · exact Or.inl hl
          · exact Or.inr ⟨hr1, i, by omega, hsi⟩
    · intro i b hi hsi
      by_cases hin : i < n
      · rcases attrStep_heap symbols pcs typ st n with ⟨hc, he⟩ | ⟨hc, he⟩ | ⟨c, hc, -, he⟩
        · rw [he]
          rcases hstored i b hin hsi with hl | hr
          · rw [hc] at hl
            cases hl
          · exact Or.inr hr
        · rw [he]
          rcases hstored i b hin hsi with hl | hr
          · left
            rw [hcur', ← hc]
            exact hl
          · exact Or.inr hr
        · right
          rw [he, setSymbolPCs_select]
          by_cases hb : b = c
          · rw [if_pos ⟨hb, Iff.rfl⟩]
            exact hflush c hc
          · rw [if_neg (fun hh => hb hh.1)]
            rcases hstored i b hin hsi with hl | hr
            · rw [hc] at hl
              exact absurd (Option.some.inj hl).symm hb
            · exact hr
      · have hie : i = n := by omega
        subst hie
        left
        rw [hcur', ← hsym]
        exact hsi

/-- A symbol whose slice is empty before a pass of the first loop has a non-empty slice after
it iff it is the symbol of some cover point of the pass. -/
theorem attributeType_attributed (symbols pcs : List Nat) (typ : Nat) (h : Heap) (b : Nat)
    (hb : selectPCs (h.symbols b).toObjectUnit typ = []) :
    selectPCs ((attributeType symbols pcs typ h).symbols b).toObjectUnit typ ≠ [] ↔
      ∃ i, i < pcs.length ∧
        stepSymb symbols pcs (attrStateAt symbols pcs typ h i) i = some b := by
  obtain ⟨-, hrun, hslice, hstored⟩ :=
    attrFold_attributed symbols pcs typ h pcs.length (le_refl _)
  have hheap : attributeType symbols pcs typ h =
      match (attrStateAt symbols pcs typ h pcs.length).curSymbol with
      | some cur => (attrStateAt symbols pcs typ h pcs.length).heap.setSymbolPCs cur typ
          (pcs.drop (attrStateAt symbols pcs typ h pcs.length).firstSymbolPC.toNat)
      | none => (attrStateAt symbols pcs typ h pcs.length).heap := rfl
  rw [hheap]
  rcases hc : (attrStateAt symbols pcs typ h pcs.length).curSymbol with _ | c
  · dsimp only
    constructor
    · intro hne
      rcases hslice b with hl | ⟨-, hr⟩
      · rw [hl, hb] at hne
        exact absurd rfl hne
      · exact hr
    · rintro ⟨i, hi, hsi⟩
      rcases hstored i b hi hsi with hl | hr
      · rw [hc] at hl
        cases hl
      · exact hr
  · dsimp only
    obtain ⟨h0, h1, i0, hi0, hsi0⟩ := hrun c hc
    have hne : pcs.drop (attrStateAt symbols pcs typ h pcs.length).firstSymbolPC.toNat ≠ [] := by
      have := run_ne_nil pcs pcs.length
        (attrStateAt symbols pcs typ h pcs.length).firstSymbolPC.toNat (by omega) (le_refl _)
      rwa [List.take_length] at this
    rw [setSymbolPCs_select]
    by_cases hbc : b = c
    · rw [if_pos ⟨hbc, Iff.rfl⟩]
      exact ⟨fun _ => ⟨i0, hi0, hbc ▸ hsi0⟩, fun _ => hne⟩
    · rw [if_neg (fun hh => hbc hh.1)]
      constructor
      · intro hne'
        rcases hslice b with hl | ⟨-, hr⟩
        · rw [hl, hb] at hne'
          exact absurd rfl hne'
        · exact hr
      · rintro ⟨i, hi, hsi⟩
        rcases hstored i b hi hsi with hl | hr
        · rw [hc] at hl
          exact absurd (Option.some.inj hl).symm hbc
        · exact hr

/-- C8 (as amended): for symbols that are sorted by `Start` and start without PCs, and ranges
sorted by `start`, a symbol is returned by `buildSymbols` iff it is an input symbol to which
the first pass attributes at least one trace-pc cover point and whose `Start` lies in some
range; the `Unit` of a returned symbol is the unit of the first range of the sorted slice
that contains its `Start`; and the returned slice keeps the input order (it is the input
filtered). -/
theorem buildSymbols_retention (symbols : List Nat) (ranges : List pcRange)
    (coverPoints : List Nat × List Nat) (h : Heap)
    (hsym : symbols.Pairwise (fun a b => (h.symbols a).Start ≤ (h.symbols b).Start))
    (hrng : ranges.Pairwise (fun a b => a.start ≤ b.start))
    (hempty : ∀ p ∈ symbols, (h.symbols p).PCs = []) :
    (∀ s, s ∈ (buildSymbols symbols ranges coverPoints h).1 ↔
      s ∈ symbols ∧
        (∃ i, i < coverPoints.1.length ∧ attributedTo symbols coverPoints h 0 i = some s) ∧
        ∃ rg ∈ ranges, rg.start ≤ (h.symbols s).Start ∧ (h.symbols s).Start < rg.end_) ∧
    (∀ s ∈ (buildSymbols symbols ranges coverPoints h).1,
      ((buildSymbols symbols ranges coverPoints h).2.symbols s).Unit =
        (firstCover ranges (h.symbols s).Start).map (fun rg => rg.unit)) ∧
    (buildSymbols symbols ranges coverPoints h).1 =
      symbols.filter (fun s => decide (Retained (attributePCs symbols coverPoints h) ranges s)) ∧
    (buildSymbols symbols ranges coverPoints h).1.Sublist symbols := by
  obtain ⟨r1, r2, r3, r4⟩ := buildSymbols_retained_iff symbols ranges coverPoints h hsym hrng
  refine ⟨?_, r2, r3, r4⟩
  intro s
  rw [r1 s]
  have hlink : s ∈ symbols →
      (((attributePCs symbols coverPoints h).symbols s).PCs ≠ [] ↔
        ∃ i, i < coverPoints.1.length ∧ attributedTo symbols coverPoints h 0 i = some s) := by
    intro hs
    have h1 : ((attributePCs symbols coverPoints h).symbols s).PCs =
        selectPCs ((attributeType symbols coverPoints.1 0 h).symbols s).toObjectUnit 0 :=
      attributeType_other symbols coverPoints.2 1 0 _ (by decide) s
    rw [h1]
    exact attributeType_attributed symbols coverPoints.1 0 h s (hempty s hs)
  constructor
  · rintro ⟨hs, hp, hr⟩
    exact ⟨hs, (hlink hs).1 hp, hr⟩
  · rintro ⟨hs, hp, hr⟩
    exact ⟨hs, (hlink hs).2 hp, hr⟩

theorem buildSymbols_retention_witness :
    (fixtureSymbols.Pairwise
        (fun a b => (fixtureHeap.symbols a).Start ≤ (fixtureHeap.symbols b).Start) ∧
      fixtureRanges.Pairwise (fun a b => a.start ≤ b.start) ∧
      ∀ p ∈ fixtureSymbols, (fixtureHeap.symbols p).PCs = []) ∧
    (1 ∈ (buildSymbols fixtureSymbols fixtureRanges fixtureCoverPoints fixtureHeap).1 ↔
      1 ∈ fixtureSymbols ∧
        (∃ i, i < fixtureCoverPoints.1.length ∧
          attributedTo fixtureSymbols fixtureCoverPoints fixtureHeap 0 i = some 1) ∧
        ∃ rg ∈ fixtureRanges, rg.start ≤ (fixtureHeap.symbols 1).Start ∧
          (fixtureHeap.symbols 1).Start < rg.end_) ∧
    attributedTo fixtureSymbols fixtureCoverPoints fixtureHeap 0 1 = some 1 ∧
    (buildSymbols fixtureSymbols fixtureRanges fixtureCoverPoints fixtureHeap).1 = [0, 1] :=
  ⟨⟨by decide, by decide, by decide⟩,
    (buildSymbols_retention fixtureSymbols fixtureRanges fixtureCoverPoints fixtureHeap
      (by decide) (by decide) (by decide)).1 1, by decide, by decide⟩

/-- C8 (as stated) fails: in `presetHeap` the symbol at address 1 enters `buildSymbols` with the
PCs `[9, 3]`. The symbols are sorted by `Start` and the ranges by `start`, the only cover point
`0x50` is attributed to the symbol at address 0, and no cover point is attributed to the symbol
at address 1; yet that symbol is returned, because its `PCs` are not empty. -/
theorem buildSymbols_retention_preset :
    ([0, 1].Pairwise (fun a b => (presetHeap.symbols a).Start ≤ (presetHeap.symbols b).Start) ∧
      presetResult.ranges.Pairwise (fun a b => a.start ≤ b.start)) ∧
    attributedTo [0, 1] presetResult.coverPoints presetHeap 0 0 = some 0 ∧
    (∀ i, i < presetResult.coverPoints.1.length →
      attributedTo [0, 1] presetResult.coverPoints presetHeap 0 i ≠ some 1) ∧
    (∀ i, i < presetResult.coverPoints.2.length →
      attributedTo [0, 1] presetResult.coverPoints presetHeap 1 i ≠ some 1) ∧
    1 ∈ (buildSymbols [0, 1] presetResult.ranges presetResult.coverPoints presetHeap).1 ∧
    (buildSymbols [0, 1] presetResult.ranges presetResult.coverPoints presetHeap).1 = [0, 1] ∧
    ((attributePCs [0, 1] presetResult.coverPoints presetHeap).symbols 1).PCs = [9, 3] := by
  refine ⟨⟨by decide, by decide⟩, by decide, by decide, by decide, by decide, by decide,
    by decide⟩

end Backend
